import Mathlib

/-!
# Sudoku solver (`sudoku.c`): embedding and verification

The board `square_t square[9][9]` is laid out row-major, so `square[i][j]` is the
cell at flat offset `9 * i + j`; pointers to cells are flat offsets.  Offsets `0..80`
are the board, anything else lies outside the array.

Machine integers are naturals reduced explicitly: `digits` and masks are 16 bit
(`unsigned short`), `unsolved_squares` is 8 bit (`unsigned char`), the two counters
are 64 bit (`unsigned long`).

Recursive functions carry a fuel argument: `none` means the fuel ran out.
-/

namespace Sudoku

/-! ## Data model -/

/-- Result code `SOLVED`. -/
def SOLVED : Int := 0
/-- Result code `ERROR`. -/
def ERROR : Int := -1
/-- Result code `INCOMPLETE`. -/
def INCOMPLETE : Int := 1

/-- Group kind `GCOLUMN`. -/
def GCOLUMN : Nat := 0
/-- Group kind `GROW`. -/
def GROW : Nat := 1
/-- Group kind `GMATRIX`. -/
def GMATRIX : Nat := 2

/-- The two data fields of `struct square_t`; the three group pointers live in `Wiring`,
they are written once by the initialisation and never change. -/
structure square_t where
  digits : Nat
  size : Nat
deriving DecidableEq, Repr, Inhabited

/-- The group pointers: `group c k` is `square[c].group[k]` as the pair
(kind, index) naming `square_group[kind][index]`, and `member kind index p` is
`square_group[kind][index].square[p]` as a flat cell offset. -/
structure Wiring where
  group : Nat → Nat → Nat × Nat
  member : Nat → Nat → Nat → Nat

/-- The option flags `search_all_solutions` and `print_all_solutions`. -/
structure Config where
  search_all_solutions : Bool
  print_all_solutions : Bool
deriving DecidableEq, Repr

/-- The mutable globals: the board, `unsolved_squares`, `solutions`, `assumptions`,
`first_solution`, and the boards handed to `print_result` on the output file
(most recent first). -/
structure State where
  square : Nat → square_t
  unsolved_squares : Nat
  solutions : Nat
  assumptions : Nat
  first_solution : Bool
  output : List (Nat → square_t)

/-- Complement of a mask, truncated to `unsigned short`. -/
def not16 (mask : Nat) : Nat := 65535 ^^^ (mask % 65536)

/-- The builtin population count, on a 16 bit value. -/
def popcount (d : Nat) : Nat := ((List.range 16).filter (fun b => d.testBit b)).length

/-- The cell `s->group[g]->square[i]`. -/
def Wiring.peer (w : Wiring) (s g i : Nat) : Nat :=
  w.member (w.group s g).1 (w.group s g).2 i

/-! ## Initialisation (the first loop nest of `main`) -/

/-- One body of the initialisation loop nest, for the indices `i`, `j`: the three
assignments to `square_group[..][i].square[j]` and the three back pointers. -/
def initStep (w : Wiring) (i j : Nat) : Wiring :=
  let s1 := 9 * i + j
  let w1 : Wiring :=
    { group := fun c k => if c = s1 ∧ k = GROW then (GROW, i) else w.group c k
      member := fun kind idx p =>
        if kind = GROW ∧ idx = i ∧ p = j then s1 else w.member kind idx p }
  let s2 := 9 * j + i
  let w2 : Wiring :=
    { group := fun c k => if c = s2 ∧ k = GCOLUMN then (GCOLUMN, i) else w1.group c k
      member := fun kind idx p =>
        if kind = GCOLUMN ∧ idx = i ∧ p = j then s2 else w1.member kind idx p }
  let squarex := 3 * (i % 3) + (j % 3)
  let squarey := 3 * (i / 3) + (j / 3)
  let s3 := 9 * squarex + squarey
  { group := fun c k => if c = s3 ∧ k = GMATRIX then (GMATRIX, i) else w2.group c k
    member := fun kind idx p =>
      if kind = GMATRIX ∧ idx = i ∧ p = j then s3 else w2.member kind idx p }

/-- The pairs `(i, j)` in the order the loop nests `for i .. for j ..` visit them. -/
def loopPairs : List (Nat × Nat) :=
  (List.range 9).flatMap (fun i => (List.range 9).map (fun j => (i, j)))

/-- The group pointers after the initialisation loop nest. -/
def initWiring : Wiring :=
  loopPairs.foldl (fun w p => initStep w p.1 p.2)
    { group := fun _ _ => (0, 0), member := fun _ _ _ => 0 }

/-- The globals after the initialisation loop nest: every cell `0x01ff` with size 9, and
the static initialisers of the counters. -/
def initState : State :=
  { square := fun _ => ⟨0x01ff, 9⟩
    unsolved_squares := 81
    solutions := 0
    assumptions := 0
    first_solution := true
    output := [] }

/-! ## Propagation: `uncertainty_reduction` -/

/-- Store new `digits` and `size` into cell `s`. -/
def State.setSquare (st : State) (s : Nat) (c : square_t) : State :=
  { st with square := fun t => if t = s then c else st.square t }

/-- The 27 pairs `(group, i)` in the order of `for group < 3, for i < 9`. -/
def groupPairs : List (Nat × Nat) :=
  (List.range 3).flatMap (fun g => (List.range 9).map (fun i => (g, i)))

/-- The first order loop (cell `s` has just been fixed): every other cell of the three
groups that still holds the digit of `s` is reduced by `s->digits`, read afresh at each
iteration.  A result other than `INCOMPLETE` leaves the loop (and the function) at once;
`INCOMPLETE` means the loop ran to its end. -/
def firstOrderLoop (rec : State → Nat → Nat → Option (Int × State)) (w : Wiring) (s : Nat) :
    List (Nat × Nat) → State → Option (Int × State)
  | [], st => some (INCOMPLETE, st)
  | (g, i) :: rest, st =>
    let s2 := w.peer s g i
    if s2 ≠ s ∧ (st.square s2).digits &&& (st.square s).digits ≠ 0 then
      match rec st s2 (st.square s).digits with
      | none => none
      | some (r, st1) =>
        if r ≠ INCOMPLETE then some (r, st1) else firstOrderLoop rec w s rest st1
    else firstOrderLoop rec w s rest st

/-- The array `uncontained` filled for one group: the other cells of the group whose
digit set is not contained in that of `s`, in index order. -/
def uncontainedOf (w : Wiring) (st : State) (s g : Nat) : List Nat :=
  ((List.range 9).map (fun i => w.peer s g i)).filter
    (fun s2 => s2 ≠ s ∧ ((st.square s2).digits ||| (st.square s).digits) ≠ (st.square s).digits)

/-- The loop over `uncontained[i]`: each is reduced by `s->digits`, read afresh at each
iteration. -/
def reduceUncontained (rec : State → Nat → Nat → Option (Int × State)) (s : Nat) :
    List Nat → State → Option (Int × State)
  | [], st => some (INCOMPLETE, st)
  | u :: rest, st =>
    match rec st u (st.square s).digits with
    | none => none
    | some (r, st1) =>
      if r ≠ INCOMPLETE then some (r, st1) else reduceUncontained rec s rest st1

/-- The N-th order loop over the three groups; `n` is the local variable computed before
the loop and not refreshed. -/
def nthOrderLoop (rec : State → Nat → Nat → Option (Int × State)) (w : Wiring) (s n : Nat) :
    List Nat → State → Option (Int × State)
  | [], st => some (INCOMPLETE, st)
  | g :: rest, st =>
    let uncontained := uncontainedOf w st s g
    if (uncontained.length : Int) = 9 - (n : Int) then
      match reduceUncontained rec s uncontained st with
      | none => none
      | some (r, st1) =>
        if r ≠ INCOMPLETE then some (r, st1) else nthOrderLoop rec w s n rest st1
    else nthOrderLoop rec w s n rest st

/-- The closing test on `unsolved_squares`. -/
def finalStatus (st : State) : Int :=
  if st.unsolved_squares > 0 then INCOMPLETE
  else if st.unsolved_squares = 0 then SOLVED
  else ERROR

/-- The function `uncertainty_reduction(s, mask)`. -/
def uncertainty_reduction (cfg : Config) (w : Wiring) :
    Nat → State → Nat → Nat → Option (Int × State)
  | 0, _, _, _ => none
  | fuel + 1, st, s, mask =>
    if (st.square s).digits &&& mask = 0 then some (INCOMPLETE, st)
    else
      let digits := (st.square s).digits &&& not16 mask
      let n := popcount digits
      let st1 := st.setSquare s ⟨digits, n⟩
      if n = 0 then some (ERROR, st1)
      else if n = 1 then
        match firstOrderLoop (uncertainty_reduction cfg w fuel) w s groupPairs st1 with
        | none => none
        | some (r, st2) =>
          if r ≠ INCOMPLETE then some (r, st2)
          else
            let st3 := { st2 with unsolved_squares := (st2.unsolved_squares + 255) % 256 }
            if st3.unsolved_squares = 0 then
              let st4 :=
                if cfg.print_all_solutions ∨ st3.first_solution then
                  { st3 with output := st3.square :: st3.output }
                else st3
              let st5 := if st4.first_solution then { st4 with first_solution := false } else st4
              some (SOLVED, { st5 with solutions := (st5.solutions + 1) % 2 ^ 64 })
            else some (finalStatus st3, st3)
      else
        match nthOrderLoop (uncertainty_reduction cfg w fuel) w s n [0, 1, 2] st1 with
        | none => none
        | some (r, st2) =>
          if r ≠ INCOMPLETE then some (r, st2) else some (finalStatus st2, st2)

/-! ## Search: `make_assumption` -/

/-- What the scanning loop at the head of `make_assumption` ends with: the position of a
cell whose size is not 1, the `return INCOMPLETE` of the "end reached" test, or a read of
`square[i][j]` at an offset that lies outside the 81 cells of the array. -/
inductive Scan where
  | found (i j : Nat)
  | endReached
  | outOfBounds
deriving DecidableEq, Repr

/-- The loop `while (square[i][j].size == 1) ...` of `make_assumption`. -/
def scan : Nat → State → Nat → Nat → Option Scan
  | 0, _, _, _ => none
  | fuel + 1, st, i, j =>
    if 81 ≤ 9 * i + j then some Scan.outOfBounds
    else if (st.square (9 * i + j)).size = 1 then
      if j + 1 = 10 then
        if i + 1 = 10 then some Scan.endReached else scan fuel st (i + 1) 0
      else scan fuel st i (j + 1)
    else some (Scan.found i j)

/-- How a call of `make_assumption` (or the whole engine) ends: it returns `r` in state
`st`, or it has read outside the board array, after which the C program has no defined
behaviour. -/
inductive Run where
  | ret (r : Int) (st : State)
  | outOfBounds

/-- The loop `for (k = 0; k < 9; k++)` of `make_assumption` on the cell `square[i][j]`:
`red` is `uncertainty_reduction`, `recur` is the recursive `make_assumption`. -/
def tryDigits (cfg : Config) (red : State → Nat → Nat → Option (Int × State))
    (recur : State → Nat → Nat → Option Run) (i j : Nat) : List Nat → State → Option Run
  | [], st => some (Run.ret INCOMPLETE st)
  | k :: rest, st =>
    if ((st.square (9 * i + j)).digits >>> k) &&& 1 ≠ 0 then
      let st1 := { st with assumptions := (st.assumptions + 1) % 2 ^ 64 }
      let square_backup := st1.square
      let unsolved_squares_backup := st1.unsolved_squares
      match red st1 (9 * i + j) (not16 (1 <<< k)) with
      | none => none
      | some (r, st2) =>
        match (if r = INCOMPLETE then recur st2 i j else some (Run.ret r st2)) with
        | none => none
        | some Run.outOfBounds => some Run.outOfBounds
        | some (Run.ret r2 st3) =>
          if r2 = SOLVED ∧ cfg.search_all_solutions = false then some (Run.ret SOLVED st3)
          else
            tryDigits cfg red recur i j rest
              { st3 with square := square_backup, unsolved_squares := unsolved_squares_backup }
    else tryDigits cfg red recur i j rest st

/-- The function `make_assumption(i, j)`. -/
def make_assumption (cfg : Config) (w : Wiring) : Nat → State → Nat → Nat → Option Run
  | 0, _, _, _ => none
  | fuel + 1, st, i, j =>
    match scan (fuel + 1) st i j with
    | none => none
    | some Scan.outOfBounds => some Run.outOfBounds
    | some Scan.endReached => some (Run.ret INCOMPLETE st)
    | some (Scan.found i1 j1) =>
      tryDigits cfg (uncertainty_reduction cfg w (fuel + 1)) (make_assumption cfg w fuel)
        i1 j1 (List.range 9) st

/-! ## The engine (`main` after option parsing and input) -/

/-- The table `square_in` after the initialisation and `parse_input_file`, for a clue grid
given by flat offset (`clue (9 * i + j)` is the clue of `square_in[i][j]`): a digit `1..9`
is stored as its bit with size 1, anything else leaves the initial `0x01ff`, size 9. -/
def square_in (clue : Nat → Nat) (c : Nat) : square_t :=
  if 1 ≤ clue c ∧ clue c ≤ 9 then ⟨1 <<< (clue c - 1), 1⟩ else ⟨0x01ff, 9⟩

/-- The pairs `(j, i)` in the order of the loop nest `for j .. for i ..` of the simple
reductions. -/
def cluePairs : List (Nat × Nat) :=
  (List.range 9).flatMap (fun j => (List.range 9).map (fun i => (j, i)))

/-- The loop nest "starts simple reductions": `r` is overwritten by every call. -/
def simpleReductions (cfg : Config) (w : Wiring) (fuel : Nat) (sq_in : Nat → square_t) :
    List (Nat × Nat) → Int × State → Option (Int × State)
  | [], rs => some rs
  | (j, i) :: rest, (r, st) =>
    if (sq_in (9 * i + j)).size = 1 then
      match uncertainty_reduction cfg w fuel st (9 * i + j) (not16 (sq_in (9 * i + j)).digits) with
      | none => none
      | some rs1 => simpleReductions cfg w fuel sq_in rest rs1
    else simpleReductions cfg w fuel sq_in rest (r, st)

/-- The engine: initialisation, simple reductions over the clues, then
`make_assumption(0, 0)` when `r` is `INCOMPLETE`.  The returned code is the final `r`
(`ERROR` is the "puzzle cannot be solved" exit). -/
def engine (cfg : Config) (fuel : Nat) (sq_in : Nat → square_t) : Option Run :=
  match simpleReductions cfg initWiring fuel sq_in cluePairs (INCOMPLETE, initState) with
  | none => none
  | some (r, st) =>
    if r = INCOMPLETE then make_assumption cfg initWiring fuel st 0 0
    else some (Run.ret r st)

/-! ## Specification vocabulary -/

/-- Bitwise inclusion of digit sets: every digit of `a` is a digit of `b`. -/
def Sub (a b : Nat) : Prop := ∀ i, a.testBit i = true → b.testBit i = true

/-- Propagation never adds a candidate: every cell's digit set in `st'` is included in
its digit set in `st`. -/
def Shrinks (st st' : State) : Prop :=
  ∀ t, Sub (st'.square t).digits (st.square t).digits

/-- The board after the assignment `s->digits &= ~mask; s->size = popcount`. -/
def cleared (st : State) (s mask : Nat) : State :=
  st.setSquare s ⟨(st.square s).digits &&& not16 mask,
    popcount ((st.square s).digits &&& not16 mask)⟩

/-- The state after `--unsolved_squares`. -/
def decremented (st : State) : State :=
  { st with unsolved_squares := (st.unsolved_squares + 255) % 256 }

/-- The state after the body of `if (--unsolved_squares == 0)`: the board is printed when
`print_all_solutions` or `first_solution` is set, `first_solution` is cleared and
`solutions` is incremented. -/
def recorded (cfg : Config) (st : State) : State :=
  { st with
    output := if cfg.print_all_solutions ∨ st.first_solution then st.square :: st.output
              else st.output
    first_solution := false
    solutions := (st.solutions + 1) % 2 ^ 64 }

/-- What every call leaves alone or only shrinks: digit sets shrink and the assumption
counter is untouched. -/
def Frame (st st' : State) : Prop :=
  Shrinks st st' ∧ st'.assumptions = st.assumptions

/-- Sum of the digit masks of the 81 cells, the termination measure of propagation. -/
def digitSum (st : State) : Nat := ∑ c in Finset.range 81, (st.square c).digits

/-- The group pointers stay inside the board. -/
def InRange (w : Wiring) : Prop :=
  ∀ s g i, s < 81 → g < 3 → i < 9 → w.peer s g i < 81

/-- Closed form of the index of the group of kind `g` that holds cell `s`. -/
def groupIdx (s g : Nat) : Nat :=
  if g = 0 then s % 9 else if g = 1 then s / 9 else (s / 9) / 3 + 3 * ((s % 9) / 3)

/-- Closed form of `square_group[g][idx].square[p]` after the initialisation. -/
def memberF (g idx p : Nat) : Nat :=
  if g = 0 then 9 * p + idx else if g = 1 then 9 * idx + p
  else 9 * (3 * (idx % 3) + p % 3) + (3 * (idx / 3) + p / 3)

/-- Two cells lie in a common group: same first index, same second index, or same aligned
3×3 box. -/
def sameUnit (a b : Nat) : Prop :=
  a / 9 = b / 9 ∨ a % 9 = b % 9 ∨ ((a / 9) / 3 = (b / 9) / 3 ∧ (a % 9) / 3 = (b % 9) / 3)

instance (a b : Nat) : Decidable (sameUnit a b) := by unfold sameUnit; infer_instance

/-- A complete valid Sudoku grid, by flat offset: every cell holds a digit `1..9` and two
distinct cells of a common group hold different digits (so each of the 27 groups holds
every digit exactly once). -/
def ValidGrid (G : Nat → Nat) : Prop :=
  (∀ c, c < 81 → 1 ≤ G c ∧ G c ≤ 9) ∧
  ∀ a b, a < 81 → b < 81 → a ≠ b → sameUnit a b → G a ≠ G b

/-- Grid `G` is compatible with the board: the digit of every cell is among the cell's
candidates (digit `d` is bit `d - 1`). -/
def Compatible (G : Nat → Nat) (st : State) : Prop :=
  ∀ c, c < 81 → (st.square c).digits.testBit (G c - 1) = true

/-- The digit set of a 16 bit mask as a finite set of bit positions. -/
def bits (d : Nat) : Finset Nat := (Finset.range 16).filter (fun b => d.testBit b = true)

/-- The standard group wiring: the pointers of every board cell follow the closed form. -/
def Std (w : Wiring) : Prop :=
  ∀ s g i, s < 81 → g < 3 → i < 9 → w.peer s g i = memberF g (groupIdx s g) i

/-- A concrete complete valid grid, used to instantiate the theorems: the cell at flat
offset `c` holds `(3 * ((c / 9) % 3) + (c / 9) / 3 + c % 9) % 9 + 1`. -/
def sampleGrid (c : Nat) : Nat := (3 * ((c / 9) % 3) + (c / 9) / 3 + c % 9) % 9 + 1

/-- The cells that still hold two or more candidates. -/
def uncertain (st : State) : Finset Nat :=
  (Finset.range 81).filter (fun c => 2 ≤ popcount (st.square c).digits)

/-- Every board cell has a non-empty candidate set within the digits `1..9` (bits `0..8`)
and its cached `size` is the cardinality of the set. -/
def CellsOk (st : State) : Prop :=
  ∀ c, c < 81 → (st.square c).digits ≠ 0 ∧ Sub (st.square c).digits 511 ∧
    (st.square c).size = popcount (st.square c).digits

/-- The digit masks of the board cells fit their 16 bit field. -/
def Typed (st : State) : Prop := ∀ c, c < 81 → (st.square c).digits < 65536

/-- The state inside a propagation: `P` is the set of cells that have been fixed by calls
still running (their peers are not all reduced yet and their decrement of
`unsolved_squares` is still to come). -/
def Inv (P : Finset Nat) (st : State) : Prop :=
  Typed st ∧
  st.unsolved_squares = (uncertain st).card + P.card ∧
  (∀ c, c ∈ P → c < 81 ∧ popcount (st.square c).digits = 1) ∧
  (∀ a b, a < 81 → b < 81 → a ∉ P → popcount (st.square a).digits = 1 → b ≠ a →
    sameUnit a b → (st.square b).digits &&& (st.square a).digits = 0)

/-- A consistent board state: candidate sets non-empty, within `1..9`, cached count equal to
the cardinality; the uncertainty counter equal to the number of cells with two or more
candidates; no cell sharing a group with a single-candidate cell holds that cell's digit. -/
def Consistent (st : State) : Prop :=
  CellsOk st ∧
  st.unsolved_squares = (uncertain st).card ∧
  (∀ a b, a < 81 → b < 81 → popcount (st.square a).digits = 1 → b ≠ a →
    sameUnit a b → (st.square b).digits &&& (st.square a).digits = 0)

/-- What a call of `uncertainty_reduction` made inside a propagation with pending cells `P`
returns. -/
def Post (P : Finset Nat) (r : Int) (st : State) : Prop :=
  (r = INCOMPLETE ∧ Inv P st) ∨
  (r = SOLVED ∧ P = ∅ ∧ Inv ∅ st ∧ st.unsolved_squares = 0) ∨
  r = ERROR

/-- Cells that are not empty stay so through a call that does not return `ERROR`. -/
def KeepsNonEmpty (st st' : State) : Prop :=
  ∀ c, (st.square c).digits ≠ 0 → (st'.square c).digits ≠ 0

/-- The cached `size` of every board cell is the cardinality of its candidate set. -/
def SizesOk (st : State) : Prop :=
  ∀ c, c < 81 → (st.square c).size = popcount (st.square c).digits

/-- The result code, the uncertainty counter and the digit masks of the listed cells of a
propagation result. -/
def observe (cells : List Nat) (x : Option (Int × State)) : Option (Int × Nat × List Nat) :=
  x.map (fun p => (p.1, p.2.unsolved_squares, cells.map (fun c => (p.2.square c).digits)))

/-- A complete valid grid (by flat offset) in which the cells 1, 3, 10, 12 form a rectangle
holding the digits 8, 2, 2, 8. -/
def pairGrid : List Nat :=
  [6, 8, 3, 2, 9, 5, 4, 1, 7, 4, 2, 1, 8, 6, 7, 3, 5, 9, 7, 9, 5, 3, 4, 1, 8, 6, 2,
   5, 7, 2, 1, 3, 4, 9, 8, 6, 8, 4, 6, 5, 7, 9, 1, 2, 3, 3, 1, 9, 6, 8, 2, 5, 7, 4,
   1, 3, 8, 4, 2, 6, 7, 9, 5, 9, 6, 4, 7, 5, 8, 2, 3, 1, 2, 5, 7, 9, 1, 3, 6, 4, 8]

/-- A consistent board state with four uncertain cells: every cell is fixed to its digit of
`pairGrid`, except the cells 1, 3, 10, 12, which hold the candidates `{2, 8}`. -/
def pairState : State :=
  { square := fun c =>
      if c = 1 ∨ c = 3 ∨ c = 10 ∨ c = 12 then ⟨130, 2⟩
      else ⟨1 <<< (pairGrid.getD c 1 - 1), 1⟩
    unsolved_squares := 4
    solutions := 0
    assumptions := 0
    first_solution := true
    output := [] }

/-- The result code, the uncertainty counter, the solutions counter and the assumptions
counter of a run (`some none` for a read outside the board). -/
def observeRun (x : Option Run) : Option (Option (Int × Nat × Nat × Nat)) :=
  x.map (fun run =>
    match run with
    | Run.outOfBounds => none
    | Run.ret r st => some (r, st.unsolved_squares, st.solutions, st.assumptions))

/-- The state after `assumptions++`. -/
def bumped (st : State) : State :=
  { st with assumptions := (st.assumptions + 1) % 2 ^ 64 }

/-- The state after the two restoring assignments at the end of a trial: board and
uncertainty counter of the checkpoint `st`, everything else from `st3`. -/
def restored (st st3 : State) : State :=
  { st3 with square := st.square, unsolved_squares := st.unsolved_squares }

/-- A clue grid with the digit 5 in both `square_in[0][0]` and `square_in[0][1]` (two cells
of the group `square_group[GROW][0]`), the digit 1 in `square_in[0][2]`, and no other clue. -/
def dupClue (c : Nat) : Nat :=
  if c = 0 ∨ c = 1 then 5 else if c = 2 then 1 else 0

/-- What a call of `uncertainty_reduction` made in state `st` inside a propagation with
pending cells `P` returns, with its effect on the solutions counter. -/
def Post2 (P : Finset Nat) (st : State) (r : Int) (st' : State) : Prop :=
  (r = INCOMPLETE ∧ Inv P st' ∧ st'.solutions = st.solutions ∧
    (st' = st ∨ st'.unsolved_squares ≠ 0)) ∨
  (r = SOLVED ∧ P = ∅ ∧ Inv ∅ st' ∧ st'.unsolved_squares = 0 ∧
    st'.solutions = (st.solutions + 1) % 2 ^ 64) ∨
  (r = ERROR ∧ st'.solutions = st.solutions)

/-- A filled grid as data: a digit index `0..8` (digit minus one) for each of the 81 cells. -/
abbrev Grid := Fin 81 → Fin 9

/-- The digits `1..9` of a filled grid, by flat offset. -/
def gridOf (g : Grid) (c : Nat) : Nat := if h : c < 81 then (g ⟨c, h⟩).val + 1 else 0

/-- Grid `g` is a completion of the board: a complete valid Sudoku grid whose digit at every
cell belongs to that cell's candidate set. -/
def IsCompletion (st : State) (g : Grid) : Prop :=
  ValidGrid (gridOf g) ∧ Compatible (gridOf g) st

instance (G : Nat → Nat) : Decidable (ValidGrid G) :=
  decidable_of_iff
    ((∀ c, c < 81 → 1 ≤ G c ∧ G c ≤ 9) ∧
      ∀ a, a < 81 → ∀ b, b < 81 → a ≠ b → sameUnit a b → G a ≠ G b)
    ⟨fun h => ⟨h.1, fun a b ha hb => h.2 a ha b hb⟩,
     fun h => ⟨h.1, fun a ha b hb => h.2 a b ha hb⟩⟩

instance (G : Nat → Nat) (st : State) : Decidable (Compatible G st) := by
  unfold Compatible; infer_instance

instance (st : State) (g : Grid) : Decidable (IsCompletion st g) := by
  unfold IsCompletion; infer_instance

/-- The number of complete valid Sudoku grids whose digit at every cell belongs to that
cell's candidate set. -/
def numCompletions (st : State) : Nat :=
  (Finset.univ.filter (fun g : Grid => IsCompletion st g)).card

/-- The number of completions whose digit at cell `s`, minus one, is in the list `K`. -/
def countAt (st : State) (s : Nat) (K : List Nat) : Nat :=
  (Finset.univ.filter (fun g : Grid => IsCompletion st g ∧ gridOf g s - 1 ∈ K)).card

/-- A decidable rendering of `Consistent`, for concrete boards. -/
def ConsistentCheck (st : State) : Prop :=
  (∀ c, c < 81 → (st.square c).digits ≠ 0 ∧ (st.square c).digits < 512 ∧
    (st.square c).size = popcount (st.square c).digits) ∧
  st.unsolved_squares =
    ((List.range 81).filter (fun c => decide (2 ≤ popcount (st.square c).digits))).length ∧
  (∀ a, a < 81 → ∀ b, b < 81 → popcount (st.square a).digits = 1 → b ≠ a → sameUnit a b →
    (st.square b).digits &&& (st.square a).digits = 0)

instance (st : State) : Decidable (ConsistentCheck st) := by
  unfold ConsistentCheck; infer_instance

/-- The board is fully fixed to the grid `G` and the uncertainty counter is 0. -/
def SolvedAs (G : Nat → Nat) (st : State) : Prop :=
  (∀ c, c < 81 → st.square c = ⟨2 ^ (G c - 1), 1⟩) ∧ st.unsolved_squares = 0

/-- The state of the simple reductions before the board is solved: consistent, compatible
with the clue grid `G`, counter not 0, and the cells in `D` (the clues handled so far)
fixed. -/
def Propagating (G : Nat → Nat) (D : Nat → Prop) (st : State) : Prop :=
  Consistent st ∧ Compatible G st ∧ st.unsolved_squares ≠ 0 ∧
  ∀ c, c < 81 → D c → popcount (st.square c).digits = 1

/-- The board solved as `sampleGrid`, with the counters of a run that has just found it. -/
def solvedState : State :=
  { square := fun c => ⟨2 ^ (sampleGrid c - 1), 1⟩
    unsolved_squares := 0
    solutions := 1
    assumptions := 0
    first_solution := false
    output := [] }

/-- The solution record (solutions counter, `first_solution`, emitted boards) is the same in
both states. -/
def SameRecord (st st' : State) : Prop :=
  st'.output = st.output ∧ st'.first_solution = st.first_solution ∧
  st'.solutions = st.solutions

/-- What a call does to the solution record: nothing, or it returns `SOLVED` having recorded
the final board once. -/
def RecordPost (cfg : Config) (st : State) (r : Int) (st' : State) : Prop :=
  SameRecord st st' ∨
  (r = SOLVED ∧ st'.solutions = (st.solutions + 1) % 2 ^ 64 ∧ st'.first_solution = false ∧
    st'.output = if cfg.print_all_solutions = true ∨ st.first_solution = true
      then st'.square :: st.output else st.output)

/-- The cells whose candidate count is two or more in `st` and exactly 1 in `st'`. -/
def fixedCells (st st' : State) : Finset Nat :=
  (Finset.range 81).filter (fun c =>
    2 ≤ popcount (st.square c).digits ∧ popcount (st'.square c).digits = 1)

/-- A board state in which `square[0][0]` holds `{1, 2}`, its column peer `square[1][0]` is
fixed to 1, every other cell holds `{8, 9}`, and the uncertainty counter is 80. -/
def clashState : State :=
  { square := fun c => if c = 0 then ⟨3, 2⟩ else if c = 9 then ⟨1, 1⟩ else ⟨384, 2⟩
    unsolved_squares := 80
    solutions := 0
    assumptions := 0
    first_solution := true
    output := [] }

/-- Lexicographic order of grids read in scan order (row by row): `g` comes before `g'` when
at the first cell where they differ `g` holds the smaller digit. -/
def LexLt (g g' : Grid) : Prop :=
  ∃ c : Fin 81, (∀ t : Fin 81, t < c → g t = g' t) ∧ g c < g' c

/-- Grid `g` is the completion of the board that is smallest in lexicographic order. -/
def IsLexMin (st : State) (g : Grid) : Prop :=
  IsCompletion st g ∧ ∀ g', IsCompletion st g' → g' = g ∨ LexLt g g'

/-- The grid `pairGrid` as a `Grid`. -/
def pairGridFn : Grid := fun c => ⟨(pairGrid.getD c.val 1 - 1) % 9, Nat.mod_lt _ (by decide)⟩

/-- The board states met while a single clue, digit `k + 1` at cell `s`, is propagated on
the fresh board: `s` holds the digit alone, every other cell is either untouched or a peer
of `s` that has lost the digit, and the uncertainty counter is still 81. -/
def SingleClue (s k : Nat) (st : State) : Prop :=
  st.square s = ⟨2 ^ k, 1⟩ ∧
  (∀ t, t ≠ s → st.square t = ⟨511, 9⟩ ∨
    (sameUnit s t ∧ st.square t = ⟨511 - 2 ^ k, 8⟩)) ∧
  st.unsolved_squares = 81

/-- The cells other than `s` that share a row, a column or a box with `s`. -/
def peersOf (s : Nat) : Finset Nat :=
  (Finset.range 81).filter (fun t => t ≠ s ∧ sameUnit s t)

/-- Two different cells of the group `(g, gi)` share no group with cell `s`. -/
def TwoStrangers (s g gi : Nat) : Prop :=
  ∃ i1, i1 < 9 ∧ ∃ i2, i2 < 9 ∧ i1 ≠ i2 ∧
    ¬ sameUnit s (memberF g gi i1) ∧ ¬ sameUnit s (memberF g gi i2)

instance (s g gi : Nat) : Decidable (TwoStrangers s g gi) := by
  unfold TwoStrangers; infer_instance

/-- The run so far has recorded `n` solutions (executed `solutions++` `n` times) and has
reached the state `st`: a run starts with the record of the static initialisers
(`first_solution` set, nothing emitted, `solutions` 0); a call of `uncertainty_reduction`
records a solution exactly when it changes the solutions counter; the code between two calls
(checkpoints, restores, the assumptions counter) leaves the record alone. -/
inductive History (cfg : Config) : Nat → State → Prop
  | start (st : State) : st.first_solution = true → st.output = [] → st.solutions = 0 →
      History cfg 0 st
  | other (n : Nat) (st st' : State) : History cfg n st → SameRecord st st' →
      History cfg n st'
  | call (n fuel : Nat) (st : State) (s mask : Nat) (r : Int) (st' : State) :
      History cfg n st →
      uncertainty_reduction cfg initWiring fuel st s mask = some (r, st') →
      History cfg (if st'.solutions = st.solutions then n else n + 1) st'

/-! ## Lemmas on digit sets -/


theorem testBit_not16 (m b : Nat) :
    (not16 m).testBit b = (decide (b < 16) && !m.testBit b) := by
  unfold not16
  have h1 : (65535 : Nat) = 2 ^ 16 - 1 := by norm_num
  have h2 : (65536 : Nat) = 2 ^ 16 := by norm_num
  rw [Nat.testBit_xor, h1, h2, Nat.testBit_two_pow_sub_one, Nat.testBit_mod_two_pow]
  by_cases hb : b < 16 <;> simp [hb]

theorem testBit_clear (d m b : Nat) :
    (d &&& not16 m).testBit b = (d.testBit b && (decide (b < 16) && !m.testBit b)) := by
  rw [Nat.testBit_and, testBit_not16]

theorem and_eq_zero_iff_testBit (a b : Nat) :
    a &&& b = 0 ↔ ∀ i, ¬ (a.testBit i = true ∧ b.testBit i = true) := by
  constructor
  · intro h i hi
    have := Nat.testBit_and a b i
    rw [h, Nat.zero_testBit] at this
    simp [hi.1, hi.2] at this
  · intro h
    apply Nat.eq_of_testBit_eq
    intro i
    rw [Nat.testBit_and, Nat.zero_testBit]
    have := h i
    cases ha : a.testBit i <;> cases hb : b.testBit i <;> simp_all

theorem clear_and_mask (d m : Nat) : (d &&& not16 m) &&& m = 0 := by
  rw [and_eq_zero_iff_testBit]
  intro i hi
  rw [testBit_clear] at hi
  obtain ⟨h1, h2⟩ := hi
  simp [h2] at h1

theorem clear_sub (d m : Nat) : Sub (d &&& not16 m) d := by
  intro i hi
  rw [testBit_clear] at hi
  revert hi
  cases d.testBit i <;> simp

theorem clear_lt_65536 (d m : Nat) : d &&& not16 m < 65536 := by
  have h : not16 m < 65536 := by
    unfold not16
    have := @Nat.xor_lt_two_pow 65535 (m % 65536) 16 (by norm_num) (by
      have := Nat.mod_lt m (show 65536 > 0 by norm_num); norm_num; exact this)
    simpa using this
  exact lt_of_le_of_lt Nat.and_le_right h

theorem clear_lt (d m : Nat) (h : d &&& m ≠ 0) : d &&& not16 m < d := by
  apply lt_of_le_of_ne Nat.and_le_left
  intro heq
  apply h
  rw [← heq]
  exact clear_and_mask d m

theorem Sub.sub_refl (a : Nat) : Sub a a := fun _ h => h

theorem Sub.sub_trans {a b c : Nat} (h1 : Sub a b) (h2 : Sub b c) : Sub a c :=
  fun i h => h2 i (h1 i h)

theorem Sub.sub_and_eq {a b : Nat} (h : Sub a b) : a &&& b = a := by
  apply Nat.eq_of_testBit_eq
  intro i
  rw [Nat.testBit_and]
  have := h i
  cases ha : a.testBit i <;> simp_all

theorem Sub.sub_le {a b : Nat} (h : Sub a b) : a ≤ b := by
  rw [← h.sub_and_eq]; exact Nat.and_le_right

theorem Sub.sub_and_zero {a b m : Nat} (h : Sub a b) (hb : b &&& m = 0) : a &&& m = 0 := by
  rw [and_eq_zero_iff_testBit] at *
  intro i hi
  exact hb i ⟨h i hi.1, hi.2⟩


theorem popcount_eq_card (d : Nat) : popcount d = (bits d).card := by
  unfold popcount bits
  simp only [Finset.card, Finset.filter, Finset.range, Multiset.range, Multiset.filter_coe,
    Multiset.coe_card]
  congr 1
  apply List.filter_congr
  intro x _
  simp

theorem mem_bits {d b : Nat} : b ∈ bits d ↔ b < 16 ∧ d.testBit b = true := by
  simp [bits]

theorem popcount_ne_zero {d b : Nat} (hb : b < 16) (h : d.testBit b = true) :
    popcount d ≠ 0 := by
  rw [popcount_eq_card]
  exact Finset.card_ne_zero_of_mem (mem_bits.mpr ⟨hb, h⟩)

theorem popcount_mono {a b : Nat} (h : Sub a b) : popcount a ≤ popcount b := by
  rw [popcount_eq_card, popcount_eq_card]
  apply Finset.card_le_card
  intro x hx
  rw [mem_bits] at *
  exact ⟨hx.1, h x hx.2⟩

theorem popcount_one_unique {d a b : Nat} (h1 : popcount d = 1) (ha : a < 16) (hb : b < 16)
    (hta : d.testBit a = true) (htb : d.testBit b = true) : a = b := by
  rw [popcount_eq_card, Finset.card_eq_one] at h1
  obtain ⟨x, hx⟩ := h1
  have h2 : a ∈ bits d := mem_bits.mpr ⟨ha, hta⟩
  have h3 : b ∈ bits d := mem_bits.mpr ⟨hb, htb⟩
  rw [hx, Finset.mem_singleton] at h2 h3
  rw [h2, h3]

theorem testBit_lt_16 {d b : Nat} (hd : d < 65536) (h : d.testBit b = true) : b < 16 := by
  by_contra hb
  have h16 : (65536 : Nat) = 2 ^ 16 := by norm_num
  have : d < 2 ^ b := lt_of_lt_of_le (h16 ▸ hd) (Nat.pow_le_pow_right (by norm_num) (by omega))
  rw [Nat.testBit_lt_two_pow this] at h
  exact absurd h (by simp)

theorem or_eq_iff_sub (a b : Nat) : (a ||| b = b) ↔ Sub a b := by
  constructor
  · intro h i hi
    rw [← h, Nat.testBit_or, hi]; rfl
  · intro h
    apply Nat.eq_of_testBit_eq
    intro i
    rw [Nat.testBit_or]
    have := h i
    cases ha : a.testBit i <;> simp_all


/-! ## Proof rules for the loops of `uncertainty_reduction` -/

theorem firstOrderLoop_rule {rec : State → Nat → Nat → Option (Int × State)} {w : Wiring}
    {s : Nat} (J : List (Nat × Nat) → State → Prop) (Q : Int → State → Prop)
    (hskip : ∀ g i rest st, J ((g, i) :: rest) st →
      ¬ (w.peer s g i ≠ s ∧ (st.square (w.peer s g i)).digits &&& (st.square s).digits ≠ 0) →
      J rest st)
    (hstep : ∀ g i rest st r st1, J ((g, i) :: rest) st → w.peer s g i ≠ s →
      (st.square (w.peer s g i)).digits &&& (st.square s).digits ≠ 0 →
      rec st (w.peer s g i) (st.square s).digits = some (r, st1) →
      (r = INCOMPLETE → J rest st1) ∧ (r ≠ INCOMPLETE → Q r st1)) :
    ∀ items st r st', J items st → firstOrderLoop rec w s items st = some (r, st') →
      (r = INCOMPLETE ∧ J [] st') ∨ (r ≠ INCOMPLETE ∧ Q r st') := by
  intro items
  induction items with
  | nil =>
    intro st r st' hJ h
    simp only [firstOrderLoop, Option.some.injEq, Prod.mk.injEq] at h
    obtain ⟨rfl, rfl⟩ := h
    exact Or.inl ⟨rfl, hJ⟩
  | cons p rest ih =>
    obtain ⟨g, i⟩ := p
    intro st r st' hJ h
    simp only [firstOrderLoop] at h
    split at h
    · rename_i hc
      split at h
      · exact absurd h (by simp)
      · rename_i r1 st1 hrec
        have hs := hstep g i rest st r1 st1 hJ hc.1 hc.2 hrec
        split at h
        · rename_i hr
          simp only [Option.some.injEq, Prod.mk.injEq] at h
          obtain ⟨rfl, rfl⟩ := h
          exact Or.inr ⟨hr, hs.2 hr⟩
        · rename_i hr
          exact ih st1 r st' (hs.1 (not_not.mp hr)) h
    · rename_i hc
      exact ih st r st' (hskip g i rest st hJ hc) h

theorem reduceUncontained_rule {rec : State → Nat → Nat → Option (Int × State)} {s : Nat}
    (J : List Nat → State → Prop) (Q : Int → State → Prop)
    (hstep : ∀ u rest st r st1, J (u :: rest) st →
      rec st u (st.square s).digits = some (r, st1) →
      (r = INCOMPLETE → J rest st1) ∧ (r ≠ INCOMPLETE → Q r st1)) :
    ∀ items st r st', J items st → reduceUncontained rec s items st = some (r, st') →
      (r = INCOMPLETE ∧ J [] st') ∨ (r ≠ INCOMPLETE ∧ Q r st') := by
  intro items
  induction items with
  | nil =>
    intro st r st' hJ h
    simp only [reduceUncontained, Option.some.injEq, Prod.mk.injEq] at h
    obtain ⟨rfl, rfl⟩ := h
    exact Or.inl ⟨rfl, hJ⟩
  | cons u rest ih =>
    intro st r st' hJ h
    simp only [reduceUncontained] at h
    split at h
    · exact absurd h (by simp)
    · rename_i r1 st1 hrec
      have hs := hstep u rest st r1 st1 hJ hrec
      split at h
      · rename_i hr
        simp only [Option.some.injEq, Prod.mk.injEq] at h
        obtain ⟨rfl, rfl⟩ := h
        exact Or.inr ⟨hr, hs.2 hr⟩
      · rename_i hr
        exact ih st1 r st' (hs.1 (not_not.mp hr)) h

theorem nthOrderLoop_rule {rec : State → Nat → Nat → Option (Int × State)} {w : Wiring}
    {s n : Nat} (J : List Nat → State → Prop) (Q : Int → State → Prop)
    (hskip : ∀ g rest st, J (g :: rest) st →
      ¬ (((uncontainedOf w st s g).length : Int) = 9 - (n : Int)) → J rest st)
    (hstep : ∀ g rest st r st1, J (g :: rest) st →
      ((uncontainedOf w st s g).length : Int) = 9 - (n : Int) →
      reduceUncontained rec s (uncontainedOf w st s g) st = some (r, st1) →
      (r = INCOMPLETE → J rest st1) ∧ (r ≠ INCOMPLETE → Q r st1)) :
    ∀ items st r st', J items st → nthOrderLoop rec w s n items st = some (r, st') →
      (r = INCOMPLETE ∧ J [] st') ∨ (r ≠ INCOMPLETE ∧ Q r st') := by
  intro items
  induction items with
  | nil =>
    intro st r st' hJ h
    simp only [nthOrderLoop, Option.some.injEq, Prod.mk.injEq] at h
    obtain ⟨rfl, rfl⟩ := h
    exact Or.inl ⟨rfl, hJ⟩
  | cons g rest ih =>
    intro st r st' hJ h
    simp only [nthOrderLoop] at h
    split at h
    · rename_i hc
      split at h
      · exact absurd h (by simp)
      · rename_i r1 st1 hrec
        have hs := hstep g rest st r1 st1 hJ hc hrec
        split at h
        · rename_i hr
          simp only [Option.some.injEq, Prod.mk.injEq] at h
          obtain ⟨rfl, rfl⟩ := h
          exact Or.inr ⟨hr, hs.2 hr⟩
        · rename_i hr
          exact ih st1 r st' (hs.1 (not_not.mp hr)) h
    · rename_i hc
      exact ih st r st' (hskip g rest st hJ hc) h

/-! ## Case analysis of one call of `uncertainty_reduction` -/

theorem ur_cases {cfg : Config} {w : Wiring} {fuel : Nat} {st : State} {s mask : Nat}
    {r : Int} {st' : State}
    (h : uncertainty_reduction cfg w (fuel + 1) st s mask = some (r, st')) :
    ((st.square s).digits &&& mask = 0 ∧ r = INCOMPLETE ∧ st' = st) ∨
    ((st.square s).digits &&& mask ≠ 0 ∧
      ((popcount ((st.square s).digits &&& not16 mask) = 0 ∧ r = ERROR ∧
          st' = cleared st s mask) ∨
       (popcount ((st.square s).digits &&& not16 mask) = 1 ∧
          ∃ r2 st2, firstOrderLoop (uncertainty_reduction cfg w fuel) w s groupPairs
              (cleared st s mask) = some (r2, st2) ∧
            ((r2 ≠ INCOMPLETE ∧ r = r2 ∧ st' = st2) ∨
             (r2 = INCOMPLETE ∧ (decremented st2).unsolved_squares = 0 ∧ r = SOLVED ∧
                st' = recorded cfg (decremented st2)) ∨
             (r2 = INCOMPLETE ∧ (decremented st2).unsolved_squares ≠ 0 ∧
                r = finalStatus (decremented st2) ∧ st' = decremented st2))) ∨
       (popcount ((st.square s).digits &&& not16 mask) ≠ 0 ∧
        popcount ((st.square s).digits &&& not16 mask) ≠ 1 ∧
          ∃ r2 st2, nthOrderLoop (uncertainty_reduction cfg w fuel) w s
              (popcount ((st.square s).digits &&& not16 mask)) [0, 1, 2]
              (cleared st s mask) = some (r2, st2) ∧
            ((r2 ≠ INCOMPLETE ∧ r = r2 ∧ st' = st2) ∨
             (r2 = INCOMPLETE ∧ r = finalStatus st2 ∧ st' = st2))))) := by
  simp only [uncertainty_reduction] at h
  split at h
  · rename_i h0
    simp only [Option.some.injEq, Prod.mk.injEq] at h
    exact Or.inl ⟨h0, h.1.symm, h.2.symm⟩
  · rename_i h0
    refine Or.inr ⟨h0, ?_⟩
    split at h
    · rename_i hn
      simp only [Option.some.injEq, Prod.mk.injEq] at h
      exact Or.inl ⟨hn, h.1.symm, h.2.symm⟩
    · rename_i hn
      split at h
      · rename_i hn1
        refine Or.inr (Or.inl ⟨hn1, ?_⟩)
        split at h
        · exact absurd h (by simp)
        · rename_i r2 st2 hl
          refine ⟨r2, st2, hl, ?_⟩
          split at h
          · rename_i hr
            simp only [Option.some.injEq, Prod.mk.injEq] at h
            exact Or.inl ⟨hr, h.1.symm, h.2.symm⟩
          · rename_i hr
            split at h
            · rename_i hz
              simp only [Option.some.injEq, Prod.mk.injEq] at h
              refine Or.inr (Or.inl ⟨not_not.mp hr, hz, h.1.symm, ?_⟩)
              rw [← h.2]
              simp only [recorded, decremented]
              cases hp : cfg.print_all_solutions <;> cases hf : st2.first_solution <;> simp
            · rename_i hz
              simp only [Option.some.injEq, Prod.mk.injEq] at h
              exact Or.inr (Or.inr ⟨not_not.mp hr, hz, h.1.symm, h.2.symm⟩)
      · rename_i hn1
        refine Or.inr (Or.inr ⟨hn, hn1, ?_⟩)
        split at h
        · exact absurd h (by simp)
        · rename_i r2 st2 hl
          refine ⟨r2, st2, hl, ?_⟩
          split at h
          · rename_i hr
            simp only [Option.some.injEq, Prod.mk.injEq] at h
            exact Or.inl ⟨hr, h.1.symm, h.2.symm⟩
          · rename_i hr
            simp only [Option.some.injEq, Prod.mk.injEq] at h
            exact Or.inr ⟨not_not.mp hr, h.1.symm, h.2.symm⟩

/-! ## Propagation only removes candidates -/

theorem Frame.frame_refl (st : State) : Frame st st := ⟨fun _ => Sub.sub_refl _, rfl⟩

theorem Frame.frame_trans {a b c : State} (h1 : Frame a b) (h2 : Frame b c) : Frame a c :=
  ⟨fun t => (h2.1 t).sub_trans (h1.1 t), h2.2.trans h1.2⟩

theorem frame_cleared (st : State) (s mask : Nat) : Frame st (cleared st s mask) := by
  refine ⟨fun t => ?_, rfl⟩
  simp only [cleared, State.setSquare]
  by_cases ht : t = s
  · subst ht; simp only [if_true]; exact clear_sub _ _
  · simp only [if_neg ht]; exact Sub.sub_refl _

theorem frame_decremented (st : State) : Frame st (decremented st) := Frame.frame_refl st

theorem frame_recorded (cfg : Config) (st : State) : Frame st (recorded cfg st) := Frame.frame_refl st

theorem cleared_square_self (st : State) (s mask : Nat) :
    (cleared st s mask).square s =
      ⟨(st.square s).digits &&& not16 mask, popcount ((st.square s).digits &&& not16 mask)⟩ := by
  simp [cleared, State.setSquare]

theorem cleared_square_other (st : State) {s t : Nat} (mask : Nat) (h : t ≠ s) :
    (cleared st s mask).square t = st.square t := by
  simp [cleared, State.setSquare, h]

theorem ur_frame (cfg : Config) (w : Wiring) :
    ∀ fuel st s mask r st', uncertainty_reduction cfg w fuel st s mask = some (r, st') →
      Frame st st' := by
  intro fuel
  induction fuel with
  | zero => intro st s mask r st' h; simp [uncertainty_reduction] at h
  | succ fuel ih =>
    intro st s mask r st' h
    rcases ur_cases h with ⟨_, _, rfl⟩ | ⟨_, h2⟩
    · exact Frame.frame_refl _
    · rcases h2 with ⟨_, _, rfl⟩ | ⟨_, r2, st2, hl, hrest⟩ | ⟨_, _, r2, st2, hl, hrest⟩
      · exact frame_cleared _ _ _
      · have hloop := firstOrderLoop_rule (fun _ stx => Frame st stx) (fun _ stx => Frame st stx)
          (fun _ _ _ _ hJ _ => hJ)
          (fun g i rest stx r1 st1 hJ _ _ hrec =>
            ⟨fun _ => hJ.frame_trans (ih _ _ _ _ _ hrec), fun _ => hJ.frame_trans (ih _ _ _ _ _ hrec)⟩)
          groupPairs (cleared st s mask) r2 st2 (frame_cleared _ _ _) hl
        have h2 : Frame st st2 := by
          rcases hloop with ⟨_, h⟩ | ⟨_, h⟩ <;> exact h
        rcases hrest with ⟨_, _, rfl⟩ | ⟨_, _, _, rfl⟩ | ⟨_, _, _, rfl⟩
        · exact h2
        · exact h2
        · exact h2
      · have hloop := nthOrderLoop_rule (fun _ stx => Frame st stx) (fun _ stx => Frame st stx)
          (fun _ _ _ hJ _ => hJ)
          (fun g rest stx r1 st1 hJ _ hrec => by
            have := reduceUncontained_rule (fun _ sty => Frame st sty) (fun _ sty => Frame st sty)
              (fun u rest' sty r3 st3 hJ' hrec' =>
                ⟨fun _ => hJ'.frame_trans (ih _ _ _ _ _ hrec'), fun _ => hJ'.frame_trans (ih _ _ _ _ _ hrec')⟩)
              _ stx r1 st1 hJ hrec
            rcases this with ⟨_, h⟩ | ⟨_, h⟩ <;> exact ⟨fun _ => h, fun _ => h⟩)
          [0, 1, 2] (cleared st s mask) r2 st2 (frame_cleared _ _ _) hl
        have h2 : Frame st st2 := by
          rcases hloop with ⟨_, h⟩ | ⟨_, h⟩ <;> exact h
        rcases hrest with ⟨_, _, rfl⟩ | ⟨_, _, rfl⟩
        · exact h2
        · exact h2


/-! ## Termination of propagation -/

theorem digitSum_le_of_frame {st st' : State} (h : Frame st st') : digitSum st' ≤ digitSum st :=
  Finset.sum_le_sum (fun c _ => (h.1 c).sub_le)

theorem digitSum_cleared_lt {st : State} {s mask : Nat} (hs : s < 81)
    (h : (st.square s).digits &&& mask ≠ 0) : digitSum (cleared st s mask) < digitSum st := by
  apply Finset.sum_lt_sum
  · intro c _
    exact ((frame_cleared st s mask).1 c).sub_le
  · refine ⟨s, Finset.mem_range.mpr hs, ?_⟩
    rw [cleared_square_self]
    exact clear_lt _ _ h

theorem mem_groupPairs {g i : Nat} (h : (g, i) ∈ groupPairs) : g < 3 ∧ i < 9 := by
  simp only [groupPairs, List.mem_flatMap, List.mem_range, List.mem_map, Prod.mk.injEq] at h
  obtain ⟨a, ha, b, hb, rfl, rfl⟩ := h
  exact ⟨ha, hb⟩

theorem mem_uncontainedOf {w : Wiring} {st : State} {s g u : Nat}
    (h : u ∈ uncontainedOf w st s g) :
    (∃ i, i < 9 ∧ u = w.peer s g i) ∧ u ≠ s ∧
      ((st.square u).digits ||| (st.square s).digits) ≠ (st.square s).digits := by
  simp only [uncontainedOf, List.mem_filter, List.mem_map, List.mem_range,
    decide_eq_true_eq] at h
  obtain ⟨⟨i, hi, rfl⟩, h2, h3⟩ := h
  exact ⟨⟨i, hi, rfl⟩, h2, h3⟩

theorem firstOrderLoop_total {rec : State → Nat → Nat → Option (Int × State)} {w : Wiring}
    {s : Nat} (B : State → Prop)
    (hrec : ∀ st s2 m, B st → s2 < 81 → ∃ r st1, rec st s2 m = some (r, st1) ∧ B st1) :
    ∀ items st, (∀ p ∈ items, w.peer s p.1 p.2 < 81) → B st →
      ∃ r st', firstOrderLoop rec w s items st = some (r, st') ∧ B st' := by
  intro items
  induction items with
  | nil => intro st _ hB; exact ⟨_, _, rfl, hB⟩
  | cons p rest ih =>
    obtain ⟨g, i⟩ := p
    intro st hp hB
    have hrest : ∀ p ∈ rest, w.peer s p.1 p.2 < 81 := fun p hp' => hp p (List.mem_cons_of_mem _ hp')
    simp only [firstOrderLoop]
    split
    · obtain ⟨r, st1, h1, hB1⟩ := hrec st (w.peer s g i) (st.square s).digits hB
        (hp (g, i) (List.mem_cons_self _ _))
      rw [h1]
      simp only
      split
      · exact ⟨_, _, rfl, hB1⟩
      · exact ih st1 hrest hB1
    · exact ih st hrest hB

theorem reduceUncontained_total {rec : State → Nat → Nat → Option (Int × State)}
    {s : Nat} (B : State → Prop)
    (hrec : ∀ st s2 m, B st → s2 < 81 → ∃ r st1, rec st s2 m = some (r, st1) ∧ B st1) :
    ∀ items st, (∀ u ∈ items, u < 81) → B st →
      ∃ r st', reduceUncontained rec s items st = some (r, st') ∧ B st' := by
  intro items
  induction items with
  | nil => intro st _ hB; exact ⟨_, _, rfl, hB⟩
  | cons u rest ih =>
    intro st hp hB
    have hrest : ∀ p ∈ rest, p < 81 := fun p hp' => hp p (List.mem_cons_of_mem _ hp')
    simp only [reduceUncontained]
    obtain ⟨r, st1, h1, hB1⟩ := hrec st u (st.square s).digits hB (hp u (List.mem_cons_self _ _))
    rw [h1]
    simp only
    split
    · exact ⟨_, _, rfl, hB1⟩
    · exact ih st1 hrest hB1

theorem nthOrderLoop_total {rec : State → Nat → Nat → Option (Int × State)} {w : Wiring}
    {s n : Nat} (B : State → Prop) (hw : InRange w) (hs : s < 81)
    (hrec : ∀ st s2 m, B st → s2 < 81 → ∃ r st1, rec st s2 m = some (r, st1) ∧ B st1) :
    ∀ items st, (∀ g ∈ items, g < 3) → B st →
      ∃ r st', nthOrderLoop rec w s n items st = some (r, st') ∧ B st' := by
  intro items
  induction items with
  | nil => intro st _ hB; exact ⟨_, _, rfl, hB⟩
  | cons g rest ih =>
    intro st hp hB
    have hrest : ∀ p ∈ rest, p < 3 := fun p hp' => hp p (List.mem_cons_of_mem _ hp')
    simp only [nthOrderLoop]
    split
    · obtain ⟨r, st1, h1, hB1⟩ := reduceUncontained_total (s := s) B hrec
        (uncontainedOf w st s g) st (by
          intro u hu
          obtain ⟨⟨i, hi, rfl⟩, _⟩ := mem_uncontainedOf hu
          exact hw s g i hs (hp g (List.mem_cons_self _ _)) hi) hB
      rw [h1]
      simp only
      split
      · exact ⟨_, _, rfl, hB1⟩
      · exact ih st1 hrest hB1
    · exact ih st hrest hB

theorem ur_total (cfg : Config) {w : Wiring} (hw : InRange w) :
    ∀ fuel st s mask, s < 81 → digitSum st < fuel →
      ∃ r st', uncertainty_reduction cfg w fuel st s mask = some (r, st') := by
  intro fuel
  induction fuel with
  | zero => intro st s mask _ h; exact absurd h (Nat.not_lt_zero _)
  | succ fuel ih =>
    intro st s mask hs hfuel
    have hrec : ∀ stx s2 m, digitSum stx < fuel → s2 < 81 →
        ∃ r st1, uncertainty_reduction cfg w fuel stx s2 m = some (r, st1) ∧
          digitSum st1 < fuel := by
      intro stx s2 m hB hs2
      obtain ⟨r, st1, h⟩ := ih stx s2 m hs2 hB
      exact ⟨r, st1, h, lt_of_le_of_lt (digitSum_le_of_frame (ur_frame cfg w _ _ _ _ _ _ h)) hB⟩
    simp only [uncertainty_reduction]
    split
    · exact ⟨_, _, rfl⟩
    · rename_i h0
      have hlt : digitSum (cleared st s mask) < fuel :=
        Nat.lt_of_lt_of_le (digitSum_cleared_lt hs h0) (Nat.lt_succ_iff.mp hfuel)
      split
      · exact ⟨_, _, rfl⟩
      · split
        · obtain ⟨r, st1, h1, _⟩ := firstOrderLoop_total (w := w) (s := s)
            (fun stx => digitSum stx < fuel) hrec groupPairs (cleared st s mask)
            (fun p hp => hw s p.1 p.2 hs (mem_groupPairs hp).1 (mem_groupPairs hp).2) hlt
          simp only [cleared] at h1
          rw [h1]
          simp only
          split
          · exact ⟨_, _, rfl⟩
          · split <;> exact ⟨_, _, rfl⟩
        · obtain ⟨r, st1, h1, _⟩ := nthOrderLoop_total (w := w) (s := s)
            (n := popcount ((st.square s).digits &&& not16 mask))
            (fun stx => digitSum stx < fuel) hw hs hrec [0, 1, 2] (cleared st s mask)
            (by intro g hg; simp at hg; omega) hlt
          simp only [cleared] at h1
          rw [h1]
          simp only
          split <;> exact ⟨_, _, rfl⟩


/-! ## The group wiring built by the initialisation -/

set_option maxRecDepth 1000000 in
theorem initWiring_group : ∀ s < 81, ∀ g < 3, initWiring.group s g = (g, groupIdx s g) := by
  decide!

set_option maxRecDepth 1000000 in
theorem initWiring_member :
    ∀ g < 3, ∀ idx < 9, ∀ p < 9, initWiring.member g idx p = memberF g idx p := by
  decide!


theorem groupIdx_lt {s g : Nat} (hs : s < 81) : groupIdx s g < 9 := by
  unfold groupIdx; split
  · omega
  · split <;> omega

theorem initWiring_peer {s g i : Nat} (hs : s < 81) (hg : g < 3) (hi : i < 9) :
    initWiring.peer s g i = memberF g (groupIdx s g) i := by
  have h := initWiring_group s hs g hg
  have h2 := initWiring_member g hg _ (groupIdx_lt (g := g) hs) i hi
  simp only [Wiring.peer, h]
  exact h2

theorem memberF_lt {g idx p : Nat} (hidx : idx < 9) (hp : p < 9) : memberF g idx p < 81 := by
  unfold memberF; split
  · omega
  · split <;> omega

theorem initWiring_std : Std initWiring := fun _ _ _ hs hg hi => initWiring_peer hs hg hi

theorem Std.std_inRange {w : Wiring} (hw : Std w) : InRange w := by
  intro s g i hs hg hi
  rw [hw s g i hs hg hi]
  exact memberF_lt (groupIdx_lt hs) hi

theorem initWiring_inRange : InRange initWiring := initWiring_std.std_inRange

theorem memberF_inj {g idx p q : Nat} (hp : p < 9) (hq : q < 9)
    (h : memberF g idx p = memberF g idx q) : p = q := by
  unfold memberF at h
  split at h
  · omega
  · split at h <;> omega

set_option maxRecDepth 1000000 in
theorem memberF_self_all :
    ∀ s < 81, ∀ g < 3, ∃ i, i < 9 ∧ memberF g (groupIdx s g) i = s := by
  decide!

theorem memberF_self {s g : Nat} (hs : s < 81) (hg : g < 3) :
    ∃ i, i < 9 ∧ memberF g (groupIdx s g) i = s := memberF_self_all s hs g hg

set_option maxRecDepth 1000000 in
theorem memberF_sameUnit_all :
    ∀ g < 3, ∀ idx < 9, ∀ p < 9, ∀ q < 9, sameUnit (memberF g idx p) (memberF g idx q) := by
  decide!

theorem memberF_sameUnit {g idx p q : Nat} (hg : g < 3) (hidx : idx < 9) (hp : p < 9)
    (hq : q < 9) : sameUnit (memberF g idx p) (memberF g idx q) :=
  memberF_sameUnit_all g hg idx hidx p hp q hq

set_option maxRecDepth 1000000 in
theorem sameUnit_memberF_all :
    ∀ a < 81, ∀ b < 81, sameUnit a b →
      ∃ g, g < 3 ∧ ∃ i, i < 9 ∧ memberF g (groupIdx a g) i = b := by
  decide!

theorem sameUnit_memberF {a b : Nat} (ha : a < 81) (hb : b < 81) (h : sameUnit a b) :
    ∃ g i, g < 3 ∧ i < 9 ∧ memberF g (groupIdx a g) i = b := by
  obtain ⟨g, hg, i, hi, h⟩ := sameUnit_memberF_all a ha b hb h
  exact ⟨g, i, hg, hi, h⟩



set_option maxRecDepth 1000000 in
theorem groupIdx_memberF : ∀ k < 3, ∀ idx < 9, ∀ p < 9, groupIdx (memberF k idx p) k = idx := by
  decide!

/-! ## Soundness of propagation -/

theorem uncontainedOf_std {w : Wiring} (hw : Std w) (st : State) {s g : Nat} (hs : s < 81)
    (hg : g < 3) :
    uncontainedOf w st s g =
      ((List.range 9).filter (fun i => decide (memberF g (groupIdx s g) i ≠ s ∧
        ((st.square (memberF g (groupIdx s g) i)).digits ||| (st.square s).digits)
          ≠ (st.square s).digits))).map (memberF g (groupIdx s g)) := by
  unfold uncontainedOf
  have h : (List.range 9).map (fun i => w.peer s g i)
      = (List.range 9).map (memberF g (groupIdx s g)) := by
    apply List.map_congr_left
    intro i hi
    exact hw s g i hs hg (List.mem_range.mp hi)
  rw [h, List.filter_map]
  rfl

theorem validGrid_inj_on_group {G : Nat → Nat} (hG : ValidGrid G) {g idx i j : Nat}
    (hg : g < 3) (hidx : idx < 9) (hi : i < 9) (hj : j < 9)
    (h : G (memberF g idx i) - 1 = G (memberF g idx j) - 1) : i = j := by
  by_contra hne
  have h1 := hG.1 _ (memberF_lt (g := g) hidx hi)
  have h2 := hG.1 _ (memberF_lt (g := g) hidx hj)
  have hP : memberF g idx i ≠ memberF g idx j := fun he => hne (memberF_inj hi hj he)
  have := hG.2 _ _ (memberF_lt (g := g) hidx hi) (memberF_lt (g := g) hidx hj) hP
    (memberF_sameUnit hg hidx hi hj)
  omega

theorem uncontained_excluded {w : Wiring} (hw : Std w) {G : Nat → Nat} (hG : ValidGrid G)
    {st : State} (hc : Compatible G st) {s g n : Nat} (hs : s < 81) (hg : g < 3)
    (hn : popcount (st.square s).digits ≤ n)
    (hlen : ((uncontainedOf w st s g).length : Int) = 9 - (n : Int)) :
    ∀ u ∈ uncontainedOf w st s g, (st.square s).digits.testBit (G u - 1) = false := by
  intro u hu
  rw [uncontainedOf_std hw st hs hg] at hlen hu
  set P := memberF g (groupIdx s g) with hP
  set ds := (st.square s).digits with hds
  have hidx := groupIdx_lt (g := g) hs
  let pu : Nat → Prop := fun i => P i ≠ s ∧ ((st.square (P i)).digits ||| ds) ≠ ds
  let U : Finset Nat := (Finset.range 9).filter pu
  let A : Finset Nat := (Finset.range 9).filter (fun i => ¬ pu i)
  have hUcard : U.card = ((List.range 9).filter (fun i => decide (pu i))).length := by
    simp only [U, Finset.card, Finset.filter, Finset.range, Multiset.range, Multiset.filter_coe,
      Multiset.coe_card]
  have hsum : U.card + A.card = 9 := by
    have := Finset.filter_card_add_filter_neg_card_eq_card (s := Finset.range 9) pu
    simpa using this
  rw [List.length_map] at hlen
  have hA : A.card = n := by
    have : (U.card : Int) = 9 - n := by rw [hUcard]; exact hlen
    omega
  let f : Nat → Nat := fun i => G (P i) - 1
  have hf_inj : Set.InjOn f (A : Set Nat) := by
    intro i hi j hj hij
    have hi9 : i < 9 := Finset.mem_range.mp (Finset.mem_filter.mp hi).1
    have hj9 : j < 9 := Finset.mem_range.mp (Finset.mem_filter.mp hj).1
    exact validGrid_inj_on_group hG hg hidx hi9 hj9 hij
  have hsub : A.image f ⊆ bits ds := by
    intro b hb
    obtain ⟨i, hi, rfl⟩ := Finset.mem_image.mp hb
    have hi9 : i < 9 := Finset.mem_range.mp (Finset.mem_filter.mp hi).1
    have hnp : ¬ pu i := (Finset.mem_filter.mp hi).2
    have hlt : P i < 81 := memberF_lt hidx hi9
    have hGi := hG.1 _ hlt
    have hci := hc _ hlt
    rw [mem_bits]
    refine ⟨by simp only [f]; omega, ?_⟩
    by_cases hps : P i = s
    · simp only [f]; rw [hps] at hci ⊢; exact hci
    · have hcont : ((st.square (P i)).digits ||| ds) = ds := by
        by_contra hx; exact hnp ⟨hps, hx⟩
      exact (or_eq_iff_sub _ _).mp hcont _ hci
  have hcard : (bits ds).card ≤ (A.image f).card := by
    rw [Finset.card_image_of_injOn hf_inj, hA, ← popcount_eq_card]; exact hn
  have heq : A.image f = bits ds := Finset.eq_of_subset_of_card_le hsub hcard
  obtain ⟨j, hj, rfl⟩ := List.mem_map.mp hu
  have hj' := List.mem_filter.mp hj
  have hj9 : j < 9 := List.mem_range.mp hj'.1
  have hpj : pu j := of_decide_eq_true hj'.2
  by_contra hbit
  have hbit' : ds.testBit (G (P j) - 1) = true := by
    cases hx : ds.testBit (G (P j) - 1)
    · exact absurd hx hbit
    · rfl
  have hGj : 1 ≤ G (P j) ∧ G (P j) ≤ 9 := hG.1 _ (memberF_lt (g := g) hidx hj9)
  have hmem : f j ∈ bits ds := mem_bits.mpr ⟨by show G (P j) - 1 < 16; omega, hbit'⟩
  rw [← heq] at hmem
  obtain ⟨i, hi, hij⟩ := Finset.mem_image.mp hmem
  have hi9 : i < 9 := Finset.mem_range.mp (Finset.mem_filter.mp hi).1
  have : i = j := validGrid_inj_on_group hG hg hidx hi9 hj9 hij
  subst this
  exact (Finset.mem_filter.mp hi).2 hpj


theorem finalStatus_ne_error (st : State) : finalStatus st ≠ ERROR := by
  unfold finalStatus
  split
  · decide
  · split
    · decide
    · omega

theorem finalStatus_eq_incomplete {st : State} (h : st.unsolved_squares ≠ 0) :
    finalStatus st = INCOMPLETE := by
  unfold finalStatus
  rw [if_pos (Nat.pos_of_ne_zero h)]

theorem compatible_cleared {G : Nat → Nat} (hG : ValidGrid G) {st : State}
    (hc : Compatible G st) {s mask : Nat} (hs : s < 81)
    (hm : mask.testBit (G s - 1) = false) : Compatible G (cleared st s mask) := by
  intro c hc81
  by_cases hcs : c = s
  · subst hcs
    rw [cleared_square_self]
    simp only
    rw [testBit_clear, hc c hc81, hm]
    have := hG.1 c hc81
    simp; omega
  · rw [cleared_square_other st mask hcs]; exact hc c hc81

theorem ur_sound (cfg : Config) {w : Wiring} (hw : Std w) {G : Nat → Nat} (hG : ValidGrid G) :
    ∀ fuel st s mask r st', s < 81 → Compatible G st → mask.testBit (G s - 1) = false →
      uncertainty_reduction cfg w fuel st s mask = some (r, st') →
      r ≠ ERROR ∧ Compatible G st' := by
  intro fuel
  induction fuel with
  | zero => intro st s mask r st' _ _ _ h; simp [uncertainty_reduction] at h
  | succ fuel ih =>
    intro st s mask r st' hs hc hm h
    have hcl := compatible_cleared hG hc hs hm
    have hGs := hG.1 s hs
    have hbit : ((st.square s).digits &&& not16 mask).testBit (G s - 1) = true := by
      have := hcl s hs
      rw [cleared_square_self] at this
      exact this
    have hidx := groupIdx_lt (g := 0) hs
    rcases ur_cases h with ⟨_, rfl, rfl⟩ | ⟨_, h2⟩
    · exact ⟨by decide, hc⟩
    · rcases h2 with ⟨hn0, _, _⟩ | ⟨hn1, r2, st2, hl, hrest⟩ | ⟨_, _, r2, st2, hl, hrest⟩
      · exact absurd hn0 (popcount_ne_zero (by omega) hbit)
      · have hloop := firstOrderLoop_rule
          (fun rem stx => (∀ p ∈ rem, p.1 < 3 ∧ p.2 < 9) ∧ Compatible G stx ∧
            Frame (cleared st s mask) stx)
          (fun r stx => r ≠ ERROR ∧ Compatible G stx)
          (fun g i rest stx hJ _ => ⟨fun p hp => hJ.1 p (List.mem_cons_of_mem _ hp), hJ.2⟩)
          (fun g i rest stx r1 st1 hJ hne _ hrec => by
            obtain ⟨hmem, hcx, hfx⟩ := hJ
            have hgi := hmem (g, i) (List.mem_cons_self _ _)
            have hs2 : w.peer s g i < 81 := hw.std_inRange s g i hs hgi.1 hgi.2
            have hmask : ((stx.square s).digits).testBit (G (w.peer s g i) - 1) = false := by
              by_contra hx
              have hx' : ((stx.square s).digits).testBit (G (w.peer s g i) - 1) = true := by
                cases hy : ((stx.square s).digits).testBit (G (w.peer s g i) - 1)
                · exact absurd hy hx
                · rfl
              have h3 := hfx.1 s _ hx'
              rw [cleared_square_self] at h3
              have hG2 := hG.1 _ hs2
              have heq := popcount_one_unique hn1 (by omega) (by omega) hbit h3
              obtain ⟨i0, hi0, hi0s⟩ := memberF_self hs hgi.1
              have hsu : sameUnit s (w.peer s g i) := by
                rw [hw s g i hs hgi.1 hgi.2]
                have := memberF_sameUnit hgi.1 (groupIdx_lt (g := g) hs) hi0 hgi.2
                rw [hi0s] at this
                exact this
              have := hG.2 _ _ hs hs2 (Ne.symm hne) hsu
              omega
            have := ih stx _ _ r1 st1 hs2 hcx hmask hrec
            have hf1 := hfx.frame_trans (ur_frame cfg w _ _ _ _ _ _ hrec)
            exact ⟨fun _ => ⟨fun p hp => hmem p (List.mem_cons_of_mem _ hp), this.2, hf1⟩,
              fun _ => this⟩)
          groupPairs (cleared st s mask) r2 st2
          ⟨fun p hp => mem_groupPairs hp, hcl, Frame.frame_refl _⟩ hl
        rcases hrest with ⟨hr, rfl, rfl⟩ | ⟨hr, _, rfl, rfl⟩ | ⟨hr, _, rfl, rfl⟩
        · rcases hloop with ⟨h1, _⟩ | ⟨_, h1⟩
          · exact absurd h1 hr
          · exact h1
        · rcases hloop with ⟨_, h1⟩ | ⟨h1, _⟩
          · exact ⟨by decide, h1.2.1⟩
          · exact absurd hr h1
        · rcases hloop with ⟨_, h1⟩ | ⟨h1, _⟩
          · exact ⟨finalStatus_ne_error _, h1.2.1⟩
          · exact absurd hr h1
      · have hloop := nthOrderLoop_rule
          (fun rem stx => (∀ g ∈ rem, g < 3) ∧ Compatible G stx ∧
            Frame (cleared st s mask) stx)
          (fun r stx => r ≠ ERROR ∧ Compatible G stx)
          (fun g rest stx hJ _ => ⟨fun p hp => hJ.1 p (List.mem_cons_of_mem _ hp), hJ.2⟩)
          (fun g rest stx r1 st1 hJ hlen hrec => by
            obtain ⟨hmem, hcx, hfx⟩ := hJ
            have hg := hmem g (List.mem_cons_self _ _)
            have hpop : popcount (stx.square s).digits ≤
                popcount ((st.square s).digits &&& not16 mask) := by
              apply popcount_mono
              have := hfx.1 s
              rw [cleared_square_self] at this
              exact this
            have hex := uncontained_excluded hw hG hcx hs hg hpop hlen
            have hin := reduceUncontained_rule
              (fun rem sty => (∀ u ∈ rem, u < 81 ∧
                  (stx.square s).digits.testBit (G u - 1) = false) ∧
                Compatible G sty ∧ Frame stx sty)
              (fun r sty => r ≠ ERROR ∧ Compatible G sty ∧ Frame stx sty)
              (fun u rest' sty r3 st3 hJ' hrec' => by
                obtain ⟨hmem', hcy, hfy⟩ := hJ'
                have hu := hmem' u (List.mem_cons_self _ _)
                have hmask : ((sty.square s).digits).testBit (G u - 1) = false := by
                  cases hy : ((sty.square s).digits).testBit (G u - 1)
                  · rfl
                  · have := hfy.1 s _ hy
                    rw [hu.2] at this
                    exact absurd this (by simp)
                have := ih sty _ _ r3 st3 hu.1 hcy hmask hrec'
                have hf3 := hfy.frame_trans (ur_frame cfg w _ _ _ _ _ _ hrec')
                exact ⟨fun _ => ⟨fun p hp => hmem' p (List.mem_cons_of_mem _ hp), this.2, hf3⟩,
                  fun _ => ⟨this.1, this.2, hf3⟩⟩)
              _ stx r1 st1
              ⟨fun u hu => ⟨by
                  obtain ⟨⟨i, hi, rfl⟩, _⟩ := mem_uncontainedOf hu
                  exact hw.std_inRange s g i hs hg hi, hex u hu⟩, hcx, Frame.frame_refl _⟩ hrec
            rcases hin with ⟨_, _, h1, h2⟩ | ⟨_, h0, h1, h2⟩
            · exact ⟨fun _ => ⟨fun p hp => hmem p (List.mem_cons_of_mem _ hp), h1, hfx.frame_trans h2⟩,
                fun hr => absurd ‹r1 = INCOMPLETE› hr⟩
            · exact ⟨fun hr => absurd hr ‹r1 ≠ INCOMPLETE›, fun _ => ⟨h0, h1⟩⟩)
          [0, 1, 2] (cleared st s mask) r2 st2
          ⟨by intro g hg; simp at hg; omega, hcl, Frame.frame_refl _⟩ hl
        rcases hrest with ⟨hr, rfl, rfl⟩ | ⟨hr, rfl, rfl⟩
        · rcases hloop with ⟨h1, _⟩ | ⟨_, h1⟩
          · exact absurd h1 hr
          · exact h1
        · rcases hloop with ⟨_, h1⟩ | ⟨h1, _⟩
          · exact ⟨finalStatus_ne_error _, h1.2.1⟩
          · exact absurd hr h1


/-! ## What a call leaves in its own cell -/

theorem ur_frame_cleared {cfg : Config} {w : Wiring} {fuel : Nat} {st : State} {s mask : Nat}
    {r : Int} {st' : State}
    (h : uncertainty_reduction cfg w (fuel + 1) st s mask = some (r, st'))
    (h0 : (st.square s).digits &&& mask ≠ 0) : Frame (cleared st s mask) st' := by
  rcases ur_cases h with ⟨hz, _, _⟩ | ⟨_, h2⟩
  · exact absurd hz h0
  · rcases h2 with ⟨_, _, rfl⟩ | ⟨_, r2, st2, hl, hrest⟩ | ⟨_, _, r2, st2, hl, hrest⟩
    · exact Frame.frame_refl _
    · have hloop := firstOrderLoop_rule (fun _ stx => Frame (cleared st s mask) stx)
        (fun _ stx => Frame (cleared st s mask) stx)
        (fun _ _ _ _ hJ _ => hJ)
        (fun g i rest stx r1 st1 hJ _ _ hrec =>
          ⟨fun _ => hJ.frame_trans (ur_frame cfg w _ _ _ _ _ _ hrec),
           fun _ => hJ.frame_trans (ur_frame cfg w _ _ _ _ _ _ hrec)⟩)
        groupPairs (cleared st s mask) r2 st2 (Frame.frame_refl _) hl
      have h2 : Frame (cleared st s mask) st2 := by
        rcases hloop with ⟨_, h⟩ | ⟨_, h⟩ <;> exact h
      rcases hrest with ⟨_, _, rfl⟩ | ⟨_, _, _, rfl⟩ | ⟨_, _, _, rfl⟩
      · exact h2
      · exact h2
      · exact h2
    · have hloop := nthOrderLoop_rule (fun _ stx => Frame (cleared st s mask) stx)
        (fun _ stx => Frame (cleared st s mask) stx)
        (fun _ _ _ hJ _ => hJ)
        (fun g rest stx r1 st1 hJ _ hrec => by
          have := reduceUncontained_rule (fun _ sty => Frame (cleared st s mask) sty)
            (fun _ sty => Frame (cleared st s mask) sty)
            (fun u rest' sty r3 st3 hJ' hrec' =>
              ⟨fun _ => hJ'.frame_trans (ur_frame cfg w _ _ _ _ _ _ hrec'),
               fun _ => hJ'.frame_trans (ur_frame cfg w _ _ _ _ _ _ hrec')⟩)
            _ stx r1 st1 hJ hrec
          rcases this with ⟨_, h⟩ | ⟨_, h⟩ <;> exact ⟨fun _ => h, fun _ => h⟩)
        [0, 1, 2] (cleared st s mask) r2 st2 (Frame.frame_refl _) hl
      have h2 : Frame (cleared st s mask) st2 := by
        rcases hloop with ⟨_, h⟩ | ⟨_, h⟩ <;> exact h
      rcases hrest with ⟨_, _, rfl⟩ | ⟨_, _, rfl⟩
      · exact h2
      · exact h2

theorem ur_clears {cfg : Config} {w : Wiring} {fuel : Nat} {st : State} {s mask : Nat}
    {r : Int} {st' : State}
    (h : uncertainty_reduction cfg w fuel st s mask = some (r, st')) :
    (st'.square s).digits &&& mask = 0 := by
  cases fuel with
  | zero => simp [uncertainty_reduction] at h
  | succ fuel =>
    by_cases h0 : (st.square s).digits &&& mask = 0
    · rcases ur_cases h with ⟨_, _, rfl⟩ | ⟨hne, _⟩
      · exact h0
      · exact absurd h0 hne
    · have hf := (ur_frame_cleared h h0).1 s
      rw [cleared_square_self] at hf
      exact hf.sub_and_zero (clear_and_mask _ _)

theorem ur_noop (cfg : Config) (w : Wiring) (fuel : Nat) (st : State) (s mask : Nat)
    (h0 : (st.square s).digits &&& mask = 0) :
    uncertainty_reduction cfg w (fuel + 1) st s mask = some (INCOMPLETE, st) := by
  simp [uncertainty_reduction, h0]

set_option maxRecDepth 1000000 in
theorem sampleGrid_valid : ValidGrid sampleGrid := by
  unfold ValidGrid
  refine ⟨?_, ?_⟩
  · intro c hc; unfold sampleGrid; omega
  · have : ∀ a < 81, ∀ b < 81, a ≠ b → sameUnit a b → sampleGrid a ≠ sampleGrid b := by
      decide!
    intro a b ha hb; exact this a ha b hb

theorem digitSum_initState : digitSum initState = 41391 := by
  simp [digitSum, initState]

theorem compatible_initState {G : Nat → Nat} (hG : ValidGrid G) : Compatible G initState := by
  intro c hc
  have := hG.1 c hc
  simp only [initState]
  have h : ∀ k < 9, (0x01ff : Nat).testBit k = true := by decide
  exact h _ (by omega)


/-! ## The consistency invariant of propagation -/

theorem sub_511_lt {d : Nat} (h : Sub d 511) : d < 65536 :=
  lt_of_le_of_lt h.sub_le (by norm_num)

theorem consistent_inv {st : State} (h : Consistent st) : Inv ∅ st := by
  obtain ⟨hok, hcnt, hpeer⟩ := h
  refine ⟨fun c hc => sub_511_lt (hok c hc).2.1, by simpa using hcnt, ?_, ?_⟩
  · intro c hc; exact absurd hc (Finset.not_mem_empty c)
  · intro a b ha hb _ hpa hba hsu; exact hpeer a b ha hb hpa hba hsu

theorem testBit_511 {j : Nat} (h : (511 : Nat).testBit j = true) : j < 9 := by
  by_contra hj
  have h2 : (511 : Nat) < 2 ^ j :=
    lt_of_lt_of_le (by norm_num) (Nat.pow_le_pow_right (by norm_num) (Nat.le_of_not_lt hj))
  rw [Nat.testBit_lt_two_pow h2] at h
  exact absurd h (by simp)

theorem exists_testBit_of_ne_zero {x : Nat} (h : x ≠ 0) : ∃ i, x.testBit i = true := by
  by_contra hn
  apply h
  apply Nat.eq_of_testBit_eq
  intro i
  rw [Nat.zero_testBit]
  cases hx : x.testBit i
  · rfl
  · exact absurd ⟨i, hx⟩ hn

theorem eq_of_sub_single {x d : Nat} (h1 : popcount d = 1) (hd : d < 65536) (hx : Sub x d)
    (h0 : x ≠ 0) : x = d := by
  obtain ⟨i, hi⟩ := exists_testBit_of_ne_zero h0
  have hi9 := testBit_lt_16 hd (hx i hi)
  apply Nat.eq_of_testBit_eq
  intro j
  cases hj : d.testBit j
  · cases hxj : x.testBit j
    · rfl
    · rw [hx j hxj] at hj; exact absurd hj (by simp)
  · have hj9 := testBit_lt_16 hd hj
    have := popcount_one_unique h1 hi9 hj9 (hx i hi) hj
    rw [← this]; exact hi

theorem popcount_lt_of_sub_ne {a b : Nat} (h : Sub a b) (hne : a ≠ b) (hb : b < 65536) :
    popcount a < popcount b := by
  rw [popcount_eq_card, popcount_eq_card]
  apply Finset.card_lt_card
  refine ⟨fun x hx => ?_, fun hsub => hne ?_⟩
  · rw [mem_bits] at *; exact ⟨hx.1, h x hx.2⟩
  · apply Nat.eq_of_testBit_eq
    intro i
    cases hbi : b.testBit i
    · cases hai : a.testBit i
      · rfl
      · rw [h i hai] at hbi; exact absurd hbi (by simp)
    · have h9 := testBit_lt_16 hb hbi
      exact (mem_bits.mp (hsub (mem_bits.mpr ⟨h9, hbi⟩))).2

theorem popcount_zero : popcount 0 = 0 := by decide

theorem ne_zero_of_popcount {d : Nat} (h : popcount d ≠ 0) : d ≠ 0 := by
  intro h0; rw [h0] at h; exact h popcount_zero

theorem uncertain_card_le (st : State) : (uncertain st).card ≤ 81 := by
  have := Finset.card_filter_le (Finset.range 81)
    (fun c => 2 ≤ popcount (st.square c).digits)
  simpa [uncertain] using this

theorem pending_card_le {P : Finset Nat} (h : ∀ c, c ∈ P → c < 81) : P.card ≤ 81 := by
  have : P ⊆ Finset.range 81 := fun c hc => Finset.mem_range.mpr (h c hc)
  simpa using Finset.card_le_card this

theorem mem_uncertain {st : State} {c : Nat} :
    c ∈ uncertain st ↔ c < 81 ∧ 2 ≤ popcount (st.square c).digits := by
  simp [uncertain]


theorem cleared_ne {st : State} {s mask : Nat} (h0 : (st.square s).digits &&& mask ≠ 0) :
    (st.square s).digits &&& not16 mask ≠ (st.square s).digits :=
  Nat.ne_of_lt (clear_lt _ _ h0)

theorem cellsOk_cleared {st : State} (h : CellsOk st) {s mask : Nat}
    (hn : popcount ((st.square s).digits &&& not16 mask) ≠ 0) :
    CellsOk (cleared st s mask) := by
  intro c hc
  by_cases hcs : c = s
  · subst hcs
    rw [cleared_square_self]
    exact ⟨ne_zero_of_popcount hn, (clear_sub _ _).sub_trans (h c hc).2.1, rfl⟩
  · rw [cleared_square_other st mask hcs]; exact h c hc

theorem typed_cleared {st : State} (h : Typed st) (s mask : Nat) :
    Typed (cleared st s mask) := by
  intro c hc
  by_cases hcs : c = s
  · subst hcs
    rw [cleared_square_self]
    exact clear_lt_65536 _ _
  · rw [cleared_square_other st mask hcs]; exact h c hc

theorem uncertain_cleared_fix {st : State} (hok : Typed st) {s mask : Nat} (hs : s < 81)
    (h0 : (st.square s).digits &&& mask ≠ 0)
    (h1 : popcount ((st.square s).digits &&& not16 mask) = 1) :
    s ∈ uncertain st ∧ uncertain (cleared st s mask) = (uncertain st).erase s := by
  have hlt := popcount_lt_of_sub_ne (clear_sub (st.square s).digits mask) (cleared_ne h0)
    (hok s hs)
  refine ⟨mem_uncertain.mpr ⟨hs, by omega⟩, ?_⟩
  ext c
  rw [Finset.mem_erase, mem_uncertain, mem_uncertain]
  by_cases hcs : c = s
  · subst hcs
    rw [cleared_square_self]
    simp only [h1]
    constructor
    · intro h; omega
    · intro h; exact absurd rfl h.1
  · rw [cleared_square_other st mask hcs]
    exact ⟨fun h => ⟨hcs, h⟩, fun h => h.2⟩

theorem uncertain_cleared_open {st : State} {s mask : Nat}
    (hn0 : popcount ((st.square s).digits &&& not16 mask) ≠ 0)
    (hn1 : popcount ((st.square s).digits &&& not16 mask) ≠ 1) :
    uncertain (cleared st s mask) = uncertain st := by
  have hle := popcount_mono (clear_sub (st.square s).digits mask)
  ext c
  rw [mem_uncertain, mem_uncertain]
  by_cases hcs : c = s
  · subst hcs
    rw [cleared_square_self]
    simp only
    constructor
    · intro h; exact ⟨h.1, by omega⟩
    · intro h; exact ⟨h.1, by omega⟩
  · rw [cleared_square_other st mask hcs]

theorem inv_cleared_fix {P : Finset Nat} {st : State} (h : Inv P st) {s mask : Nat}
    (hs : s < 81) (h0 : (st.square s).digits &&& mask ≠ 0)
    (h1 : popcount ((st.square s).digits &&& not16 mask) = 1) :
    s ∉ P ∧ Inv (insert s P) (cleared st s mask) := by
  obtain ⟨hok, hcnt, hpend, hpeer⟩ := h
  obtain ⟨hmem, hunc⟩ := uncertain_cleared_fix hok hs h0 h1
  have hsP : s ∉ P := by
    intro hin
    have := (hpend s hin).2
    have := (mem_uncertain.mp hmem).2
    omega
  refine ⟨hsP, typed_cleared hok s mask, ?_, ?_, ?_⟩
  · rw [hunc, Finset.card_erase_of_mem hmem, Finset.card_insert_of_not_mem hsP]
    have : 0 < (uncertain st).card := Finset.card_pos.mpr ⟨s, hmem⟩
    show st.unsolved_squares = _
    omega
  · intro c hc
    rcases Finset.mem_insert.mp hc with rfl | hc
    · rw [cleared_square_self]; exact ⟨hs, h1⟩
    · have hcs : c ≠ s := fun e => hsP (e ▸ hc)
      rw [cleared_square_other st mask hcs]; exact hpend c hc
  · intro a b ha hb haP hpa hba hsu
    have has : a ≠ s := fun e => haP (e ▸ Finset.mem_insert_self s P)
    have haP' : a ∉ P := fun e => haP (Finset.mem_insert_of_mem e)
    rw [cleared_square_other st mask has] at hpa ⊢
    exact ((frame_cleared st s mask).1 b).sub_and_zero (hpeer a b ha hb haP' hpa hba hsu)

theorem inv_cleared_open {P : Finset Nat} {st : State} (h : Inv P st) {s mask : Nat}
    (hn0 : popcount ((st.square s).digits &&& not16 mask) ≠ 0)
    (hn1 : popcount ((st.square s).digits &&& not16 mask) ≠ 1) :
    Inv P (cleared st s mask) := by
  obtain ⟨hok, hcnt, hpend, hpeer⟩ := h
  have hunc := @uncertain_cleared_open st s mask hn0 hn1
  have hle := popcount_mono (clear_sub (st.square s).digits mask)
  have hsP : s ∉ P := by
    intro hin
    have := (hpend s hin).2
    omega
  refine ⟨typed_cleared hok s mask, ?_, ?_, ?_⟩
  · rw [hunc]; exact hcnt
  · intro c hc
    have hcs : c ≠ s := fun e => hsP (e ▸ hc)
    rw [cleared_square_other st mask hcs]; exact hpend c hc
  · intro a b ha hb haP hpa hba hsu
    have has : a ≠ s := by
      intro e; subst e
      rw [cleared_square_self] at hpa
      exact hn1 hpa
    rw [cleared_square_other st mask has] at hpa ⊢
    exact ((frame_cleared st s mask).1 b).sub_and_zero (hpeer a b ha hb haP hpa hba hsu)

theorem inv_decrement {P : Finset Nat} {st : State} {s : Nat} (h : Inv (insert s P) st)
    (hsP : s ∉ P)
    (hdone : ∀ b, b < 81 → b ≠ s → sameUnit s b →
      (st.square b).digits &&& (st.square s).digits = 0) :
    Inv P (decremented st) := by
  obtain ⟨hok, hcnt, hpend, hpeer⟩ := h
  have hP : ∀ c, c ∈ insert s P → c < 81 := fun c hc => (hpend c hc).1
  have h1 := uncertain_card_le st
  have h2 := pending_card_le hP
  rw [Finset.card_insert_of_not_mem hsP] at hcnt h2
  refine ⟨hok, ?_, fun c hc => hpend c (Finset.mem_insert_of_mem hc), ?_⟩
  · show (st.unsolved_squares + 255) % 256 = (uncertain st).card + P.card
    omega
  · intro a b ha hb haP hpa hba hsu
    by_cases has : a = s
    · subst has; exact hdone b hb hba hsu
    · exact hpeer a b ha hb (fun e => by
        rcases Finset.mem_insert.mp e with e | e
        · exact has e
        · exact haP e) hpa hba hsu

theorem inv_recorded {P : Finset Nat} {cfg : Config} {st : State} (h : Inv P st) :
    Inv P (recorded cfg st) := h

theorem inv_pending_empty {P : Finset Nat} {st : State} (h : Inv P st)
    (h0 : st.unsolved_squares = 0) : P = ∅ := by
  have := h.2.1
  rw [h0] at this
  exact Finset.card_eq_zero.mp (by omega)


theorem groupPairs_mem {g i : Nat} (hg : g < 3) (hi : i < 9) : (g, i) ∈ groupPairs := by
  simp only [groupPairs, List.mem_flatMap, List.mem_range, List.mem_map, Prod.mk.injEq]
  exact ⟨g, hg, i, hi, rfl, rfl⟩

theorem finalStatus_eq_solved {st : State} (h : st.unsolved_squares = 0) :
    finalStatus st = SOLVED := by
  unfold finalStatus
  rw [h]; rfl

theorem ur_nonzero (cfg : Config) (w : Wiring) :
    ∀ fuel st s mask r st', uncertainty_reduction cfg w fuel st s mask = some (r, st') →
      r ≠ ERROR → KeepsNonEmpty st st' := by
  intro fuel
  induction fuel with
  | zero => intro st s mask r st' h; simp [uncertainty_reduction] at h
  | succ fuel ih =>
    intro st s mask r st' h hr
    rcases ur_cases h with ⟨_, _, rfl⟩ | ⟨_, h2⟩
    · exact fun c hc => hc
    · rcases h2 with ⟨_, rfl, _⟩ | ⟨hn1, r2, st2, hl, hrest⟩ | ⟨hn0, _, r2, st2, hl, hrest⟩
      · exact absurd rfl hr
      · have hn0 : popcount ((st.square s).digits &&& not16 mask) ≠ 0 := by omega
        have hcl : KeepsNonEmpty st (cleared st s mask) := by
          intro c hc
          by_cases hcs : c = s
          · subst hcs; rw [cleared_square_self]; exact ne_zero_of_popcount hn0
          · rw [cleared_square_other st mask hcs]; exact hc
        have hloop := firstOrderLoop_rule (fun _ stx => KeepsNonEmpty st stx)
          (fun r stx => r ≠ ERROR → KeepsNonEmpty st stx)
          (fun _ _ _ _ hJ _ => hJ)
          (fun g i rest stx r1 st1 hJ _ _ hrec =>
            ⟨fun hi c hc => ih _ _ _ _ _ hrec (by rw [hi]; decide) c (hJ c hc),
             fun _ he c hc => ih _ _ _ _ _ hrec he c (hJ c hc)⟩)
          groupPairs (cleared st s mask) r2 st2 hcl hl
        rcases hrest with ⟨_, rfl, rfl⟩ | ⟨hr2, _, _, rfl⟩ | ⟨hr2, _, _, rfl⟩
        · rcases hloop with ⟨_, h⟩ | ⟨_, h⟩
          · exact h
          · exact h hr
        · rcases hloop with ⟨_, h⟩ | ⟨hne, _⟩
          · exact h
          · exact absurd hr2 hne
        · rcases hloop with ⟨_, h⟩ | ⟨hne, _⟩
          · exact h
          · exact absurd hr2 hne
      · have hcl : KeepsNonEmpty st (cleared st s mask) := by
          intro c hc
          by_cases hcs : c = s
          · subst hcs; rw [cleared_square_self]; exact ne_zero_of_popcount hn0
          · rw [cleared_square_other st mask hcs]; exact hc
        have hloop := nthOrderLoop_rule (fun _ stx => KeepsNonEmpty st stx)
          (fun r stx => r ≠ ERROR → KeepsNonEmpty st stx)
          (fun _ _ _ hJ _ => hJ)
          (fun g rest stx r1 st1 hJ _ hrec => by
            have := reduceUncontained_rule (fun _ sty => KeepsNonEmpty st sty)
              (fun r sty => r ≠ ERROR → KeepsNonEmpty st sty)
              (fun u rest' sty r3 st3 hJ' hrec' =>
                ⟨fun hi c hc => ih _ _ _ _ _ hrec' (by rw [hi]; decide) c (hJ' c hc),
                 fun _ he c hc => ih _ _ _ _ _ hrec' he c (hJ' c hc)⟩)
              _ stx r1 st1 hJ hrec
            rcases this with ⟨hi, h⟩ | ⟨hne, h⟩
            · exact ⟨fun _ => h, fun hne => absurd hi hne⟩
            · exact ⟨fun hi => absurd hi hne, fun _ => h⟩)
          [0, 1, 2] (cleared st s mask) r2 st2 hcl hl
        rcases hrest with ⟨_, rfl, rfl⟩ | ⟨hr2, _, rfl⟩
        · rcases hloop with ⟨_, h⟩ | ⟨_, h⟩
          · exact h
          · exact h hr
        · rcases hloop with ⟨_, h⟩ | ⟨hne, _⟩
          · exact h
          · exact absurd hr2 hne

theorem ur_inv2 (cfg : Config) {w : Wiring} (hw : Std w) :
    ∀ fuel (P : Finset Nat) st s mask r st', s < 81 → Inv P st →
      uncertainty_reduction cfg w fuel st s mask = some (r, st') → Post2 P st r st' := by
  intro fuel
  induction fuel with
  | zero => intro P st s mask r st' _ _ h; simp [uncertainty_reduction] at h
  | succ fuel ih =>
    intro P st s mask r st' hs hinv h
    rcases ur_cases h with ⟨_, rfl, rfl⟩ | ⟨h0, h2⟩
    · exact Or.inl ⟨rfl, hinv, rfl, Or.inl rfl⟩
    · rcases h2 with ⟨_, rfl, rfl⟩ | ⟨hn1, r2, st2, hl, hrest⟩ | ⟨hn0, hn1, r2, st2, hl, hrest⟩
      · exact Or.inr (Or.inr ⟨rfl, rfl⟩)
      · obtain ⟨hsP, hcl⟩ := inv_cleared_fix hinv hs h0 hn1
        have hn0 : popcount ((st.square s).digits &&& not16 mask) ≠ 0 := by omega
        have hsd : ∀ stx, (stx.square s).digits ≠ 0 → Frame (cleared st s mask) stx →
            (stx.square s).digits = (st.square s).digits &&& not16 mask := by
          intro stx hnz hfx
          have hsub := hfx.1 s
          rw [cleared_square_self] at hsub
          exact eq_of_sub_single hn1 (clear_lt_65536 _ _) hsub hnz
        have hloop := firstOrderLoop_rule
          (fun rem stx => (∀ p ∈ rem, p.1 < 3 ∧ p.2 < 9) ∧ Inv (insert s P) stx ∧
            Frame (cleared st s mask) stx ∧ (stx.square s).digits ≠ 0 ∧
            stx.solutions = st.solutions ∧
            ∀ b, b < 81 → b ≠ s → sameUnit s b →
              (∃ p ∈ rem, w.peer s p.1 p.2 = b) ∨
              (stx.square b).digits &&& ((st.square s).digits &&& not16 mask) = 0)
          (fun r stx => r = ERROR ∧ stx.solutions = st.solutions)
          (fun g i rest stx hJ hc => by
            obtain ⟨hmem, hix, hfx, hnz, hsol, hb⟩ := hJ
            refine ⟨fun p hp => hmem p (List.mem_cons_of_mem _ hp), hix, hfx, hnz, hsol, ?_⟩
            intro b hb81 hbs hsu
            rcases hb b hb81 hbs hsu with ⟨p, hp, hpb⟩ | hz
            · rcases List.mem_cons.mp hp with rfl | hp
              · right
                simp only at hpb
                rw [hpb, hsd stx hnz hfx] at hc
                by_contra hne
                exact hc ⟨hbs, hne⟩
              · exact Or.inl ⟨p, hp, hpb⟩
            · exact Or.inr hz)
          (fun g i rest stx r1 st1 hJ hne _ hrec => by
            obtain ⟨hmem, hix, hfx, hnz, hsol, hb⟩ := hJ
            have hgi := hmem (g, i) (List.mem_cons_self _ _)
            have hs2 : w.peer s g i < 81 := hw.std_inRange s g i hs hgi.1 hgi.2
            have hpost := ih (insert s P) stx _ _ r1 st1 hs2 hix hrec
            have hf1 := ur_frame cfg w _ _ _ _ _ _ hrec
            have hcl1 := ur_clears hrec
            rw [hsd stx hnz hfx] at hcl1
            constructor
            · intro hr
              rcases hpost with ⟨_, hi1, hs1, _⟩ | ⟨hr2, _⟩ | ⟨hr2, _⟩
              · refine ⟨fun p hp => hmem p (List.mem_cons_of_mem _ hp), hi1,
                  hfx.frame_trans hf1,
                  ur_nonzero cfg w _ _ _ _ _ _ hrec (by rw [hr]; decide) s hnz,
                  hs1.trans hsol, ?_⟩
                intro b hb81 hbs hsu
                rcases hb b hb81 hbs hsu with ⟨p, hp, hpb⟩ | hz
                · rcases List.mem_cons.mp hp with rfl | hp
                  · right
                    simp only at hpb
                    rw [← hpb]; exact hcl1
                  · exact Or.inl ⟨p, hp, hpb⟩
                · exact Or.inr ((hf1.1 b).sub_and_zero hz)
              · rw [hr] at hr2; exact absurd hr2 (by decide)
              · rw [hr] at hr2; exact absurd hr2 (by decide)
            · intro hr
              rcases hpost with ⟨hr2, _⟩ | ⟨_, he, _⟩ | ⟨hr2, hs1⟩
              · exact absurd hr2 hr
              · exact absurd he (Finset.insert_ne_empty _ _)
              · exact ⟨hr2, hs1.trans hsol⟩)
          groupPairs (cleared st s mask) r2 st2
          ⟨fun p hp => mem_groupPairs hp, hcl, Frame.frame_refl _, by
            rw [cleared_square_self]; exact ne_zero_of_popcount hn0, rfl, by
            intro b hb81 hbs hsu
            obtain ⟨g, i, hg, hi, hm⟩ := sameUnit_memberF hs hb81 hsu
            exact Or.inl ⟨(g, i), groupPairs_mem hg hi, by rw [hw s g i hs hg hi]; exact hm⟩⟩ hl
        have hafter : r2 = INCOMPLETE →
            Inv P (decremented st2) ∧ st2.solutions = st.solutions := by
          intro hr
          rcases hloop with ⟨_, _, hi2, hf2, hnz2, hsol2, hb⟩ | ⟨hne, _⟩
          · refine ⟨?_, hsol2⟩
            apply inv_decrement hi2 hsP
            intro b hb81 hbs hsu
            rw [hsd st2 hnz2 hf2]
            rcases hb b hb81 hbs hsu with ⟨p, hp, _⟩ | hz
            · exact absurd hp (List.not_mem_nil _)
            · exact hz
          · exact absurd hr hne
        rcases hrest with ⟨hr, rfl, rfl⟩ | ⟨hr, hz, rfl, rfl⟩ | ⟨hr, hz, rfl, rfl⟩
        · rcases hloop with ⟨h1, _⟩ | ⟨_, h1⟩
          · exact absurd h1 hr
          · exact Or.inr (Or.inr h1)
        · obtain ⟨hI, hsol⟩ := hafter hr
          have hP := inv_pending_empty hI hz
          subst hP
          refine Or.inr (Or.inl ⟨rfl, rfl, inv_recorded hI, hz, ?_⟩)
          show (st2.solutions + 1) % 2 ^ 64 = _
          rw [hsol]
        · rw [finalStatus_eq_incomplete hz]
          obtain ⟨hI, hsol⟩ := hafter hr
          exact Or.inl ⟨rfl, hI, hsol, Or.inr hz⟩
      · have hcl := @inv_cleared_open P st hinv s mask hn0 hn1
        have hpos : (cleared st s mask).unsolved_squares ≠ 0 := by
          have hmem : s ∈ uncertain (cleared st s mask) := by
            rw [mem_uncertain, cleared_square_self]
            exact ⟨hs, by simp only; omega⟩
          have hc := hcl.2.1
          have : 0 < (uncertain (cleared st s mask)).card := Finset.card_pos.mpr ⟨s, hmem⟩
          omega
        have hloop := nthOrderLoop_rule
          (fun rem stx => (∀ g ∈ rem, g < 3) ∧ Inv P stx ∧ stx.solutions = st.solutions ∧
            stx.unsolved_squares ≠ 0)
          (fun r stx => Post2 P st r stx)
          (fun g rest stx hJ _ => ⟨fun p hp => hJ.1 p (List.mem_cons_of_mem _ hp), hJ.2⟩)
          (fun g rest stx r1 st1 hJ _ hrec => by
            obtain ⟨hmem, hix, hsolx, hux⟩ := hJ
            have hg := hmem g (List.mem_cons_self _ _)
            have hin := reduceUncontained_rule
              (fun rem sty => (∀ u ∈ rem, u < 81) ∧ Inv P sty ∧
                sty.solutions = st.solutions ∧ sty.unsolved_squares ≠ 0)
              (fun r sty => Post2 P st r sty)
              (fun u rest' sty r3 st3 hJ' hrec' => by
                obtain ⟨hmem', hiy, hsoly, huy⟩ := hJ'
                have hpost := ih P sty _ _ r3 st3 (hmem' u (List.mem_cons_self _ _)) hiy hrec'
                constructor
                · intro hr
                  rcases hpost with ⟨_, hi3, hs3, hu3⟩ | ⟨hr2, _⟩ | ⟨hr2, _⟩
                  · refine ⟨fun p hp => hmem' p (List.mem_cons_of_mem _ hp), hi3,
                      hs3.trans hsoly, ?_⟩
                    rcases hu3 with rfl | hu3
                    · exact huy
                    · exact hu3
                  · rw [hr] at hr2; exact absurd hr2 (by decide)
                  · rw [hr] at hr2; exact absurd hr2 (by decide)
                · intro hr
                  rcases hpost with ⟨hr2, _⟩ | ⟨hr2, hP, hi3, hu3, hs3⟩ | ⟨hr2, hs3⟩
                  · exact absurd hr2 hr
                  · exact Or.inr (Or.inl ⟨hr2, hP, hi3, hu3, by rw [hs3, hsoly]⟩)
                  · exact Or.inr (Or.inr ⟨hr2, hs3.trans hsoly⟩))
              _ stx r1 st1
              ⟨fun u hu => by
                  obtain ⟨⟨i, hi, rfl⟩, _⟩ := mem_uncontainedOf hu
                  exact hw.std_inRange s g i hs hg hi, hix, hsolx, hux⟩ hrec
            rcases hin with ⟨hr, _, h1⟩ | ⟨hr, h1⟩
            · exact ⟨fun _ => ⟨fun p hp => hmem p (List.mem_cons_of_mem _ hp), h1⟩,
                fun hne => absurd hr hne⟩
            · exact ⟨fun he => absurd he hr, fun _ => h1⟩)
          [0, 1, 2] (cleared st s mask) r2 st2
          ⟨by intro g hg; simp at hg; omega, hcl, rfl, hpos⟩ hl
        rcases hrest with ⟨hr, rfl, rfl⟩ | ⟨hr, rfl, rfl⟩
        · rcases hloop with ⟨h1, _⟩ | ⟨_, h1⟩
          · exact absurd h1 hr
          · exact h1
        · rcases hloop with ⟨_, _, h1, hs1, hu1⟩ | ⟨h1, _⟩
          · rw [finalStatus_eq_incomplete hu1]
            exact Or.inl ⟨rfl, h1, hs1, Or.inr hu1⟩
          · exact absurd hr h1

theorem ur_inv (cfg : Config) {w : Wiring} (hw : Std w) (fuel : Nat) (P : Finset Nat)
    (st : State) (s mask : Nat) (r : Int) (st' : State) (hs : s < 81) (hinv : Inv P st)
    (h : uncertainty_reduction cfg w fuel st s mask = some (r, st')) : Post P r st' := by
  rcases ur_inv2 cfg hw fuel P st s mask r st' hs hinv h with
    ⟨hr, hI, _⟩ | ⟨hr, hP, hI, h0, _⟩ | ⟨hr, _⟩
  · exact Or.inl ⟨hr, hI⟩
  · exact Or.inr (Or.inl ⟨hr, hP, hI, h0⟩)
  · exact Or.inr (Or.inr hr)

/-! ## Cached sizes and solved boards -/

theorem ur_preserves (cfg : Config) (w : Wiring) (I : State → Prop)
    (hcl : ∀ st s mask, I st → I (cleared st s mask))
    (hdec : ∀ st, I st → I (decremented st))
    (hrec : ∀ st, I st → I (recorded cfg st)) :
    ∀ fuel st s mask r st', I st →
      uncertainty_reduction cfg w fuel st s mask = some (r, st') → I st' := by
  intro fuel
  induction fuel with
  | zero => intro st s mask r st' _ h; simp [uncertainty_reduction] at h
  | succ fuel ih =>
    intro st s mask r st' hI h
    rcases ur_cases h with ⟨_, _, rfl⟩ | ⟨_, h2⟩
    · exact hI
    · rcases h2 with ⟨_, _, rfl⟩ | ⟨_, r2, st2, hl, hrest⟩ | ⟨_, _, r2, st2, hl, hrest⟩
      · exact hcl _ _ _ hI
      · have hloop := firstOrderLoop_rule (fun _ stx => I stx) (fun _ stx => I stx)
          (fun _ _ _ _ hJ _ => hJ)
          (fun g i rest stx r1 st1 hJ _ _ hrec =>
            ⟨fun _ => ih _ _ _ _ _ hJ hrec, fun _ => ih _ _ _ _ _ hJ hrec⟩)
          groupPairs (cleared st s mask) r2 st2 (hcl _ _ _ hI) hl
        have h2 : I st2 := by
          rcases hloop with ⟨_, h⟩ | ⟨_, h⟩ <;> exact h
        rcases hrest with ⟨_, _, rfl⟩ | ⟨_, _, _, rfl⟩ | ⟨_, _, _, rfl⟩
        · exact h2
        · exact hrec _ (hdec _ h2)
        · exact hdec _ h2
      · have hloop := nthOrderLoop_rule (fun _ stx => I stx) (fun _ stx => I stx)
          (fun _ _ _ hJ _ => hJ)
          (fun g rest stx r1 st1 hJ _ hrec => by
            have := reduceUncontained_rule (fun _ sty => I sty) (fun _ sty => I sty)
              (fun u rest' sty r3 st3 hJ' hrec' =>
                ⟨fun _ => ih _ _ _ _ _ hJ' hrec', fun _ => ih _ _ _ _ _ hJ' hrec'⟩)
              _ stx r1 st1 hJ hrec
            rcases this with ⟨_, h⟩ | ⟨_, h⟩ <;> exact ⟨fun _ => h, fun _ => h⟩)
          [0, 1, 2] (cleared st s mask) r2 st2 (hcl _ _ _ hI) hl
        have h2 : I st2 := by
          rcases hloop with ⟨_, h⟩ | ⟨_, h⟩ <;> exact h
        rcases hrest with ⟨_, _, rfl⟩ | ⟨_, _, rfl⟩
        · exact h2
        · exact h2

theorem sizesOk_cleared (st : State) (s mask : Nat) (h : SizesOk st) :
    SizesOk (cleared st s mask) := by
  intro c hc
  by_cases hcs : c = s
  · subst hcs; rw [cleared_square_self]
  · rw [cleared_square_other st mask hcs]; exact h c hc

theorem ur_sizes (cfg : Config) (w : Wiring) {fuel : Nat} {st : State} {s mask : Nat}
    {r : Int} {st' : State} (hI : SizesOk st)
    (h : uncertainty_reduction cfg w fuel st s mask = some (r, st')) : SizesOk st' :=
  ur_preserves cfg w SizesOk sizesOk_cleared (fun _ h => h) (fun _ h => h)
    fuel st s mask r st' hI h

theorem two_pow_testBit (k j : Nat) : (2 ^ k).testBit j = decide (k = j) := Nat.testBit_two_pow

theorem single_is_pow {d : Nat} (h1 : popcount d = 1) (hd : Sub d 511) :
    ∃ k, k < 9 ∧ d = 2 ^ k := by
  obtain ⟨k, hk⟩ := exists_testBit_of_ne_zero (ne_zero_of_popcount (by omega : popcount d ≠ 0))
  refine ⟨k, testBit_511 (hd k hk), ?_⟩
  symm
  apply eq_of_sub_single h1 (sub_511_lt hd)
  · intro j hj
    rw [two_pow_testBit] at hj
    have : k = j := of_decide_eq_true hj
    rw [← this]; exact hk
  · exact (Nat.two_pow_pos k).ne'

/-- In a fully fixed board whose fixed cells exclude their digit from their peers, every
group holds every digit exactly once. -/
theorem group_complete {st : State}
    (hone : ∀ c, c < 81 → popcount (st.square c).digits = 1)
    (h511 : ∀ c, c < 81 → Sub (st.square c).digits 511)
    (hpeer : ∀ a b, a < 81 → b < 81 → popcount (st.square a).digits = 1 → b ≠ a →
      sameUnit a b → (st.square b).digits &&& (st.square a).digits = 0)
    {g idx k : Nat} (hg : g < 3) (hidx : idx < 9) (hk : k < 9) :
    ∃! p, p < 9 ∧ (st.square (memberF g idx p)).digits = 2 ^ k := by
  let f : Nat → Nat := fun p => (st.square (memberF g idx p)).digits
  have hinj : Set.InjOn f (Finset.range 9 : Set Nat) := by
    intro p hp q hq hpq
    have hp9 : p < 9 := Finset.mem_range.mp hp
    have hq9 : q < 9 := Finset.mem_range.mp hq
    by_contra hne
    have hP : memberF g idx q ≠ memberF g idx p := fun e => hne (memberF_inj hp9 hq9 e.symm)
    have ha := memberF_lt (g := g) hidx hp9
    have hb := memberF_lt (g := g) hidx hq9
    have hz := hpeer _ _ ha hb (hone _ ha) hP (memberF_sameUnit hg hidx hp9 hq9)
    have hfq : f q = f p := hpq.symm
    simp only [f] at hfq
    rw [hfq, Nat.and_self] at hz
    exact ne_zero_of_popcount (by rw [hone _ ha]; decide) hz
  let T : Finset Nat := (Finset.range 9).image (fun k => 2 ^ k)
  have hT : T.card = 9 := by
    rw [Finset.card_image_of_injOn]
    · simp
    · intro a _ b _ hab
      exact Nat.pow_right_injective (le_refl 2) hab
  have hsub : (Finset.range 9).image f ⊆ T := by
    intro x hx
    obtain ⟨p, hp, rfl⟩ := Finset.mem_image.mp hx
    have hp9 : p < 9 := Finset.mem_range.mp hp
    have ha := memberF_lt (g := g) hidx hp9
    obtain ⟨k', hk', he⟩ := single_is_pow (hone _ ha) (h511 _ ha)
    exact Finset.mem_image.mpr ⟨k', Finset.mem_range.mpr hk', he.symm⟩
  have hcard : T.card ≤ ((Finset.range 9).image f).card := by
    rw [hT, Finset.card_image_of_injOn hinj]; simp
  have heq := Finset.eq_of_subset_of_card_le hsub hcard
  have hmem : 2 ^ k ∈ (Finset.range 9).image f := by
    rw [heq]; exact Finset.mem_image.mpr ⟨k, Finset.mem_range.mpr hk, rfl⟩
  obtain ⟨p, hp, hfp⟩ := Finset.mem_image.mp hmem
  refine ⟨p, ⟨Finset.mem_range.mp hp, hfp⟩, ?_⟩
  intro q ⟨hq, hfq⟩
  exact hinj (Finset.mem_coe.mpr (Finset.mem_range.mpr hq)) (Finset.mem_coe.mpr hp)
    (hfq.trans hfp.symm)


theorem popcount_pos_of_ne_zero {d : Nat} (hd : d < 65536) (h0 : d ≠ 0) : popcount d ≠ 0 := by
  obtain ⟨i, hi⟩ := exists_testBit_of_ne_zero h0
  exact popcount_ne_zero (testBit_lt_16 hd hi) hi

theorem solved_all_single {st : State} (h : Inv ∅ st) (h0 : st.unsolved_squares = 0)
    (hnz : ∀ c, c < 81 → (st.square c).digits ≠ 0) :
    ∀ c, c < 81 → popcount (st.square c).digits = 1 := by
  intro c hc
  have hcard : (uncertain st).card = 0 := by
    have := h.2.1; rw [h0] at this; simpa using this.symm
  have hnot : c ∉ uncertain st := by
    rw [Finset.card_eq_zero.mp hcard]; exact Finset.not_mem_empty c
  have h2 : ¬ 2 ≤ popcount (st.square c).digits := fun h2 => hnot (mem_uncertain.mpr ⟨hc, h2⟩)
  have h1 := popcount_pos_of_ne_zero (h.1 c hc) (hnz c hc)
  omega

theorem ur_solved_board (cfg : Config) {w : Wiring} (hw : Std w) {fuel : Nat} {st : State}
    {s mask : Nat} {st' : State} (hc : Consistent st) (hs : s < 81)
    (h : uncertainty_reduction cfg w fuel st s mask = some (SOLVED, st')) :
    st'.unsolved_squares = 0 ∧
    (∀ c, c < 81 → popcount (st'.square c).digits = 1 ∧ (st'.square c).size = 1 ∧
      Sub (st'.square c).digits 511) ∧
    (∀ a b, a < 81 → b < 81 → b ≠ a → sameUnit a b →
      (st'.square b).digits &&& (st'.square a).digits = 0) := by
  have hpost := ur_inv cfg hw fuel ∅ st s mask SOLVED st' hs (consistent_inv hc) h
  rcases hpost with ⟨hr, _⟩ | ⟨_, _, hI, h0⟩ | hr
  · exact absurd hr (by decide)
  · have hnz := ur_nonzero cfg w fuel st s mask SOLVED st' h (by decide)
    have hone := solved_all_single hI h0 (fun c hc81 => hnz c (hc.1 c hc81).1)
    have hsz := ur_sizes cfg w (fun c hc81 => (hc.1 c hc81).2.2) h
    have hfr := ur_frame cfg w _ _ _ _ _ _ h
    refine ⟨h0, fun c hc81 => ⟨hone c hc81, by rw [hsz c hc81]; exact hone c hc81,
      (hfr.1 c).sub_trans (hc.1 c hc81).2.1⟩, ?_⟩
    intro a b ha hb hba hsu
    exact hI.2.2.2 a b ha hb (Finset.not_mem_empty a) (hone a ha) hba hsu
  · exact absurd hr (by decide)

theorem consistent_initState : Consistent initState := by
  refine ⟨fun c _ => ⟨by simp [initState], fun i hi => hi, by simp [initState]; decide⟩, ?_, ?_⟩
  · have : uncertain initState = Finset.range 81 := by
      ext c
      rw [mem_uncertain]
      simp only [initState, Finset.mem_range]
      have : popcount 511 = 9 := by decide
      rw [this]; simp
    rw [this]; simp [initState]
  · intro a b _ _ hpa
    simp only [initState] at hpa
    exact absurd hpa (by decide)


/-! ## The search loop -/

theorem tryDigits_cons_cases {cfg : Config} {red : State → Nat → Nat → Option (Int × State)}
    {recur : State → Nat → Nat → Option Run} {i j k : Nat} {rest : List Nat} {st : State}
    {out : Run} (h : tryDigits cfg red recur i j (k :: rest) st = some out) :
    (¬ ((st.square (9 * i + j)).digits >>> k &&& 1 ≠ 0) ∧
      tryDigits cfg red recur i j rest st = some out) ∨
    ((st.square (9 * i + j)).digits >>> k &&& 1 ≠ 0 ∧
      ∃ r st2, red (bumped st) (9 * i + j) (not16 (1 <<< k)) = some (r, st2) ∧
        ∃ run, (if r = INCOMPLETE then recur st2 i j else some (Run.ret r st2)) = some run ∧
          ((run = Run.outOfBounds ∧ out = Run.outOfBounds) ∨
           ∃ r2 st3, run = Run.ret r2 st3 ∧
             ((r2 = SOLVED ∧ cfg.search_all_solutions = false ∧ out = Run.ret SOLVED st3) ∨
              (¬ (r2 = SOLVED ∧ cfg.search_all_solutions = false) ∧
                tryDigits cfg red recur i j rest (restored st st3) = some out)))) := by
  simp only [tryDigits] at h
  by_cases hbit : (st.square (9 * i + j)).digits >>> k &&& 1 ≠ 0
  · rw [if_pos hbit] at h
    refine Or.inr ⟨hbit, ?_⟩
    generalize hred : red _ (9 * i + j) (not16 (1 <<< k)) = x at h
    cases x with
    | none => simp at h
    | some p =>
      obtain ⟨r, st2⟩ := p
      refine ⟨r, st2, hred, ?_⟩
      simp only at h
      generalize hrec : (if r = INCOMPLETE then recur st2 i j else some (Run.ret r st2)) = y at h
      cases y with
      | none => simp at h
      | some run =>
        refine ⟨run, rfl, ?_⟩
        cases run with
        | outOfBounds =>
          simp only [Option.some.injEq] at h
          exact Or.inl ⟨rfl, h.symm⟩
        | ret r2 st3 =>
          refine Or.inr ⟨r2, st3, rfl, ?_⟩
          simp only at h
          split at h
          · rename_i hc
            simp only [Option.some.injEq] at h
            exact Or.inl ⟨hc.1, hc.2, h.symm⟩
          · rename_i hc
            exact Or.inr ⟨hc, h⟩
  · rw [if_neg hbit] at h
    exact Or.inl ⟨hbit, h⟩

theorem tryDigits_restores (cfg : Config) (red : State → Nat → Nat → Option (Int × State))
    (recur : State → Nat → Nat → Option Run) (i j : Nat) :
    ∀ ks st st', tryDigits cfg red recur i j ks st = some (Run.ret INCOMPLETE st') →
      st'.square = st.square ∧ st'.unsolved_squares = st.unsolved_squares := by
  intro ks
  induction ks with
  | nil =>
    intro st st' h
    simp only [tryDigits, Option.some.injEq, Run.ret.injEq, true_and] at h
    subst h; exact ⟨rfl, rfl⟩
  | cons k rest ih =>
    intro st st' h
    rcases tryDigits_cons_cases h with ⟨_, h⟩ | ⟨_, r, st2, _, run, _, h⟩
    · exact ih st st' h
    · rcases h with ⟨_, h⟩ | ⟨r2, st3, _, h⟩
      · exact absurd h (by simp)
      · rcases h with ⟨_, _, h⟩ | ⟨_, h⟩
        · simp only [Run.ret.injEq] at h
          exact absurd h.1 (by decide)
        · exact ih (restored st st3) st' h

theorem make_assumption_restores (cfg : Config) (w : Wiring) (fuel : Nat) (st : State)
    (i j : Nat) (st' : State)
    (h : make_assumption cfg w fuel st i j = some (Run.ret INCOMPLETE st')) :
    st'.square = st.square ∧ st'.unsolved_squares = st.unsolved_squares := by
  cases fuel with
  | zero => simp [make_assumption] at h
  | succ fuel =>
    simp only [make_assumption] at h
    split at h
    · exact absurd h (by simp)
    · exact absurd h (by simp)
    · simp only [Option.some.injEq, Run.ret.injEq, true_and] at h
      subst h; exact ⟨rfl, rfl⟩
    · exact tryDigits_restores cfg _ _ _ _ _ st st' h

theorem observeRun_ret {x : Option Run} {r : Int} {u sol ass : Nat}
    (h : observeRun x = some (some (r, u, sol, ass))) :
    ∃ st', x = some (Run.ret r st') ∧ st'.unsolved_squares = u ∧ st'.solutions = sol ∧
      st'.assumptions = ass := by
  cases x with
  | none => simp [observeRun] at h
  | some run =>
    cases run with
    | outOfBounds => simp [observeRun] at h
    | ret r' st' =>
      simp only [observeRun, Option.map_some', Option.some.injEq, Prod.mk.injEq] at h
      obtain ⟨rfl, h2, h3, h4⟩ := h
      exact ⟨st', rfl, h2, h3, h4⟩

theorem observeRun_outOfBounds {x : Option Run} (h : observeRun x = some none) :
    x = some Run.outOfBounds := by
  cases x with
  | none => simp [observeRun] at h
  | some run =>
    cases run with
    | outOfBounds => rfl
    | ret r' st' => simp [observeRun] at h


theorem scan_found : ∀ (fuel : Nat) (st : State) (i j c : Nat), j ≤ 9 → 9 * i + j ≤ c →
    c < 81 → (st.square c).size ≠ 1 →
    (∀ t, 9 * i + j ≤ t → t < c → (st.square t).size = 1) →
    2 * (c - (9 * i + j)) + (if j = 9 then 1 else 0) < fuel →
    ∃ i' j', scan fuel st i j = some (Scan.found i' j') ∧ 9 * i' + j' = c ∧ j' ≤ 9 := by
  intro fuel
  induction fuel with
  | zero => intro st i j c _ _ _ _ _ h; exact absurd h (Nat.not_lt_zero _)
  | succ fuel ih =>
    intro st i j c hj hle hc hsz hbefore hfuel
    simp only [scan]
    rw [if_neg (by omega)]
    by_cases h1 : (st.square (9 * i + j)).size = 1
    · rw [if_pos h1]
      have hlt : 9 * i + j < c := by
        rcases Nat.lt_or_ge (9 * i + j) c with h | h
        · exact h
        · have : 9 * i + j = c := by omega
          rw [this] at h1; exact absurd h1 hsz
      by_cases hj9 : j + 1 = 10
      · rw [if_pos hj9, if_neg (by omega)]
        have hj' : j = 9 := by omega
        subst hj'
        apply ih st (i + 1) 0 c (by omega) (by omega) hc hsz
        · intro t ht htc; exact hbefore t (by omega) htc
        · simp only [if_true] at hfuel
          simp; omega
      · rw [if_neg hj9]
        apply ih st i (j + 1) c (by omega) (by omega) hc hsz
        · intro t ht htc; exact hbefore t (by omega) htc
        · have hj' : ¬ j = 9 := by omega
          rw [if_neg hj'] at hfuel
          split <;> omega
    · rw [if_neg h1]
      refine ⟨i, j, rfl, ?_, hj⟩
      rcases Nat.lt_or_ge (9 * i + j) c with h | h
      · exact absurd (hbefore _ (le_refl _) h) h1
      · omega

theorem scan_outOfBounds : ∀ (fuel : Nat) (st : State) (i j : Nat), j ≤ 9 →
    9 * i + j ≤ 81 → (∀ t, 9 * i + j ≤ t → t < 81 → (st.square t).size = 1) →
    2 * (81 - (9 * i + j)) + (if j = 9 then 1 else 0) < fuel →
    scan fuel st i j = some Scan.outOfBounds := by
  intro fuel
  induction fuel with
  | zero => intro st i j _ _ _ h; exact absurd h (Nat.not_lt_zero _)
  | succ fuel ih =>
    intro st i j hj hle hall hfuel
    simp only [scan]
    by_cases hoob : 81 ≤ 9 * i + j
    · rw [if_pos hoob]
    · rw [if_neg hoob, if_pos (hall _ (le_refl _) (by omega))]
      by_cases hj9 : j + 1 = 10
      · rw [if_pos hj9, if_neg (by omega)]
        have hj' : j = 9 := by omega
        subst hj'
        apply ih st (i + 1) 0 (by omega) (by omega)
        · intro t ht htc; exact hall t (by omega) htc
        · simp only [if_true] at hfuel
          simp; omega
      · rw [if_neg hj9]
        apply ih st i (j + 1) (by omega) (by omega)
        · intro t ht htc; exact hall t (by omega) htc
        · have hj' : ¬ j = 9 := by omega
          rw [if_neg hj'] at hfuel
          split <;> omega


/-! ## Counting completions -/

theorem gridOf_pos (g : Grid) {c : Nat} (hc : c < 81) : 1 ≤ gridOf g c ∧ gridOf g c ≤ 9 := by
  unfold gridOf
  rw [dif_pos hc]
  have := (g ⟨c, hc⟩).isLt
  omega

theorem countAt_nil (st : State) (s : Nat) : countAt st s [] = 0 := by
  unfold countAt
  rw [Finset.card_eq_zero, Finset.filter_eq_empty_iff]
  intro g _ hg
  exact absurd hg.2 (List.not_mem_nil _)

set_option linter.constructorNameAsVariable false in
theorem countAt_cons (st : State) (s k : Nat) (K : List Nat) (hk : k ∉ K) :
    countAt st s (k :: K) = countAt st s [k] + countAt st s K := by
  unfold countAt
  have hU : Finset.univ.filter (fun g : Grid => IsCompletion st g ∧ gridOf g s - 1 ∈ k :: K)
      = Finset.univ.filter (fun g : Grid => IsCompletion st g ∧ gridOf g s - 1 ∈ [k]) ∪
        Finset.univ.filter (fun g : Grid => IsCompletion st g ∧ gridOf g s - 1 ∈ K) := by
    ext g
    simp only [Finset.mem_filter, Finset.mem_univ, true_and, List.mem_cons, Finset.mem_union,
      List.mem_singleton, List.not_mem_nil, or_false]
    tauto
  have hD : Disjoint
      (Finset.univ.filter (fun g : Grid => IsCompletion st g ∧ gridOf g s - 1 ∈ [k]))
      (Finset.univ.filter (fun g : Grid => IsCompletion st g ∧ gridOf g s - 1 ∈ K)) := by
    rw [Finset.disjoint_left]
    intro g h1 h2
    simp only [Finset.mem_filter, Finset.mem_univ, true_and, List.mem_singleton,
      List.mem_cons, List.not_mem_nil, or_false] at h1 h2
    exact hk (h1.2 ▸ h2.2)
  rw [hU]
  exact Finset.card_union_of_disjoint hD

theorem countAt_range (st : State) {s : Nat} (hs : s < 81) :
    countAt st s (List.range 9) = numCompletions st := by
  unfold countAt numCompletions
  apply congrArg Finset.card
  apply Finset.filter_congr
  intro g _
  have := gridOf_pos g hs
  constructor
  · exact fun h => h.1
  · exact fun h => ⟨h, List.mem_range.mpr (by omega)⟩

theorem isCompletion_congr {st st' : State} (h : st'.square = st.square) (g : Grid) :
    IsCompletion st' g ↔ IsCompletion st g := by
  unfold IsCompletion Compatible
  rw [h]

theorem countAt_congr {st st' : State} (h : st'.square = st.square) (s : Nat) (K : List Nat) :
    countAt st' s K = countAt st s K := by
  unfold countAt
  apply congrArg Finset.card
  apply Finset.filter_congr
  intro g _
  rw [isCompletion_congr h]

theorem numCompletions_congr {st st' : State} (h : st'.square = st.square) :
    numCompletions st' = numCompletions st := by
  unfold numCompletions
  apply congrArg Finset.card
  apply Finset.filter_congr
  intro g _
  rw [isCompletion_congr h]

theorem countAt_single_zero {st : State} {s k : Nat}
    (h : ∀ g : Grid, IsCompletion st g → gridOf g s - 1 ≠ k) : countAt st s [k] = 0 := by
  unfold countAt
  rw [Finset.card_eq_zero, Finset.filter_eq_empty_iff]
  intro g _ hg
  exact h g hg.1 (List.mem_singleton.mp hg.2)

theorem countAt_single_of_bit_clear {st : State} {s k : Nat} (hs : s < 81)
    (hbit : (st.square s).digits.testBit k = false) : countAt st s [k] = 0 := by
  apply countAt_single_zero
  intro g hg he
  have := hg.2 s hs
  rw [he, hbit] at this
  exact absurd this (by simp)

theorem countAt_single_eq {st st2 : State} {s k : Nat}
    (h : ∀ g : Grid, IsCompletion st2 g ↔ (IsCompletion st g ∧ gridOf g s - 1 = k)) :
    countAt st s [k] = numCompletions st2 := by
  unfold countAt numCompletions
  apply congrArg Finset.card
  apply Finset.filter_congr
  intro g _
  rw [h g, List.mem_singleton]

theorem countAt_single_one {st : State} {s k : Nat} (g0 : Grid)
    (h : ∀ g : Grid, (IsCompletion st g ∧ gridOf g s - 1 = k) ↔ g = g0) :
    countAt st s [k] = 1 := by
  unfold countAt
  rw [Finset.card_eq_one]
  refine ⟨g0, ?_⟩
  ext g
  rw [Finset.mem_filter, Finset.mem_singleton, List.mem_singleton, ← h g]
  simp


/-! ## One trial digit of the search -/

theorem shift_and_one_ne_zero (d k : Nat) : (d >>> k &&& 1 ≠ 0) ↔ d.testBit k = true := by
  unfold Nat.testBit
  rw [Nat.and_comm]
  simp

theorem trial_mask_testBit (k b : Nat) :
    (not16 (1 <<< k)).testBit b = (decide (b < 16) && !decide (k = b)) := by
  rw [testBit_not16, Nat.one_shiftLeft, Nat.testBit_two_pow]

theorem sub_of_and_not16_zero {d m : Nat} (hd : d < 65536) (h : d &&& not16 m = 0) :
    Sub d m := by
  intro b hb
  have hb16 := testBit_lt_16 hd hb
  rw [and_eq_zero_iff_testBit] at h
  have := h b
  rw [testBit_not16] at this
  cases hm : m.testBit b
  · exact absurd ⟨hb, by simp [hb16, hm]⟩ this
  · rfl

theorem popcount_two_pow {k : Nat} (hk : k < 16) : popcount (2 ^ k) = 1 := by
  interval_cases k <;> decide

theorem ur_consistent (cfg : Config) {w : Wiring} (hw : Std w) {fuel : Nat} {st : State}
    {s mask : Nat} {r : Int} {st' : State} (hc : Consistent st) (hs : s < 81)
    (h : uncertainty_reduction cfg w fuel st s mask = some (r, st')) (hr : r ≠ ERROR) :
    Consistent st' := by
  have hpost := ur_inv cfg hw fuel ∅ st s mask r st' hs (consistent_inv hc) h
  have hI : Inv ∅ st' := by
    rcases hpost with ⟨_, hI⟩ | ⟨_, _, hI, _⟩ | he
    · exact hI
    · exact hI
    · exact absurd he hr
  have hnz := ur_nonzero cfg w fuel st s mask r st' h hr
  have hsz := ur_sizes cfg w (fun c hc81 => (hc.1 c hc81).2.2) h
  have hfr := ur_frame cfg w _ _ _ _ _ _ h
  refine ⟨fun c hc81 => ⟨hnz c (hc.1 c hc81).1, (hfr.1 c).sub_trans (hc.1 c hc81).2.1,
    hsz c hc81⟩, by simpa using hI.2.1, ?_⟩
  intro a b ha hb hpa hba hsu
  exact hI.2.2.2 a b ha hb (Finset.not_mem_empty a) hpa hba hsu

/-- Soundness for one trial digit: a completion whose digit at `s` is the trial digit
survives the reduction, which then does not fail. -/
theorem trial_sound (cfg : Config) {w : Wiring} (hw : Std w) {fuel : Nat} {st st1 : State}
    (hsq : st1.square = st.square) {s k : Nat} (hs : s < 81) {r : Int} {st2 : State}
    (h : uncertainty_reduction cfg w fuel st1 s (not16 (1 <<< k)) = some (r, st2))
    {g : Grid} (hg : IsCompletion st g) (hk : gridOf g s - 1 = k) :
    r ≠ ERROR ∧ Compatible (gridOf g) st2 := by
  have hc1 : Compatible (gridOf g) st1 := by
    intro c hc; rw [hsq]; exact hg.2 c hc
  apply ur_sound cfg hw hg.1 fuel st1 s _ r st2 hs hc1 _ h
  rw [trial_mask_testBit, hk]
  simp

/-- The converse: what is compatible with the reduced board is compatible with the board
before and has the trial digit at `s`. -/
theorem trial_back (cfg : Config) {w : Wiring} {fuel : Nat} {st st1 : State}
    (hsq : st1.square = st.square) {s k : Nat} (hs : s < 81) {r : Int} {st2 : State}
    (h : uncertainty_reduction cfg w fuel st1 s (not16 (1 <<< k)) = some (r, st2))
    {g : Grid} (hg : Compatible (gridOf g) st2) :
    Compatible (gridOf g) st ∧ gridOf g s - 1 = k := by
  have hfr := ur_frame cfg w _ _ _ _ _ _ h
  constructor
  · intro c hc
    have := hfr.1 c _ (hg c hc)
    rw [hsq] at this
    exact this
  · have hcl := ur_clears h
    rw [and_eq_zero_iff_testBit] at hcl
    have h1 := hcl (gridOf g s - 1)
    rw [trial_mask_testBit] at h1
    have hpos := gridOf_pos g hs
    by_contra hne
    apply h1
    refine ⟨hg s hs, ?_⟩
    have h16 : gridOf g s - 1 < 16 := by omega
    simp [h16, Ne.symm hne]


theorem consistent_congr {st st1 : State} (hsq : st1.square = st.square)
    (hu : st1.unsolved_squares = st.unsolved_squares) (hc : Consistent st) :
    Consistent st1 := by
  unfold Consistent CellsOk uncertain at *
  rw [hsq, hu]
  exact hc

theorem two_pow_and_two_pow_ne {a b : Nat} (h : 2 ^ b &&& 2 ^ a = 0) : a ≠ b := by
  intro hab
  subst hab
  rw [Nat.and_self] at h
  exact (Nat.two_pow_pos a).ne' h

/-- A fully fixed board is a grid. -/
theorem solved_board_grid {st2 : State}
    (hcells : ∀ c, c < 81 → popcount (st2.square c).digits = 1 ∧ (st2.square c).size = 1 ∧
      Sub (st2.square c).digits 511)
    (hpeer : ∀ a b, a < 81 → b < 81 → b ≠ a → sameUnit a b →
      (st2.square b).digits &&& (st2.square a).digits = 0) :
    ∃ g0 : Grid, IsCompletion st2 g0 ∧
      ∀ g : Grid, Compatible (gridOf g) st2 → g = g0 := by
  have hex : ∀ c : Fin 81, ∃ k : Fin 9, (st2.square c.val).digits = 2 ^ k.val := by
    intro c
    obtain ⟨k, hk, he⟩ := single_is_pow (hcells c.val c.isLt).1 (hcells c.val c.isLt).2.2
    exact ⟨⟨k, hk⟩, he⟩
  choose g0 hg0 using hex
  have hval : ∀ c (hc : c < 81), (st2.square c).digits = 2 ^ (gridOf g0 c - 1) := by
    intro c hc
    have := hg0 ⟨c, hc⟩
    simp only [gridOf, dif_pos hc]
    simpa using this
  refine ⟨g0, ⟨⟨fun c hc => gridOf_pos g0 hc, ?_⟩, ?_⟩, ?_⟩
  · intro a b ha hb hab hsu
    have hz := hpeer a b ha hb (Ne.symm hab) hsu
    rw [hval a ha, hval b hb] at hz
    have := two_pow_and_two_pow_ne hz
    have h1 := gridOf_pos g0 ha
    have h2 := gridOf_pos g0 hb
    omega
  · intro c hc
    rw [hval c hc]
    exact Nat.testBit_two_pow_self
  · intro g hg
    funext c
    have h1 := hg c.val c.isLt
    rw [hval c.val c.isLt, Nat.testBit_two_pow] at h1
    have h2 : gridOf g0 c.val - 1 = gridOf g c.val - 1 := of_decide_eq_true h1
    simp only [gridOf, dif_pos c.isLt] at h2
    apply Fin.ext
    simp only [Nat.add_sub_cancel] at h2
    exact h2.symm

theorem trial_solved_count (cfg : Config) {w : Wiring} (hw : Std w) {fuel : Nat}
    {st st1 : State} (hc : Consistent st) (hsq : st1.square = st.square)
    (hu : st1.unsolved_squares = st.unsolved_squares) {s k : Nat} (hs : s < 81)
    {st2 : State}
    (h : uncertainty_reduction cfg w fuel st1 s (not16 (1 <<< k)) = some (SOLVED, st2)) :
    countAt st s [k] = 1 := by
  obtain ⟨_, hcells, hpeer⟩ := ur_solved_board cfg hw (consistent_congr hsq hu hc) hs h
  obtain ⟨g0, hg0, huniq⟩ := solved_board_grid hcells hpeer
  apply countAt_single_one g0
  intro g
  constructor
  · intro ⟨hg, hk⟩
    exact huniq g (trial_sound cfg hw hsq hs h hg hk).2
  · intro he
    subst he
    obtain ⟨h1, h2⟩ := trial_back cfg hsq hs h hg0.2
    exact ⟨⟨hg0.1, h1⟩, h2⟩

theorem trial_error_count (cfg : Config) {w : Wiring} (hw : Std w) {fuel : Nat}
    {st st1 : State} (hsq : st1.square = st.square) {s k : Nat} (hs : s < 81)
    {st2 : State}
    (h : uncertainty_reduction cfg w fuel st1 s (not16 (1 <<< k)) = some (ERROR, st2)) :
    countAt st s [k] = 0 := by
  apply countAt_single_zero
  intro g hg hk
  exact (trial_sound cfg hw hsq hs h hg hk).1 rfl

theorem trial_incomplete_count (cfg : Config) {w : Wiring} (hw : Std w) {fuel : Nat}
    {st st1 : State} (hsq : st1.square = st.square) {s k : Nat} (hs : s < 81)
    {r : Int} {st2 : State}
    (h : uncertainty_reduction cfg w fuel st1 s (not16 (1 <<< k)) = some (r, st2)) :
    countAt st s [k] = numCompletions st2 := by
  apply countAt_single_eq
  intro g
  constructor
  · intro hg
    obtain ⟨h1, h2⟩ := trial_back cfg hsq hs h hg.2
    exact ⟨⟨hg.1, h1⟩, h2⟩
  · intro ⟨hg, hk⟩
    exact ⟨hg.1, (trial_sound cfg hw hsq hs h hg hk).2⟩


theorem digitSum_congr {st st1 : State} (hsq : st1.square = st.square) :
    digitSum st1 = digitSum st := by
  unfold digitSum; rw [hsq]

theorem single_stays_single {st st2 : State} (hfr : Shrinks st st2) (hc2 : Consistent st2)
    {t : Nat} (ht : t < 81) (h1 : popcount (st.square t).digits = 1) :
    popcount (st2.square t).digits = 1 := by
  have hle := popcount_mono (hfr t)
  have hne := popcount_pos_of_ne_zero (sub_511_lt (hc2.1 t ht).2.1) (hc2.1 t ht).1
  omega

theorem trial_incomplete_facts (cfg : Config) {w : Wiring} (hw : Std w) {fuel : Nat}
    {st st1 : State} (hc : Consistent st) (hsq : st1.square = st.square)
    (hu : st1.unsolved_squares = st.unsolved_squares) {s k : Nat} (hs : s < 81)
    (hk : k < 9) (hpop : 2 ≤ popcount (st.square s).digits) {st2 : State}
    (h : uncertainty_reduction cfg w fuel st1 s (not16 (1 <<< k)) = some (INCOMPLETE, st2)) :
    Consistent st2 ∧ (uncertain st2).card < (uncertain st).card ∧
    (uncertain st2).Nonempty ∧
    (∀ t, t < 81 → (st.square t).size = 1 → (st2.square t).size = 1) ∧
    (st2.square s).size = 1 ∧ st2.solutions = st1.solutions ∧
    digitSum st2 ≤ digitSum st := by
  have hc1 := consistent_congr hsq hu hc
  have hc2 := ur_consistent cfg hw hc1 hs h (by decide)
  have hfr1 := ur_frame cfg w _ _ _ _ _ _ h
  have hsh : Shrinks st st2 := by
    intro t; have := hfr1.1 t; rw [hsq] at this; exact this
  -- the cell `s` is fixed now
  have hs1 : popcount (st2.square s).digits = 1 := by
    have hcl := ur_clears h
    have hsub := sub_of_and_not16_zero (sub_511_lt (hc2.1 s hs).2.1) hcl
    have hle := popcount_mono hsub
    rw [Nat.one_shiftLeft, popcount_two_pow (by omega)] at hle
    have hne := popcount_pos_of_ne_zero (sub_511_lt (hc2.1 s hs).2.1) (hc2.1 s hs).1
    omega
  have hsub : uncertain st2 ⊆ uncertain st := by
    intro t ht
    rw [mem_uncertain] at *
    exact ⟨ht.1, le_trans ht.2 (popcount_mono (hsh t))⟩
  have hsmem : s ∈ uncertain st := mem_uncertain.mpr ⟨hs, hpop⟩
  have hsnot : s ∉ uncertain st2 := by
    intro hm; have := (mem_uncertain.mp hm).2; omega
  have hpost := ur_inv2 cfg hw fuel ∅ st1 s _ INCOMPLETE st2 hs (consistent_inv hc1) h
  have hsol : st2.solutions = st1.solutions ∧ st2.unsolved_squares ≠ 0 := by
    rcases hpost with ⟨_, _, hsol, hun⟩ | ⟨hr, _⟩ | ⟨hr, _⟩
    · refine ⟨hsol, ?_⟩
      rcases hun with he | hne
      · exfalso
        rw [he, hsq] at hs1
        omega
      · exact hne
    · exact absurd hr (by decide)
    · exact absurd hr (by decide)
  refine ⟨hc2, Finset.card_lt_card ⟨hsub, fun hrev => hsnot (hrev hsmem)⟩, ?_, ?_, ?_,
    hsol.1, ?_⟩
  · rw [← Finset.card_pos, ← hc2.2.1]
    exact Nat.pos_of_ne_zero hsol.2
  · intro t ht hsz
    rw [(hc2.1 t ht).2.2]
    apply single_stays_single hsh hc2 ht
    rw [← (hc.1 t ht).2.2]; exact hsz
  · rw [(hc2.1 s hs).2.2]; exact hs1
  · exact Finset.sum_le_sum (fun c _ => (hsh c).sub_le)


/-! ## Exhaustive enumeration -/

theorem ur_result_code (cfg : Config) {w : Wiring} (hw : Std w) {fuel : Nat} {st : State}
    {s mask : Nat} {r : Int} {st' : State} (hc : Consistent st) (hs : s < 81)
    (h : uncertainty_reduction cfg w fuel st s mask = some (r, st')) :
    (r = INCOMPLETE ∧ st'.solutions = st.solutions) ∨
    (r = SOLVED ∧ st'.solutions = (st.solutions + 1) % 2 ^ 64) ∨
    (r = ERROR ∧ st'.solutions = st.solutions) := by
  rcases ur_inv2 cfg hw fuel ∅ st s mask r st' hs (consistent_inv hc) h with
    ⟨hr, _, hsol, _⟩ | ⟨hr, _, _, _, hsol⟩ | ⟨hr, hsol⟩
  · exact Or.inl ⟨hr, hsol⟩
  · exact Or.inr (Or.inl ⟨hr, hsol⟩)
  · exact Or.inr (Or.inr ⟨hr, hsol⟩)

theorem tryDigits_count (cfg : Config) (hall : cfg.search_all_solutions = true) {w : Wiring}
    (hw : Std w) (fuel : Nat) (st : State) (hc : Consistent st) (i j : Nat)
    (hs : 9 * i + j < 81) (hpop : 2 ≤ popcount (st.square (9 * i + j)).digits)
    (IH : ∀ st2, Consistent st2 → (uncertain st2).card < (uncertain st).card →
      (uncertain st2).Nonempty →
      (∀ t, t < 81 → (st.square t).size = 1 → (st2.square t).size = 1) →
      (st2.square (9 * i + j)).size = 1 → st2.solutions < 2 ^ 64 →
      digitSum st2 ≤ digitSum st →
      ∃ st3, make_assumption cfg w fuel st2 i j = some (Run.ret INCOMPLETE st3) ∧
        st3.solutions = (st2.solutions + numCompletions st2) % 2 ^ 64)
    (hfuel : digitSum st < fuel + 1) :
    ∀ ks : List Nat, ks.Nodup → (∀ k ∈ ks, k < 9) → ∀ stk : State,
      stk.square = st.square → stk.unsolved_squares = st.unsolved_squares →
      stk.solutions < 2 ^ 64 →
      ∃ st', tryDigits cfg (uncertainty_reduction cfg w (fuel + 1)) (make_assumption cfg w fuel)
          i j ks stk = some (Run.ret INCOMPLETE st') ∧
        st'.solutions = (stk.solutions + countAt st (9 * i + j) ks) % 2 ^ 64 := by
  intro ks
  induction ks with
  | nil =>
    intro _ _ stk _ _ hsol
    refine ⟨stk, rfl, ?_⟩
    rw [countAt_nil, Nat.add_zero, Nat.mod_eq_of_lt hsol]
  | cons k rest ih =>
    intro hnd hlt stk hsq hu hsol
    have hk9 : k < 9 := hlt k (List.mem_cons_self _ _)
    have hkrest : k ∉ rest := (List.nodup_cons.mp hnd).1
    have ih' := ih (List.nodup_cons.mp hnd).2 (fun k' hk' => hlt k' (List.mem_cons_of_mem _ hk'))
    rw [countAt_cons st _ k rest hkrest]
    by_cases hbit : (stk.square (9 * i + j)).digits >>> k &&& 1 ≠ 0
    · -- the digit is a candidate: one trial
      have hsq1 : (bumped stk).square = st.square := hsq
      have hu1 : (bumped stk).unsolved_squares = st.unsolved_squares := hu
      have hc1 : Consistent (bumped stk) := consistent_congr hsq1 hu1 hc
      obtain ⟨r, st2, hur⟩ := ur_total cfg hw.std_inRange (fuel + 1) (bumped stk) (9 * i + j)
        (not16 (1 <<< k)) hs (by rw [digitSum_congr hsq1]; exact hfuel)
      have hcode := ur_result_code cfg hw hc1 hs hur
      have hstep : ∀ (run3 : State) (n : Nat),
          run3.solutions = (stk.solutions + n) % 2 ^ 64 → countAt st (9 * i + j) [k] = n →
          (if r = INCOMPLETE then make_assumption cfg w fuel st2 i j
            else some (Run.ret r st2)) = some (Run.ret (if r = INCOMPLETE then INCOMPLETE else r) run3) →
          ∃ st', tryDigits cfg (uncertainty_reduction cfg w (fuel + 1))
              (make_assumption cfg w fuel) i j (k :: rest) stk
                = some (Run.ret INCOMPLETE st') ∧
            st'.solutions = (stk.solutions + (countAt st (9 * i + j) [k] +
              countAt st (9 * i + j) rest)) % 2 ^ 64 := by
        intro run3 n hsol3 hn hinner
        obtain ⟨st', hrun, hsol'⟩ := ih' (restored (bumped stk) run3) hsq hu
          (by show run3.solutions < 2 ^ 64; rw [hsol3]; exact Nat.mod_lt _ (by norm_num))
        refine ⟨st', ?_, ?_⟩
        · simp only [tryDigits]
          rw [if_pos hbit]
          have hur' := hur
          simp only [bumped] at hur'
          rw [hur']
          simp only
          rw [hinner]
          simp only
          rw [if_neg (by rw [hall]; simp)]
          exact hrun
        · rw [hsol']
          show (run3.solutions + _) % 2 ^ 64 = _
          rw [hsol3, hn, Nat.mod_add_mod, Nat.add_assoc]
      rcases hcode with ⟨hr, hs2⟩ | ⟨hr, hs2⟩ | ⟨hr, hs2⟩
      · subst hr
        have hbitk : (st.square (9 * i + j)).digits.testBit k = true := by
          rw [← hsq]; exact (shift_and_one_ne_zero _ _).mp hbit
        obtain ⟨hc2, hcard, hne, hkeep, hs1, hsol2, hds⟩ :=
          trial_incomplete_facts cfg hw hc hsq1 hu1 hs hk9 hpop hur
        have hsolb : st2.solutions < 2 ^ 64 := by rw [hsol2]; exact hsol
        obtain ⟨st3, hrec, hsol3⟩ := IH st2 hc2 hcard hne hkeep hs1 hsolb hds
        apply hstep st3 (numCompletions st2)
        · rw [hsol3, hsol2]; rfl
        · exact trial_incomplete_count cfg hw hsq1 hs hur
        · rw [if_pos rfl, if_pos rfl]; exact hrec
      · subst hr
        apply hstep st2 1
        · rw [hs2]; rfl
        · exact trial_solved_count cfg hw hc hsq1 hu1 hs hur
        · rw [if_neg (by decide), if_neg (by decide)]
      · subst hr
        apply hstep st2 0
        · rw [hs2, Nat.add_zero]; exact (Nat.mod_eq_of_lt hsol).symm
        · exact trial_error_count cfg hw hsq1 hs hur
        · rw [if_neg (by decide), if_neg (by decide)]
    · -- the digit is not a candidate
      have hbitk : (st.square (9 * i + j)).digits.testBit k = false := by
        rw [← hsq]
        cases hx : (stk.square (9 * i + j)).digits.testBit k
        · rfl
        · exact absurd ((shift_and_one_ne_zero _ _).mpr hx) hbit
      obtain ⟨st', hrun, hsol'⟩ := ih' stk hsq hu hsol
      refine ⟨st', ?_, ?_⟩
      · simp only [tryDigits]
        rw [if_neg hbit]
        exact hrun
      · rw [hsol', countAt_single_of_bit_clear hs hbitk, Nat.zero_add]


theorem make_assumption_count (cfg : Config) (hall : cfg.search_all_solutions = true)
    {w : Wiring} (hw : Std w) :
    ∀ (fuel : Nat) (st : State) (i j : Nat), Consistent st → (uncertain st).Nonempty →
      j ≤ 9 → (∀ t, t < 9 * i + j → t < 81 → (st.square t).size = 1) →
      st.solutions < 2 ^ 64 → digitSum st + (uncertain st).card + 200 ≤ fuel →
      ∃ st', make_assumption cfg w fuel st i j = some (Run.ret INCOMPLETE st') ∧
        st'.solutions = (st.solutions + numCompletions st) % 2 ^ 64 := by
  intro fuel
  induction fuel with
  | zero => intro st i j _ _ _ _ _ h; omega
  | succ fuel ih =>
    intro st i j hc hne hj hbefore hsol hfuel
    -- the first uncertain cell in scan order
    let c := (uncertain st).min' hne
    have hcmem : c ∈ uncertain st := Finset.min'_mem _ hne
    have hc81 : c < 81 := (mem_uncertain.mp hcmem).1
    have hcpop : 2 ≤ popcount (st.square c).digits := (mem_uncertain.mp hcmem).2
    have hsize : ∀ t, t < 81 → t ∉ uncertain st → (st.square t).size = 1 := by
      intro t ht hnot
      have h2 : ¬ 2 ≤ popcount (st.square t).digits := fun h => hnot (mem_uncertain.mpr ⟨ht, h⟩)
      have h0 := popcount_pos_of_ne_zero (sub_511_lt (hc.1 t ht).2.1) (hc.1 t ht).1
      rw [(hc.1 t ht).2.2]; omega
    have hcsz : (st.square c).size ≠ 1 := by rw [(hc.1 c hc81).2.2]; omega
    have hstart : 9 * i + j ≤ c := by
      by_contra hlt
      exact hcsz (hbefore c (by omega) hc81)
    have hmid : ∀ t, 9 * i + j ≤ t → t < c → (st.square t).size = 1 := by
      intro t _ htc
      apply hsize t (by omega)
      intro hm
      have := Finset.min'_le _ t hm
      omega
    obtain ⟨i1, j1, hscan, hpos, hj1⟩ := scan_found (fuel + 1) st i j c hj hstart hc81 hcsz hmid
      (by split <;> omega)
    have hall1 : ∀ t, t < c → (st.square t).size = 1 := by
      intro t htc
      rcases Nat.lt_or_ge t (9 * i + j) with h | h
      · exact hbefore t h (by omega)
      · exact hmid t h htc
    simp only [make_assumption]
    rw [hscan]
    simp only
    have hs : 9 * i1 + j1 < 81 := by rw [hpos]; exact hc81
    have hcount := tryDigits_count cfg hall hw fuel st hc i1 j1 hs (by rw [hpos]; exact hcpop)
      (by
        intro st2 hc2 hcard hne2 hkeep hs1 hsol2 hds
        apply ih st2 i1 j1 hc2 hne2 hj1 _ hsol2 (by omega)
        intro t ht ht81
        exact hkeep t ht81 (hall1 t (by omega)))
      (by omega) (List.range 9) (List.nodup_range 9) (fun k hk => List.mem_range.mp hk)
      st rfl rfl hsol
    obtain ⟨st', hrun, hsol'⟩ := hcount
    refine ⟨st', hrun, ?_⟩
    rw [hsol', countAt_range st hs]


theorem sub_511_of_lt {d : Nat} (h : d < 512) : Sub d 511 := by
  intro i hi
  have hi9 : i < 9 := by
    by_contra hge
    have : d < 2 ^ i := lt_of_lt_of_le h (by
      have : (512 : Nat) = 2 ^ 9 := by norm_num
      rw [this]; exact Nat.pow_le_pow_right (by norm_num) (by omega))
    rw [Nat.testBit_lt_two_pow this] at hi
    exact absurd hi (by simp)
  have : (511 : Nat) = 2 ^ 9 - 1 := by norm_num
  rw [this, Nat.testBit_two_pow_sub_one]
  simp [hi9]

theorem uncertain_card_eq_length (st : State) :
    (uncertain st).card =
      ((List.range 81).filter (fun c => decide (2 ≤ popcount (st.square c).digits))).length := by
  unfold uncertain
  simp only [Finset.card, Finset.filter, Finset.range, Multiset.range, Multiset.filter_coe,
    Multiset.coe_card]

theorem consistent_of_check {st : State} (h : ConsistentCheck st) : Consistent st :=
  ⟨fun c hc => ⟨(h.1 c hc).1, sub_511_of_lt (h.1 c hc).2.1, (h.1 c hc).2.2⟩,
    by rw [uncertain_card_eq_length]; exact h.2.1,
    fun a b ha hb => h.2.2 a ha b hb⟩

theorem digitSum_le_of_consistent {st : State} (h : Consistent st) : digitSum st ≤ 41391 := by
  have : digitSum st ≤ ∑ _c in Finset.range 81, 511 :=
    Finset.sum_le_sum (fun c hc => (h.1 c (Finset.mem_range.mp hc)).2.1.sub_le)
  simpa using this

set_option maxRecDepth 1000000 in
theorem pairState_check : ConsistentCheck pairState := by
  decide!

theorem pairState_consistent : Consistent pairState := consistent_of_check pairState_check

theorem pairState_uncertain : (uncertain pairState).Nonempty :=
  ⟨1, mem_uncertain.mpr ⟨by decide, by decide⟩⟩


theorem typed_of_shrinks {st st' : State} (h : Typed st) (hs : Shrinks st st') : Typed st' :=
  fun c hc => lt_of_le_of_lt (hs c).sub_le (h c hc)

theorem uncertain_subset_of_shrinks {st st' : State} (hs : Shrinks st st') :
    uncertain st' ⊆ uncertain st := by
  intro t ht
  rw [mem_uncertain] at *
  exact ⟨ht.1, le_trans ht.2 (popcount_mono (hs t))⟩

/-- Counter bookkeeping of a call that returns `INCOMPLETE`, relative to the number of
uncertain cells, modulo 256. -/
theorem ur_counter (cfg : Config) {w : Wiring} (hw : Std w) :
    ∀ fuel st s mask st', s < 81 → Typed st →
      uncertainty_reduction cfg w fuel st s mask = some (INCOMPLETE, st') →
      (st'.unsolved_squares + (uncertain st).card) % 256 =
        (st.unsolved_squares + (uncertain st').card) % 256 := by
  intro fuel
  induction fuel with
  | zero => intro st s mask st' _ _ h; simp [uncertainty_reduction] at h
  | succ fuel ih =>
    intro st s mask st' hs hty h
    have hstep : ∀ (base stx : State) (r1 : Int) (st1 : State) (s2 m : Nat), s2 < 81 →
        (Typed stx ∧ (stx.unsolved_squares + (uncertain base).card) % 256 =
          (base.unsolved_squares + (uncertain stx).card) % 256) →
        uncertainty_reduction cfg w fuel stx s2 m = some (r1, st1) →
        (r1 = INCOMPLETE → Typed st1 ∧ (st1.unsolved_squares + (uncertain base).card) % 256 =
          (base.unsolved_squares + (uncertain st1).card) % 256) ∧
        (r1 ≠ INCOMPLETE → r1 ≠ INCOMPLETE) := by
      intro base stx r1 st1 s2 m hs2 hJ hrec
      refine ⟨fun hr => ?_, fun hne => hne⟩
      subst hr
      have h1 := ih stx s2 m st1 hs2 hJ.1 hrec
      have h2 := hJ.2
      refine ⟨typed_of_shrinks hJ.1 (ur_frame cfg w _ _ _ _ _ _ hrec).1, ?_⟩
      omega
    rcases ur_cases h with ⟨_, _, rfl⟩ | ⟨h0, h2⟩
    · rfl
    · rcases h2 with ⟨_, hr, _⟩ | ⟨hn1, r2, st2, hl, hrest⟩ | ⟨hn0, hn1, r2, st2, hl, hrest⟩
      · exact absurd hr (by decide)
      · obtain ⟨hmem, hunc⟩ := uncertain_cleared_fix hty hs h0 hn1
        have hloop := firstOrderLoop_rule
          (fun rem stx => (∀ p ∈ rem, p.1 < 3 ∧ p.2 < 9) ∧ Typed stx ∧
            (stx.unsolved_squares + (uncertain (cleared st s mask)).card) % 256 =
              ((cleared st s mask).unsolved_squares + (uncertain stx).card) % 256)
          (fun r _ => r ≠ INCOMPLETE)
          (fun g i rest stx hJ _ => ⟨fun p hp => hJ.1 p (List.mem_cons_of_mem _ hp), hJ.2⟩)
          (fun g i rest stx r1 st1 hJ _ _ hrec => by
            have hgi := hJ.1 (g, i) (List.mem_cons_self _ _)
            have h1 := hstep (cleared st s mask) stx r1 st1 _ _
              (hw.std_inRange s g i hs hgi.1 hgi.2) hJ.2 hrec
            exact ⟨fun hr => ⟨fun p hp => hJ.1 p (List.mem_cons_of_mem _ hp), h1.1 hr⟩, h1.2⟩)
          groupPairs (cleared st s mask) r2 st2
          ⟨fun p hp => mem_groupPairs hp, typed_cleared hty s mask, rfl⟩ hl
        have hpos : 0 < (uncertain st).card := Finset.card_pos.mpr ⟨s, hmem⟩
        have hcard : (uncertain (cleared st s mask)).card + 1 = (uncertain st).card := by
          rw [hunc, Finset.card_erase_of_mem hmem]; omega
        have hcu : (cleared st s mask).unsolved_squares = st.unsolved_squares := rfl
        rcases hrest with ⟨hr, hr', _⟩ | ⟨_, _, hr', _⟩ | ⟨hr, _, _, rfl⟩
        · rw [← hr'] at hr; exact absurd rfl hr
        · exact absurd hr' (by decide)
        · rcases hloop with ⟨_, _, _, hJ⟩ | ⟨hne, _⟩
          · show ((st2.unsolved_squares + 255) % 256 + (uncertain st).card) % 256 =
              (st.unsolved_squares + (uncertain st2).card) % 256
            rw [hcu] at hJ
            omega
          · exact absurd hr hne
      · have hunc := @uncertain_cleared_open st s mask hn0 hn1
        have hloop := nthOrderLoop_rule
          (fun rem stx => (∀ g ∈ rem, g < 3) ∧ Typed stx ∧
            (stx.unsolved_squares + (uncertain (cleared st s mask)).card) % 256 =
              ((cleared st s mask).unsolved_squares + (uncertain stx).card) % 256)
          (fun r _ => r ≠ INCOMPLETE)
          (fun g rest stx hJ _ => ⟨fun p hp => hJ.1 p (List.mem_cons_of_mem _ hp), hJ.2⟩)
          (fun g rest stx r1 st1 hJ _ hrec => by
            have hg := hJ.1 g (List.mem_cons_self _ _)
            have hin := reduceUncontained_rule
              (fun rem sty => (∀ u ∈ rem, u < 81) ∧ Typed sty ∧
                (sty.unsolved_squares + (uncertain (cleared st s mask)).card) % 256 =
                  ((cleared st s mask).unsolved_squares + (uncertain sty).card) % 256)
              (fun r _ => r ≠ INCOMPLETE)
              (fun u rest' sty r3 st3 hJ' hrec' => by
                have h1 := hstep (cleared st s mask) sty r3 st3 _ _
                  (hJ'.1 u (List.mem_cons_self _ _)) hJ'.2 hrec'
                exact ⟨fun hr => ⟨fun p hp => hJ'.1 p (List.mem_cons_of_mem _ hp), h1.1 hr⟩,
                  h1.2⟩)
              _ stx r1 st1
              ⟨fun u hu => by
                  obtain ⟨⟨i, hi, rfl⟩, _⟩ := mem_uncontainedOf hu
                  exact hw.std_inRange s g i hs hg hi, hJ.2⟩ hrec
            rcases hin with ⟨hr, _, h1⟩ | ⟨hr, _⟩
            · exact ⟨fun _ => ⟨fun p hp => hJ.1 p (List.mem_cons_of_mem _ hp), h1⟩,
                fun hne => absurd hr hne⟩
            · exact ⟨fun he => absurd he hr, fun _ => hr⟩)
          [0, 1, 2] (cleared st s mask) r2 st2
          ⟨by intro g hg; simp at hg; omega, typed_cleared hty s mask, rfl⟩ hl
        have hcu : (cleared st s mask).unsolved_squares = st.unsolved_squares := rfl
        rcases hrest with ⟨hr, hr', _⟩ | ⟨hr, _, rfl⟩
        · rw [← hr'] at hr; exact absurd rfl hr
        · rcases hloop with ⟨_, _, _, hJ⟩ | ⟨hne, _⟩
          · rw [hunc, hcu] at hJ; exact hJ
          · exact absurd hr hne

theorem fixedCells_card (cfg : Config) (w : Wiring) {fuel : Nat} {st : State} {s mask : Nat}
    {r : Int} {st' : State} (hty : Typed st)
    (h : uncertainty_reduction cfg w fuel st s mask = some (r, st')) (hr : r ≠ ERROR) :
    (uncertain st').card + (fixedCells st st').card = (uncertain st).card := by
  have hsh := (ur_frame cfg w _ _ _ _ _ _ h).1
  have hnz := ur_nonzero cfg w fuel st s mask r st' h hr
  have hty' := typed_of_shrinks hty hsh
  have hsub := uncertain_subset_of_shrinks hsh
  have heq : fixedCells st st' = uncertain st \ uncertain st' := by
    ext c
    simp only [fixedCells, Finset.mem_filter, Finset.mem_range, Finset.mem_sdiff, mem_uncertain]
    constructor
    · intro ⟨hc, h2, h1⟩
      exact ⟨⟨hc, h2⟩, fun hx => by omega⟩
    · intro ⟨⟨hc, h2⟩, hn⟩
      refine ⟨hc, h2, ?_⟩
      have hne : (st.square c).digits ≠ 0 := ne_zero_of_popcount (by omega)
      have := popcount_pos_of_ne_zero (hty' c hc) (hnz c hne)
      have : ¬ 2 ≤ popcount (st'.square c).digits := fun hx => hn ⟨hc, hx⟩
      omega
  rw [heq, Finset.card_sdiff hsub]
  have := Finset.card_le_card hsub
  omega


/-- The scan either finds a board cell whose size is not 1 or runs off the board. -/
theorem scan_total (fuel : Nat) (st : State) (i j : Nat) (hj : j ≤ 9) (hle : 9 * i + j ≤ 81)
    (hfuel : 164 < fuel) :
    scan fuel st i j = some Scan.outOfBounds ∨
    ∃ i' j', scan fuel st i j = some (Scan.found i' j') ∧ 9 * i' + j' < 81 ∧ j' ≤ 9 ∧
      (st.square (9 * i' + j')).size ≠ 1 := by
  classical
  by_cases h : ∃ c, 9 * i + j ≤ c ∧ c < 81 ∧ (st.square c).size ≠ 1
  · right
    have hspec := Nat.find_spec h
    have hmin : ∀ t, 9 * i + j ≤ t → t < Nat.find h → (st.square t).size = 1 := by
      intro t ht1 ht2
      by_contra hne
      exact Nat.find_min h ht2 ⟨ht1, by omega, hne⟩
    obtain ⟨i', j', hscan, hpos, hj'⟩ := scan_found fuel st i j (Nat.find h) hj hspec.1
      hspec.2.1 hspec.2.2 hmin (by split <;> omega)
    exact ⟨i', j', hscan, by rw [hpos]; exact hspec.2.1, hj', by rw [hpos]; exact hspec.2.2⟩
  · left
    apply scan_outOfBounds fuel st i j hj hle _ (by split <;> omega)
    intro t ht1 ht2
    by_contra hne
    exact h ⟨t, ht1, ht2, hne⟩

/-- A trial removes its cell from the cells with two or more candidates. -/
theorem trial_uncertain_lt (cfg : Config) (w : Wiring) {fuel : Nat} {st stk : State}
    (hty : Typed st) (hsz : SizesOk st) (hsq : stk.square = st.square) {s k : Nat}
    (hs : s < 81) (hk : k < 9) (hne : (st.square s).size ≠ 1)
    (hbit : (st.square s).digits.testBit k = true) {r : Int} {st2 : State}
    (hur : uncertainty_reduction cfg w fuel stk s (not16 (1 <<< k)) = some (r, st2)) :
    (uncertain st2).card < (uncertain st).card := by
  have hsh : Shrinks st st2 := by
    have := (ur_frame cfg w _ _ _ _ _ _ hur).1
    intro t; have := this t; rw [hsq] at this; exact this
  apply Finset.card_lt_card
  refine ⟨uncertain_subset_of_shrinks hsh, fun hsub => ?_⟩
  have hmem : s ∈ uncertain st := by
    rw [mem_uncertain]
    have h0 := popcount_ne_zero (by omega : k < 16) hbit
    have h1 := hsz s hs
    exact ⟨hs, by omega⟩
  have h2 := (mem_uncertain.mp (hsub hmem)).2
  have hd2 : (st2.square s).digits < 65536 := typed_of_shrinks hty hsh s hs
  have hsub2 := sub_of_and_not16_zero hd2 (ur_clears hur)
  have := popcount_mono hsub2
  rw [Nat.one_shiftLeft, popcount_two_pow (by omega : k < 16)] at this
  omega

theorem tryDigits_total (cfg : Config) {w : Wiring} (hw : Std w) (fuel : Nat) (st : State)
    (hty : Typed st) (hsz : SizesOk st) (i j : Nat) (hs : 9 * i + j < 81)
    (hne : (st.square (9 * i + j)).size ≠ 1)
    (IH : ∀ st2, Typed st2 → SizesOk st2 → (uncertain st2).card < (uncertain st).card →
      digitSum st2 ≤ digitSum st → ∃ run, make_assumption cfg w fuel st2 i j = some run)
    (hfuel : digitSum st < fuel + 1) :
    ∀ ks : List Nat, (∀ k ∈ ks, k < 9) → ∀ stk : State, stk.square = st.square →
      ∃ run, tryDigits cfg (uncertainty_reduction cfg w (fuel + 1)) (make_assumption cfg w fuel)
          i j ks stk = some run := by
  intro ks
  induction ks with
  | nil => intro _ stk _; exact ⟨_, rfl⟩
  | cons k rest ih =>
    intro hlt stk hsq
    have hk9 : k < 9 := hlt k (List.mem_cons_self _ _)
    have ih' := ih (fun k' hk' => hlt k' (List.mem_cons_of_mem _ hk'))
    by_cases hbit : (stk.square (9 * i + j)).digits >>> k &&& 1 ≠ 0
    · have hsq1 : (bumped stk).square = st.square := hsq
      obtain ⟨r, st2, hur⟩ := ur_total cfg hw.std_inRange (fuel + 1) (bumped stk) (9 * i + j)
        (not16 (1 <<< k)) hs (by rw [digitSum_congr hsq1]; exact hfuel)
      have hbitk : (st.square (9 * i + j)).digits.testBit k = true := by
        rw [← hsq]; exact (shift_and_one_ne_zero _ _).mp hbit
      have hinner : ∃ x, (if r = INCOMPLETE then make_assumption cfg w fuel st2 i j
          else some (Run.ret r st2)) = some x := by
        by_cases hr : r = INCOMPLETE
        · rw [if_pos hr]
          have hfr := ur_frame cfg w _ _ _ _ _ _ hur
          apply IH st2
          · intro c hc
            have := @typed_of_shrinks (bumped stk) st2 (by rw [Typed, hsq1]; exact hty) hfr.1 c hc
            exact this
          · exact ur_sizes cfg w (by rw [SizesOk, hsq1]; exact hsz) hur
          · exact trial_uncertain_lt cfg w hty hsz hsq1 hs hk9 hne hbitk hur
          · rw [← digitSum_congr hsq1]; exact digitSum_le_of_frame hfr
        · rw [if_neg hr]; exact ⟨_, rfl⟩
      obtain ⟨x, hx⟩ := hinner
      have hur' := hur
      simp only [bumped] at hur'
      cases x with
      | outOfBounds =>
        refine ⟨Run.outOfBounds, ?_⟩
        simp only [tryDigits]
        rw [if_pos hbit, hur']
        simp only
        rw [hx]
      | ret r2 st3 =>
        by_cases hsv : r2 = SOLVED ∧ cfg.search_all_solutions = false
        · refine ⟨Run.ret SOLVED st3, ?_⟩
          simp only [tryDigits]
          rw [if_pos hbit, hur']
          simp only
          rw [hx]
          simp only
          rw [if_pos hsv]
        · obtain ⟨run, hrun⟩ := ih' (restored (bumped stk) st3) hsq
          refine ⟨run, ?_⟩
          simp only [tryDigits]
          rw [if_pos hbit, hur']
          simp only
          rw [hx]
          simp only
          rw [if_neg hsv]
          exact hrun
    · obtain ⟨run, hrun⟩ := ih' stk hsq
      refine ⟨run, ?_⟩
      simp only [tryDigits]
      rw [if_neg hbit]
      exact hrun

/-- In the model `make_assumption` always ends: with a result or with a read outside the
board. -/
theorem make_assumption_total (cfg : Config) {w : Wiring} (hw : Std w) :
    ∀ (fuel : Nat) (st : State) (i j : Nat), Typed st → SizesOk st → j ≤ 9 →
      9 * i + j ≤ 81 → digitSum st + (uncertain st).card + 200 ≤ fuel →
      ∃ run, make_assumption cfg w fuel st i j = some run := by
  intro fuel
  induction fuel with
  | zero => intro st i j _ _ _ _ h; omega
  | succ fuel ih =>
    intro st i j hty hsz hj hle hfuel
    simp only [make_assumption]
    rcases scan_total (fuel + 1) st i j hj hle (by omega) with hscan | ⟨i1, j1, hscan, hs, hj1, hne⟩
    · rw [hscan]; exact ⟨_, rfl⟩
    · rw [hscan]
      simp only
      exact tryDigits_total cfg hw fuel st hty hsz i1 j1 hs hne
        (fun st2 hty2 hsz2 hcard hds => ih st2 i1 j1 hty2 hsz2 hj1 (by omega) (by omega))
        (by omega) (List.range 9) (fun k hk => List.mem_range.mp hk) st rfl


theorem sampleGrid_le (c : Nat) : sampleGrid c - 1 < 9 := by
  unfold sampleGrid; omega

theorem solvedState_typed : Typed solvedState := by
  intro c _
  show 2 ^ (sampleGrid c - 1) < 65536
  have : (65536 : Nat) = 2 ^ 16 := by norm_num
  rw [this]
  exact Nat.pow_lt_pow_right (by norm_num) (by have := sampleGrid_le c; omega)

theorem solvedState_sizesOk : SizesOk solvedState := by
  intro c _
  show 1 = popcount (2 ^ (sampleGrid c - 1))
  rw [popcount_two_pow (by have := sampleGrid_le c; omega)]



/-! ## The simple reductions over the clues -/

theorem square_in_of_valid {G : Nat → Nat} (hG : ValidGrid G) {c : Nat} (hc : c < 81) :
    square_in G c = ⟨1 <<< (G c - 1), 1⟩ := by
  unfold square_in
  rw [if_pos (hG.1 c hc)]

theorem two_pow_and_not16 (k : Nat) : 2 ^ k &&& not16 (1 <<< k) = 0 := by
  rw [and_eq_zero_iff_testBit]
  intro b hb
  rw [trial_mask_testBit, Nat.testBit_two_pow] at hb
  obtain ⟨h1, h2⟩ := hb
  have : k = b := of_decide_eq_true h1
  simp [this] at h2

theorem single_compatible_eq {d k : Nat} (h1 : popcount d = 1) (hd : d < 65536)
    (hk : d.testBit k = true) : d = 2 ^ k := by
  symm
  apply eq_of_sub_single h1 hd
  · intro j hj
    rw [Nat.testBit_two_pow] at hj
    have : k = j := of_decide_eq_true hj
    rw [← this]; exact hk
  · exact (Nat.two_pow_pos k).ne'

/-- A clue call on a board already solved as `G` changes nothing and returns `INCOMPLETE`. -/
theorem clue_call_solved (cfg : Config) (w : Wiring) {G : Nat → Nat} (hG : ValidGrid G)
    {st : State} (hB : SolvedAs G st) {c : Nat} (hc : c < 81) (fuel : Nat) :
    uncertainty_reduction cfg w (fuel + 1) st c (not16 (square_in G c).digits)
      = some (INCOMPLETE, st) := by
  apply ur_noop
  rw [square_in_of_valid hG hc, hB.1 c hc]
  exact two_pow_and_not16 _

/-- A clue call before the board is solved: it returns `INCOMPLETE` with the clue's cell
fixed, or it returns `SOLVED` with the board solved as `G`. -/
theorem clue_call_propagating (cfg : Config) {w : Wiring} (hw : Std w) {G : Nat → Nat}
    (hG : ValidGrid G) {D : Nat → Prop} {st : State} (hA : Propagating G D st) {c : Nat}
    (hc : c < 81) {fuel : Nat} (hfuel : 41391 < fuel) :
    ∃ r st', uncertainty_reduction cfg w fuel st c (not16 (square_in G c).digits)
        = some (r, st') ∧
      ((r = INCOMPLETE ∧ Propagating G (fun x => D x ∨ x = c) st') ∨
       (r = SOLVED ∧ SolvedAs G st')) := by
  obtain ⟨hcons, hcomp, hu, hD⟩ := hA
  have hds := digitSum_le_of_consistent hcons
  obtain ⟨r, st', h⟩ := ur_total cfg hw.std_inRange fuel st c
    (not16 (square_in G c).digits) hc (by omega)
  refine ⟨r, st', h, ?_⟩
  rw [square_in_of_valid hG hc] at h
  have hmask : (not16 (1 <<< (G c - 1))).testBit (G c - 1) = false := by
    rw [trial_mask_testBit]; simp
  obtain ⟨hne, hcomp'⟩ := ur_sound cfg hw hG fuel st c _ r st' hc hcomp hmask h
  have hcons' := ur_consistent cfg hw hcons hc h hne
  have hfr := ur_frame cfg w _ _ _ _ _ _ h
  have htyped : ∀ x, x < 81 → (st'.square x).digits < 65536 :=
    fun x hx => sub_511_lt (hcons'.1 x hx).2.1
  rcases ur_inv2 cfg hw fuel ∅ st c _ r st' hc (consistent_inv hcons) h with
    ⟨hr, _, _, hun⟩ | ⟨hr, _, _, h0, _⟩ | ⟨hr, _⟩
  · left
    refine ⟨hr, hcons', hcomp', ?_, ?_⟩
    · rcases hun with he | hne'
      · rw [he]; exact hu
      · exact hne'
    · intro x hx hDx
      rcases hDx with hDx | rfl
      · exact single_stays_single hfr.1 hcons' hx (hD x hx hDx)
      · have hcl := ur_clears h
        have hsub := sub_of_and_not16_zero (htyped x hx) hcl
        have hle := popcount_mono hsub
        have hGx := hG.1 x hx
        rw [Nat.one_shiftLeft, popcount_two_pow (by omega)] at hle
        have := popcount_pos_of_ne_zero (htyped x hx) (hcons'.1 x hx).1
        omega
  · right
    subst hr
    obtain ⟨_, hcells, _⟩ := ur_solved_board cfg hw hcons hc h
    refine ⟨rfl, fun x hx => ?_, h0⟩
    have hd := single_compatible_eq (hcells x hx).1 (htyped x hx) (hcomp' x hx)
    have hsz := (hcells x hx).2.1
    cases hsq : st'.square x with
    | mk d sz =>
      rw [hsq] at hd hsz
      simp only at hd hsz
      rw [hd, hsz]
  · exact absurd hr hne


theorem simpleReductions_append (cfg : Config) (w : Wiring) (fuel : Nat) (sq : Nat → square_t) :
    ∀ (l1 l2 : List (Nat × Nat)) (rs : Int × State),
      simpleReductions cfg w fuel sq (l1 ++ l2) rs =
        (simpleReductions cfg w fuel sq l1 rs).bind (simpleReductions cfg w fuel sq l2) := by
  intro l1
  induction l1 with
  | nil => intro l2 rs; rfl
  | cons p rest ih =>
    obtain ⟨j, i⟩ := p
    intro l2 rs
    obtain ⟨r, st⟩ := rs
    simp only [List.cons_append, simpleReductions]
    split
    · split
      · rfl
      · exact ih l2 _
    · exact ih l2 _

theorem simpleReductions_solved (cfg : Config) (w : Wiring) {G : Nat → Nat} (hG : ValidGrid G)
    {st : State} (hB : SolvedAs G st) {fuel : Nat} (hfuel : 0 < fuel) :
    ∀ (l : List (Nat × Nat)) (r : Int), (∀ p ∈ l, p.1 < 9 ∧ p.2 < 9) →
      ∃ r', simpleReductions cfg w fuel (square_in G) l (r, st) = some (r', st) ∧
        (l ≠ [] → r' = INCOMPLETE) ∧ (l = [] → r' = r) := by
  obtain ⟨f, rfl⟩ : ∃ f, fuel = f + 1 := ⟨fuel - 1, by omega⟩
  intro l
  induction l with
  | nil => intro r _; exact ⟨r, rfl, fun h => absurd rfl h, fun _ => rfl⟩
  | cons p rest ih =>
    obtain ⟨j, i⟩ := p
    intro r hl
    have hji := hl (j, i) (List.mem_cons_self _ _)
    have hc : 9 * i + j < 81 := by simp only at hji; omega
    obtain ⟨r', hrun, h1, h2⟩ := ih INCOMPLETE (fun p hp => hl p (List.mem_cons_of_mem _ hp))
    refine ⟨r', ?_, fun _ => ?_, fun h => absurd h (List.cons_ne_nil _ _)⟩
    · simp only [simpleReductions]
      rw [square_in_of_valid hG hc, if_pos rfl]
      have := clue_call_solved cfg w hG hB hc f
      rw [square_in_of_valid hG hc] at this
      rw [this]
      exact hrun
    · by_cases hr : rest = []
      · rw [h2 hr]
      · exact h1 hr

theorem simpleReductions_propagating (cfg : Config) {w : Wiring} (hw : Std w) {G : Nat → Nat}
    (hG : ValidGrid G) {fuel : Nat} (hfuel : 41391 < fuel) :
    ∀ (l : List (Nat × Nat)) (D : Nat → Prop) (st : State), (∀ p ∈ l, p.1 < 9 ∧ p.2 < 9) →
      Propagating G D st →
      ∃ r' st', simpleReductions cfg w fuel (square_in G) l (INCOMPLETE, st) = some (r', st') ∧
        ((r' = INCOMPLETE ∧
            Propagating G (fun x => D x ∨ ∃ p ∈ l, x = 9 * p.2 + p.1) st') ∨
          SolvedAs G st') := by
  intro l
  induction l with
  | nil =>
    intro D st _ hA
    refine ⟨INCOMPLETE, st, rfl, Or.inl ⟨rfl, hA.1, hA.2.1, hA.2.2.1, ?_⟩⟩
    intro c hc hD
    rcases hD with hD | ⟨p, hp, _⟩
    · exact hA.2.2.2 c hc hD
    · exact absurd hp (List.not_mem_nil _)
  | cons p rest ih =>
    obtain ⟨j, i⟩ := p
    intro D st hl hA
    have hji := hl (j, i) (List.mem_cons_self _ _)
    have hc : 9 * i + j < 81 := by simp only at hji; omega
    have hrest : ∀ p ∈ rest, p.1 < 9 ∧ p.2 < 9 := fun p hp => hl p (List.mem_cons_of_mem _ hp)
    obtain ⟨r1, st1, hcall, hres⟩ := clue_call_propagating cfg hw hG hA hc hfuel
    have hunf : simpleReductions cfg w fuel (square_in G) ((j, i) :: rest) (INCOMPLETE, st)
        = simpleReductions cfg w fuel (square_in G) rest (r1, st1) := by
      simp only [simpleReductions]
      rw [square_in_of_valid hG hc, if_pos rfl]
      rw [square_in_of_valid hG hc] at hcall
      rw [hcall]
    rw [hunf]
    rcases hres with ⟨hr, hA1⟩ | ⟨_, hB1⟩
    · subst hr
      obtain ⟨r', st', hrun, hfin⟩ := ih _ st1 hrest hA1
      refine ⟨r', st', hrun, ?_⟩
      rcases hfin with ⟨hr', hA'⟩ | hB'
      · left
        refine ⟨hr', hA'.1, hA'.2.1, hA'.2.2.1, ?_⟩
        intro c hc81 hD
        apply hA'.2.2.2 c hc81
        rcases hD with hD | ⟨p, hp, hpc⟩
        · exact Or.inl (Or.inl hD)
        · rcases List.mem_cons.mp hp with rfl | hp
          · exact Or.inl (Or.inr hpc)
          · exact Or.inr ⟨p, hp, hpc⟩
      · exact Or.inr hB'
    · obtain ⟨r', hrun, _⟩ := @simpleReductions_solved cfg w G hG st1 hB1 fuel (by omega) rest r1 hrest
      exact ⟨r', st1, hrun, Or.inr hB1⟩


theorem last_row_complete {G : Nat → Nat} (hG : ValidGrid G) {b : Nat} (hb : b < 9) :
    ∃ p, p < 9 ∧ G (72 + p) - 1 = b := by
  let f : Nat → Nat := fun p => G (72 + p) - 1
  have hinj : Set.InjOn f (Finset.range 9 : Set Nat) := by
    intro p hp q hq hpq
    have hp9 : p < 9 := Finset.mem_range.mp hp
    have hq9 : q < 9 := Finset.mem_range.mp hq
    by_contra hne
    have h1 := hG.1 (72 + p) (by omega)
    have h2 := hG.1 (72 + q) (by omega)
    have := hG.2 (72 + p) (72 + q) (by omega) (by omega) (by omega)
      (Or.inl (by omega))
    simp only [f] at hpq
    omega
  have hsub : (Finset.range 9).image f ⊆ Finset.range 9 := by
    intro x hx
    obtain ⟨p, hp, rfl⟩ := Finset.mem_image.mp hx
    have := hG.1 (72 + p) (by have := Finset.mem_range.mp hp; omega)
    exact Finset.mem_range.mpr (by simp only [f]; omega)
  have hcard : (Finset.range 9).card ≤ ((Finset.range 9).image f).card := by
    rw [Finset.card_image_of_injOn hinj]
  have heq := Finset.eq_of_subset_of_card_le hsub hcard
  have hmem : b ∈ (Finset.range 9).image f := by rw [heq]; exact Finset.mem_range.mpr hb
  obtain ⟨p, hp, hfp⟩ := Finset.mem_image.mp hmem
  exact ⟨p, Finset.mem_range.mp hp, hfp⟩

theorem propagating_all_but_last {G : Nat → Nat} (hG : ValidGrid G) {D : Nat → Prop}
    {st : State} (hA : Propagating G D st) (hD : ∀ c, c < 80 → D c) : False := by
  obtain ⟨hcons, hcomp, hu, hDs⟩ := hA
  have htyped : ∀ x, x < 81 → (st.square x).digits < 65536 :=
    fun x hx => sub_511_lt (hcons.1 x hx).2.1
  have hlast : popcount (st.square 80).digits = 1 := by
    have hsub : Sub (st.square 80).digits (2 ^ (G 80 - 1)) := by
      intro b hb
      have hb9 := testBit_511 ((hcons.1 80 (by omega)).2.1 b hb)
      obtain ⟨p, hp, hpb⟩ := last_row_complete hG hb9
      rcases Nat.lt_or_ge p 8 with hp8 | hp8
      · exfalso
        have ha : 72 + p < 81 := by omega
        have h1 := hDs (72 + p) ha (hD _ (by omega))
        have hd := single_compatible_eq h1 (htyped _ ha) (hcomp _ ha)
        have hz := hcons.2.2 (72 + p) 80 ha (by omega) h1 (by omega) (Or.inl (by omega))
        rw [hd, hpb, and_eq_zero_iff_testBit] at hz
        exact hz b ⟨hb, Nat.testBit_two_pow_self⟩
      · have : p = 8 := by omega
        subst this
        rw [show 72 + 8 = 80 from rfl] at hpb
        rw [hpb]; exact Nat.testBit_two_pow_self
    have hle := popcount_mono hsub
    have hG80 := hG.1 80 (by omega)
    rw [popcount_two_pow (by omega)] at hle
    have := popcount_pos_of_ne_zero (htyped 80 (by omega)) (hcons.1 80 (by omega)).1
    omega
  have hempty : uncertain st = ∅ := by
    rw [Finset.eq_empty_iff_forall_not_mem]
    intro c hc
    obtain ⟨hc81, hc2⟩ := mem_uncertain.mp hc
    rcases Nat.lt_or_ge c 80 with h | h
    · have := hDs c hc81 (hD c h); omega
    · have : c = 80 := by omega
      subst this; omega
  apply hu
  rw [hcons.2.1, hempty]; rfl

theorem cluePairs_split : cluePairs = cluePairs.take 80 ++ [(8, 8)] := by decide

theorem cluePairs_take_range : ∀ p ∈ cluePairs.take 80, p.1 < 9 ∧ p.2 < 9 := by decide

set_option maxRecDepth 100000 in
theorem cluePairs_take_cover : ∀ c, c < 80 → ∃ p ∈ cluePairs.take 80, c = 9 * p.2 + p.1 := by
  decide

theorem propagating_initState {G : Nat → Nat} (hG : ValidGrid G) :
    Propagating G (fun _ => False) initState :=
  ⟨consistent_initState, compatible_initState hG, by decide, fun _ _ h => absurd h id⟩

/-- With all 81 cells given as the clues of a valid grid, the simple reductions end with the
board solved as that grid and `r = INCOMPLETE`: the board is solved by an earlier clue and the
last clue's call changes nothing. -/
theorem simpleReductions_full_grid (cfg : Config) {G : Nat → Nat} (hG : ValidGrid G)
    {fuel : Nat} (hfuel : 41391 < fuel) :
    ∃ st, simpleReductions cfg initWiring fuel (square_in G) cluePairs (INCOMPLETE, initState)
        = some (INCOMPLETE, st) ∧ SolvedAs G st := by
  obtain ⟨r1, st1, hrun1, hres⟩ := simpleReductions_propagating cfg initWiring_std hG hfuel
    (cluePairs.take 80) (fun _ => False) initState cluePairs_take_range
    (propagating_initState hG)
  have hB : SolvedAs G st1 := by
    rcases hres with ⟨_, hA⟩ | hB
    · exfalso
      apply propagating_all_but_last hG hA
      intro c hc
      exact Or.inr (cluePairs_take_cover c hc)
    · exact hB
  obtain ⟨r2, hrun2, hr2, _⟩ := @simpleReductions_solved cfg initWiring G hG st1 hB fuel
    (by omega) [(8, 8)] r1 (by decide)
  refine ⟨st1, ?_, hB⟩
  rw [cluePairs_split, simpleReductions_append, hrun1, Option.some_bind, hrun2,
    hr2 (List.cons_ne_nil _ _)]

theorem make_assumption_solved (cfg : Config) (w : Wiring) {G : Nat → Nat} {st : State}
    (hB : SolvedAs G st) {fuel : Nat} (hfuel : 163 < fuel) :
    make_assumption cfg w fuel st 0 0 = some Run.outOfBounds := by
  obtain ⟨f, rfl⟩ : ∃ f, fuel = f + 1 := ⟨fuel - 1, by omega⟩
  have hscan := scan_outOfBounds (f + 1) st 0 0 (by omega) (by omega)
    (fun t _ ht => by rw [hB.1 t ht]) (by simp; omega)
  simp only [make_assumption]
  rw [hscan]

/-- The engine on a full valid grid: the scan of `make_assumption (0, 0)` runs over the solved
board and reads outside the array. -/
theorem engine_full_grid (cfg : Config) {G : Nat → Nat} (hG : ValidGrid G) {fuel : Nat}
    (hfuel : 41391 < fuel) : engine cfg fuel (square_in G) = some Run.outOfBounds := by
  obtain ⟨st, hrun, hB⟩ := simpleReductions_full_grid cfg hG hfuel
  unfold engine
  rw [hrun]
  simp only
  rw [if_pos True.intro]
  exact make_assumption_solved cfg initWiring hB (by omega)



theorem tryDigits_code (cfg : Config) (red : State → Nat → Nat → Option (Int × State))
    (recur : State → Nat → Nat → Option Run) (i j : Nat) :
    ∀ ks st r st', tryDigits cfg red recur i j ks st = some (Run.ret r st') →
      r = INCOMPLETE ∨ (r = SOLVED ∧ cfg.search_all_solutions = false) := by
  intro ks
  induction ks with
  | nil =>
    intro st r st' h
    simp only [tryDigits, Option.some.injEq, Run.ret.injEq] at h
    exact Or.inl h.1.symm
  | cons k rest ih =>
    intro st r st' h
    rcases tryDigits_cons_cases h with ⟨_, h⟩ | ⟨_, r1, st2, _, run, _, h⟩
    · exact ih st r st' h
    · rcases h with ⟨_, h⟩ | ⟨r2, st3, _, h⟩
      · exact absurd h (by simp)
      · rcases h with ⟨_, hall, h⟩ | ⟨_, h⟩
        · simp only [Run.ret.injEq] at h
          exact Or.inr ⟨h.1, hall⟩
        · exact ih _ r st' h

theorem make_assumption_code (cfg : Config) (w : Wiring) (fuel : Nat) (st : State)
    (i j : Nat) (r : Int) (st' : State)
    (h : make_assumption cfg w fuel st i j = some (Run.ret r st')) :
    r = INCOMPLETE ∨ (r = SOLVED ∧ cfg.search_all_solutions = false) := by
  cases fuel with
  | zero => simp [make_assumption] at h
  | succ fuel =>
    simp only [make_assumption] at h
    split at h
    · exact absurd h (by simp)
    · exact absurd h (by simp)
    · simp only [Option.some.injEq, Run.ret.injEq] at h
      exact Or.inl h.1.symm
    · exact tryDigits_code cfg _ _ _ _ _ st r st' h

theorem make_assumption_exhausted (cfg : Config) (w : Wiring) (st : State) (i j : Nat)
    (hi : i ≤ 8) (hj : j ≤ 8)
    (hall : ∀ t, 9 * i + j ≤ t → t < 81 → (st.square t).size = 1) {fuel : Nat}
    (hfuel : 163 < fuel) :
    make_assumption cfg w fuel st i j = some Run.outOfBounds := by
  obtain ⟨f, rfl⟩ : ∃ f, fuel = f + 1 := ⟨fuel - 1, by omega⟩
  have hscan := scan_outOfBounds (f + 1) st i j (by omega) (by omega) hall
    (by split <;> omega)
  simp only [make_assumption]
  rw [hscan]

theorem testBit_511_iff (k : Nat) : (0x01ff : Nat).testBit k = true ↔ k < 9 := by
  constructor
  · exact testBit_511
  · intro hk
    interval_cases k <;> decide


/-! ## The solution record -/


theorem SameRecord.same_refl (st : State) : SameRecord st st := ⟨rfl, rfl, rfl⟩

theorem SameRecord.same_trans {a b c : State} (h1 : SameRecord a b) (h2 : SameRecord b c) :
    SameRecord a c :=
  ⟨h2.1.trans h1.1, h2.2.1.trans h1.2.1, h2.2.2.trans h1.2.2⟩

theorem recordPost_trans {cfg : Config} {a b c : State} {r : Int} (h1 : SameRecord a b)
    (h2 : RecordPost cfg b r c) : RecordPost cfg a r c := by
  rcases h2 with h2 | ⟨hr, hs, hf, ho⟩
  · exact Or.inl (h1.same_trans h2)
  · refine Or.inr ⟨hr, by rw [hs, h1.2.2], hf, ?_⟩
    rw [ho, h1.1, h1.2.1]

theorem ur_record (cfg : Config) (w : Wiring) :
    ∀ fuel st s mask r st', uncertainty_reduction cfg w fuel st s mask = some (r, st') →
      RecordPost cfg st r st' := by
  intro fuel
  induction fuel with
  | zero => intro st s mask r st' h; simp [uncertainty_reduction] at h
  | succ fuel ih =>
    intro st s mask r st' h
    have hstep : ∀ stx r1 st1 s2 m, SameRecord st stx →
        uncertainty_reduction cfg w fuel stx s2 m = some (r1, st1) →
        (r1 = INCOMPLETE → SameRecord st st1) ∧ (r1 ≠ INCOMPLETE → RecordPost cfg st r1 st1) := by
      intro stx r1 st1 s2 m hJ hrec
      have h1 := recordPost_trans hJ (ih _ _ _ _ _ hrec)
      refine ⟨fun hr => ?_, fun _ => h1⟩
      rcases h1 with h1 | ⟨hs, _⟩
      · exact h1
      · rw [hr] at hs; exact absurd hs (by decide)
    rcases ur_cases h with ⟨_, _, rfl⟩ | ⟨_, h2⟩
    · exact Or.inl (SameRecord.same_refl _)
    · rcases h2 with ⟨_, _, rfl⟩ | ⟨_, r2, st2, hl, hrest⟩ | ⟨_, _, r2, st2, hl, hrest⟩
      · exact Or.inl ⟨rfl, rfl, rfl⟩
      · have hloop := firstOrderLoop_rule (fun _ stx => SameRecord st stx)
          (fun r stx => RecordPost cfg st r stx)
          (fun _ _ _ _ hJ _ => hJ)
          (fun g i rest stx r1 st1 hJ _ _ hrec => hstep stx r1 st1 _ _ hJ hrec)
          groupPairs (cleared st s mask) r2 st2 ⟨rfl, rfl, rfl⟩ hl
        rcases hrest with ⟨hr, rfl, rfl⟩ | ⟨hr, _, rfl, rfl⟩ | ⟨hr, _, rfl, rfl⟩
        · rcases hloop with ⟨h1, _⟩ | ⟨_, h1⟩
          · exact absurd h1 hr
          · exact h1
        · rcases hloop with ⟨_, h1⟩ | ⟨h1, _⟩
          · refine Or.inr ⟨rfl, ?_, rfl, ?_⟩
            · show (st2.solutions + 1) % 2 ^ 64 = _
              rw [h1.2.2]
            · show (if cfg.print_all_solutions = true ∨ st2.first_solution = true
                then st2.square :: st2.output else st2.output) = _
              rw [h1.1, h1.2.1]
              rfl
          · exact absurd hr h1
        · rcases hloop with ⟨_, h1⟩ | ⟨h1, _⟩
          · exact Or.inl h1
          · exact absurd hr h1
      · have hloop := nthOrderLoop_rule (fun _ stx => SameRecord st stx)
          (fun r stx => RecordPost cfg st r stx)
          (fun _ _ _ hJ _ => hJ)
          (fun g rest stx r1 st1 hJ _ hrec => by
            have := reduceUncontained_rule (fun _ sty => SameRecord st sty)
              (fun r sty => RecordPost cfg st r sty)
              (fun u rest' sty r3 st3 hJ' hrec' => hstep sty r3 st3 _ _ hJ' hrec')
              _ stx r1 st1 hJ hrec
            rcases this with ⟨hi, h⟩ | ⟨hne, h⟩
            · exact ⟨fun _ => h, fun hne => absurd hi hne⟩
            · exact ⟨fun hi => absurd hi hne, fun _ => h⟩)
          [0, 1, 2] (cleared st s mask) r2 st2 ⟨rfl, rfl, rfl⟩ hl
        rcases hrest with ⟨hr, rfl, rfl⟩ | ⟨hr, _, rfl⟩
        · rcases hloop with ⟨h1, _⟩ | ⟨_, h1⟩
          · exact absurd h1 hr
          · exact h1
        · rcases hloop with ⟨_, h1⟩ | ⟨h1, _⟩
          · exact Or.inl h1
          · exact absurd hr h1

theorem succ_mod_ne (x : Nat) : (x + 1) % 2 ^ 64 ≠ x := by
  have h : (2 : Nat) ^ 64 = 18446744073709551616 := by norm_num
  rw [h]
  omega


/-- In a run `first_solution` is set exactly as long as no solution has been recorded. -/
theorem history_flag {cfg : Config} {n : Nat} {st : State} (h : History cfg n st) :
    st.first_solution = true ↔ n = 0 := by
  induction h with
  | start st hf _ _ => exact ⟨fun _ => rfl, fun _ => hf⟩
  | other n st st' _ hsame ih => rw [hsame.2.1]; exact ih
  | call n fuel st s mask r st' _ hcall ih =>
    rcases ur_record cfg initWiring fuel st s mask r st' hcall with hsame | ⟨_, hsol, hf, _⟩
    · rw [if_pos hsame.2.2, hsame.2.1]; exact ih
    · rw [if_neg (by rw [hsol]; exact succ_mod_ne _), hf]
      exact ⟨fun hx => absurd hx (by decide), fun hx => absurd hx (Nat.succ_ne_zero n)⟩

/-! ## First-solution mode -/

theorem gridOf_sub (g : Grid) {s : Nat} (hs : s < 81) : gridOf g s - 1 = (g ⟨s, hs⟩).val := by
  simp [gridOf, hs]

theorem lexLt_asymm {g g' : Grid} (h : LexLt g g') (h' : LexLt g' g) : False := by
  obtain ⟨c, hc, hlt⟩ := h
  obtain ⟨c', hc', hlt'⟩ := h'
  rcases lt_trichotomy c c' with hcc | hcc | hcc
  · have := hc' c hcc; rw [this] at hlt; exact lt_irrefl _ hlt
  · subst hcc; exact lt_asymm hlt hlt'
  · have := hc c' hcc; rw [this] at hlt'; exact lt_irrefl _ hlt'

theorem isLexMin_unique {st : State} {g g' : Grid} (h : IsLexMin st g) (h' : IsLexMin st g') :
    g' = g := by
  rcases h.2 g' h'.1 with he | hl
  · exact he
  · rcases h'.2 g h.1 with he | hl'
    · exact he.symm
    · exact absurd (lexLt_asymm hl hl') id

/-- Two completions hold the same digit at a cell with a single candidate. -/
theorem completions_agree {st : State} (hc : Consistent st) {g g' : Grid}
    (hg : IsCompletion st g) (hg' : IsCompletion st g') {t : Nat} (ht : t < 81)
    (h1 : popcount (st.square t).digits = 1) : g ⟨t, ht⟩ = g' ⟨t, ht⟩ := by
  have hd := sub_511_lt (hc.1 t ht).2.1
  have e1 := single_compatible_eq h1 hd (hg.2 t ht)
  have e2 := single_compatible_eq h1 hd (hg'.2 t ht)
  rw [e1] at e2
  have := Nat.pow_right_injective (le_refl 2) e2
  rw [gridOf_sub g ht, gridOf_sub g' ht] at this
  exact Fin.ext this

theorem lexLt_of_digit_lt {st : State} (hc : Consistent st) {g g' : Grid}
    (hg : IsCompletion st g) (hg' : IsCompletion st g') {s : Nat} (hs : s < 81)
    (hfix : ∀ t, t < s → popcount (st.square t).digits = 1)
    (hlt : gridOf g s - 1 < gridOf g' s - 1) : LexLt g g' := by
  refine ⟨⟨s, hs⟩, fun t ht => ?_, ?_⟩
  · exact completions_agree hc hg hg' t.isLt (hfix t.val ht)
  · rw [gridOf_sub g hs, gridOf_sub g' hs] at hlt
    exact hlt

theorem solved_board_as {st2 : State} (h0 : st2.unsolved_squares = 0)
    (hcells : ∀ c, c < 81 → popcount (st2.square c).digits = 1 ∧ (st2.square c).size = 1 ∧
      Sub (st2.square c).digits 511)
    {g : Grid} (hg : Compatible (gridOf g) st2) : SolvedAs (gridOf g) st2 := by
  refine ⟨fun c hc => ?_, h0⟩
  have hd := single_compatible_eq (hcells c hc).1 (sub_511_lt (hcells c hc).2.2) (hg c hc)
  have hsz := (hcells c hc).2.1
  cases hx : st2.square c with
  | mk d n =>
    rw [hx] at hd hsz
    simp only at hd hsz
    rw [hd, hsz]


theorem tryDigits_first (cfg : Config) (hfirst : cfg.search_all_solutions = false) {w : Wiring}
    (hw : Std w) (fuel : Nat) (st : State) (hc : Consistent st) (i j : Nat)
    (hs : 9 * i + j < 81) (hpop : 2 ≤ popcount (st.square (9 * i + j)).digits)
    (hfix : ∀ t, t < 9 * i + j → popcount (st.square t).digits = 1)
    (IH : ∀ st2, Consistent st2 → (uncertain st2).card < (uncertain st).card →
      (uncertain st2).Nonempty →
      (∀ t, t < 81 → (st.square t).size = 1 → (st2.square t).size = 1) →
      (st2.square (9 * i + j)).size = 1 → digitSum st2 ≤ digitSum st →
      ((∀ g, ¬ IsCompletion st2 g) →
        ∃ st3, make_assumption cfg w fuel st2 i j = some (Run.ret INCOMPLETE st3)) ∧
      (∀ g0, IsCompletion st2 g0 →
        ∃ st3 g, make_assumption cfg w fuel st2 i j = some (Run.ret SOLVED st3) ∧
          IsLexMin st2 g ∧ SolvedAs (gridOf g) st3))
    (hfuel : digitSum st < fuel + 1) :
    ∀ ks : List Nat, ks.Pairwise (fun a b => a < b) → (∀ k ∈ ks, k < 9) → ∀ stk : State,
      stk.square = st.square → stk.unsolved_squares = st.unsolved_squares →
      (∀ g, IsCompletion st g → gridOf g (9 * i + j) - 1 ∈ ks) →
      ((∀ g, ¬ IsCompletion st g) →
        ∃ st', tryDigits cfg (uncertainty_reduction cfg w (fuel + 1))
          (make_assumption cfg w fuel) i j ks stk = some (Run.ret INCOMPLETE st')) ∧
      (∀ g0, IsCompletion st g0 →
        ∃ st' g, tryDigits cfg (uncertainty_reduction cfg w (fuel + 1))
            (make_assumption cfg w fuel) i j ks stk = some (Run.ret SOLVED st') ∧
          IsLexMin st g ∧ SolvedAs (gridOf g) st') := by
  intro ks
  induction ks with
  | nil =>
    intro _ _ stk _ _ hmem
    exact ⟨fun _ => ⟨stk, rfl⟩, fun g0 hg0 => absurd (hmem g0 hg0) (List.not_mem_nil _)⟩
  | cons k rest ih =>
    intro hpw hlt stk hsq hu hmem
    have hk9 : k < 9 := hlt k (List.mem_cons_self _ _)
    have hgt : ∀ k' ∈ rest, k < k' := (List.pairwise_cons.mp hpw).1
    have ih' := ih (List.pairwise_cons.mp hpw).2
      (fun k' hk' => hlt k' (List.mem_cons_of_mem _ hk'))
    -- completions that do not hold digit k at the cell have a digit of the rest
    have hrest : (∀ g, IsCompletion st g → gridOf g (9 * i + j) - 1 ≠ k) →
        ∀ g, IsCompletion st g → gridOf g (9 * i + j) - 1 ∈ rest := by
      intro hnk g hg
      rcases List.mem_cons.mp (hmem g hg) with h | h
      · exact absurd h (hnk g hg)
      · exact h
    by_cases hbit : (stk.square (9 * i + j)).digits >>> k &&& 1 ≠ 0
    · have hsq1 : (bumped stk).square = st.square := hsq
      have hu1 : (bumped stk).unsolved_squares = st.unsolved_squares := hu
      have hc1 : Consistent (bumped stk) := consistent_congr hsq1 hu1 hc
      obtain ⟨r, st2, hur⟩ := ur_total cfg hw.std_inRange (fuel + 1) (bumped stk) (9 * i + j)
        (not16 (1 <<< k)) hs (by rw [digitSum_congr hsq1]; exact hfuel)
      have hcode := ur_result_code cfg hw hc1 hs hur
      have hur' := hur
      simp only [bumped] at hur'
      have hsolved : ∀ st3, (if r = INCOMPLETE then make_assumption cfg w fuel st2 i j
            else some (Run.ret r st2)) = some (Run.ret SOLVED st3) →
          tryDigits cfg (uncertainty_reduction cfg w (fuel + 1)) (make_assumption cfg w fuel)
            i j (k :: rest) stk = some (Run.ret SOLVED st3) := by
        intro st3 hinner
        simp only [tryDigits]
        rw [if_pos hbit, hur']
        simp only
        rw [hinner]
        simp only
        rw [if_pos ⟨True.intro, hfirst⟩]
      have hcont : ∀ r2 st3, (if r = INCOMPLETE then make_assumption cfg w fuel st2 i j
            else some (Run.ret r st2)) = some (Run.ret r2 st3) → r2 ≠ SOLVED →
          tryDigits cfg (uncertainty_reduction cfg w (fuel + 1)) (make_assumption cfg w fuel)
            i j (k :: rest) stk =
          tryDigits cfg (uncertainty_reduction cfg w (fuel + 1)) (make_assumption cfg w fuel)
            i j rest (restored (bumped stk) st3) := by
        intro r2 st3 hinner hr2
        simp only [tryDigits]
        rw [if_pos hbit, hur']
        simp only
        rw [hinner]
        simp only
        rw [if_neg (fun h => hr2 h.1)]
        rfl
      -- a completion found below is the smallest one
      have hmin : ∀ g, IsCompletion st g → gridOf g (9 * i + j) - 1 = k →
          (∀ g', IsCompletion st g' → gridOf g' (9 * i + j) - 1 = k → g' = g ∨ LexLt g g') →
          IsLexMin st g := by
        intro g hg hgk hsame
        refine ⟨hg, fun g' hg' => ?_⟩
        by_cases hk' : gridOf g' (9 * i + j) - 1 = k
        · exact hsame g' hg' hk'
        · right
          have hin : gridOf g' (9 * i + j) - 1 ∈ rest := by
            rcases List.mem_cons.mp (hmem g' hg') with h | h
            · exact absurd h hk'
            · exact h
          exact lexLt_of_digit_lt hc hg hg' hs hfix (by rw [hgk]; exact hgt _ hin)
      rcases hcode with ⟨hr, _⟩ | ⟨hr, _⟩ | ⟨hr, _⟩
      · subst hr
        obtain ⟨hc2, hcard, hne, hkeep, hs1, _, hds⟩ :=
          trial_incomplete_facts cfg hw hc hsq1 hu1 hs hk9 hpop hur
        obtain ⟨hA, hB⟩ := IH st2 hc2 hcard hne hkeep hs1 hds
        by_cases hex : ∃ g, IsCompletion st2 g
        · obtain ⟨g2, hg2⟩ := hex
          obtain ⟨st3, g, hrun, hlm, hsa⟩ := hB g2 hg2
          have hback := trial_back cfg hsq1 hs hur hlm.1.2
          have hgst : IsCompletion st g := ⟨hlm.1.1, hback.1⟩
          have hres : ∃ st' g, tryDigits cfg (uncertainty_reduction cfg w (fuel + 1))
              (make_assumption cfg w fuel) i j (k :: rest) stk = some (Run.ret SOLVED st') ∧
              IsLexMin st g ∧ SolvedAs (gridOf g) st' := by
            refine ⟨st3, g, hsolved st3 (by rw [if_pos rfl]; exact hrun), ?_, hsa⟩
            apply hmin g hgst hback.2
            intro g' hg' hk'
            exact hlm.2 g' ⟨hg'.1, (trial_sound cfg hw hsq1 hs hur hg' hk').2⟩
          exact ⟨fun hno => absurd hgst (hno g), fun _ _ => hres⟩
        · have hno2 : ∀ g, ¬ IsCompletion st2 g := fun g hg => hex ⟨g, hg⟩
          obtain ⟨st3, hrun⟩ := hA hno2
          rw [hcont INCOMPLETE st3 (by rw [if_pos rfl]; exact hrun) (by decide)]
          apply ih' (restored (bumped stk) st3) hsq hu
          apply hrest
          intro g hg hk'
          exact hno2 g ⟨hg.1, (trial_sound cfg hw hsq1 hs hur hg hk').2⟩
      · subst hr
        obtain ⟨h0, hcells, hpeer⟩ := ur_solved_board cfg hw hc1 hs hur
        obtain ⟨g, hg2, huniq⟩ := solved_board_grid hcells hpeer
        have hback := trial_back cfg hsq1 hs hur hg2.2
        have hgst : IsCompletion st g := ⟨hg2.1, hback.1⟩
        have hres : ∃ st' g, tryDigits cfg (uncertainty_reduction cfg w (fuel + 1))
            (make_assumption cfg w fuel) i j (k :: rest) stk = some (Run.ret SOLVED st') ∧
            IsLexMin st g ∧ SolvedAs (gridOf g) st' := by
          refine ⟨st2, g, hsolved st2 (by rw [if_neg (by decide)]), ?_,
            solved_board_as h0 hcells hg2.2⟩
          apply hmin g hgst hback.2
          intro g' hg' hk'
          exact Or.inl (huniq g' (trial_sound cfg hw hsq1 hs hur hg' hk').2)
        exact ⟨fun hno => absurd hgst (hno g), fun _ _ => hres⟩
      · subst hr
        rw [hcont ERROR st2 (by rw [if_neg (by decide)]) (by decide)]
        apply ih' (restored (bumped stk) st2) hsq hu
        apply hrest
        intro g hg hk'
        exact (trial_sound cfg hw hsq1 hs hur hg hk').1 rfl
    · have hbitk : (st.square (9 * i + j)).digits.testBit k = false := by
        rw [← hsq]
        cases hx : (stk.square (9 * i + j)).digits.testBit k
        · rfl
        · exact absurd ((shift_and_one_ne_zero _ _).mpr hx) hbit
      have hstep : tryDigits cfg (uncertainty_reduction cfg w (fuel + 1))
          (make_assumption cfg w fuel) i j (k :: rest) stk =
          tryDigits cfg (uncertainty_reduction cfg w (fuel + 1))
            (make_assumption cfg w fuel) i j rest stk := by
        simp only [tryDigits]
        rw [if_neg hbit]
      rw [hstep]
      apply ih' stk hsq hu
      apply hrest
      intro g hg hk'
      have := hg.2 (9 * i + j) hs
      rw [hk', hbitk] at this
      exact absurd this (by simp)

/-- First-solution mode on a consistent board with an uncertain cell: without a completion
the search returns `INCOMPLETE`; with one it returns `SOLVED` on the board of the
lexicographically smallest completion. -/
theorem make_assumption_first (cfg : Config) (hfirst : cfg.search_all_solutions = false)
    {w : Wiring} (hw : Std w) :
    ∀ (fuel : Nat) (st : State) (i j : Nat), Consistent st → (uncertain st).Nonempty →
      j ≤ 9 → (∀ t, t < 9 * i + j → t < 81 → (st.square t).size = 1) →
      digitSum st + (uncertain st).card + 200 ≤ fuel →
      ((∀ g, ¬ IsCompletion st g) →
        ∃ st', make_assumption cfg w fuel st i j = some (Run.ret INCOMPLETE st')) ∧
      (∀ g0, IsCompletion st g0 →
        ∃ st' g, make_assumption cfg w fuel st i j = some (Run.ret SOLVED st') ∧
          IsLexMin st g ∧ SolvedAs (gridOf g) st') := by
  intro fuel
  induction fuel with
  | zero => intro st i j _ _ _ _ h; omega
  | succ fuel ih =>
    intro st i j hc hne hj hbefore hfuel
    let c := (uncertain st).min' hne
    have hcmem : c ∈ uncertain st := Finset.min'_mem _ hne
    have hc81 : c < 81 := (mem_uncertain.mp hcmem).1
    have hcpop : 2 ≤ popcount (st.square c).digits := (mem_uncertain.mp hcmem).2
    have hsize : ∀ t, t < 81 → t ∉ uncertain st → (st.square t).size = 1 := by
      intro t ht hnot
      have h2 : ¬ 2 ≤ popcount (st.square t).digits := fun h => hnot (mem_uncertain.mpr ⟨ht, h⟩)
      have h0 := popcount_pos_of_ne_zero (sub_511_lt (hc.1 t ht).2.1) (hc.1 t ht).1
      rw [(hc.1 t ht).2.2]; omega
    have hcsz : (st.square c).size ≠ 1 := by rw [(hc.1 c hc81).2.2]; omega
    have hstart : 9 * i + j ≤ c := by
      by_contra hlt
      exact hcsz (hbefore c (by omega) hc81)
    have hmid : ∀ t, 9 * i + j ≤ t → t < c → (st.square t).size = 1 := by
      intro t _ htc
      apply hsize t (by omega)
      intro hm
      have := Finset.min'_le _ t hm
      omega
    obtain ⟨i1, j1, hscan, hpos, hj1⟩ := scan_found (fuel + 1) st i j c hj hstart hc81 hcsz hmid
      (by split <;> omega)
    have hall1 : ∀ t, t < c → (st.square t).size = 1 := by
      intro t htc
      rcases Nat.lt_or_ge t (9 * i + j) with h | h
      · exact hbefore t h (by omega)
      · exact hmid t h htc
    simp only [make_assumption]
    rw [hscan]
    simp only
    have hs : 9 * i1 + j1 < 81 := by rw [hpos]; exact hc81
    have hmemk : ∀ g, IsCompletion st g → gridOf g (9 * i1 + j1) - 1 ∈ List.range 9 := by
      intro g _
      have := gridOf_pos g hs
      exact List.mem_range.mpr (by omega)
    exact tryDigits_first cfg hfirst hw fuel st hc i1 j1 hs (by rw [hpos]; exact hcpop)
      (by
        intro t ht
        have h1 := hall1 t (by omega)
        rw [(hc.1 t (by omega)).2.2] at h1
        exact h1)
      (by
        intro st2 hc2 hcard hne2 hkeep hs1 hds
        apply ih st2 i1 j1 hc2 hne2 hj1 _ (by omega)
        intro t ht ht81
        exact hkeep t ht81 (hall1 t (by omega)))
      (by omega) (List.range 9) (List.pairwise_lt_range 9) (fun k hk => List.mem_range.mp hk)
      st rfl rfl hmemk

/-! ## A single clue on the fresh board -/

theorem clue_bits {k : Nat} (hk : k < 9) :
    511 &&& 2 ^ k ≠ 0 ∧ 511 &&& not16 (2 ^ k) = 511 - 2 ^ k ∧ popcount (511 - 2 ^ k) = 8 ∧
    2 ^ k &&& (511 - 2 ^ k) = 0 ∧ (511 - 2 ^ k) &&& 2 ^ k = 0 ∧
    2 ^ k ||| (511 - 2 ^ k) ≠ 511 - 2 ^ k ∧ 511 ||| (511 - 2 ^ k) ≠ 511 - 2 ^ k ∧
    511 &&& not16 (not16 (2 ^ k)) = 2 ^ k ∧ 511 &&& not16 (2 ^ k) ≠ 0 := by
  interval_cases k <;> decide

set_option maxRecDepth 1000000 in
/-- A group that does not hold cell `s` has two cells that share no group with `s`. -/
theorem group_two_strangers :
    ∀ s < 81, ∀ g < 3, ∀ gi < 9, groupIdx s g = gi ∨ TwoStrangers s g gi := by
  decide!

theorem sameUnit_self (a : Nat) : sameUnit a a := Or.inl rfl

theorem singleClue_cleared {s k : Nat} (hk : k < 9) {st : State} (hF : SingleClue s k st)
    {s2 : Nat} (hne : s2 ≠ s) (hsu : sameUnit s s2) (hopen : st.square s2 = ⟨511, 9⟩) :
    SingleClue s k (cleared st s2 (2 ^ k)) ∧
    (cleared st s2 (2 ^ k)).square s2 = ⟨511 - 2 ^ k, 8⟩ := by
  obtain ⟨b1, b2, b3, -⟩ := clue_bits hk
  have hself : (cleared st s2 (2 ^ k)).square s2 = ⟨511 - 2 ^ k, 8⟩ := by
    rw [cleared_square_self, hopen]
    simp only
    rw [b2, b3]
  refine ⟨⟨?_, ?_, hF.2.2⟩, hself⟩
  · rw [cleared_square_other st _ (Ne.symm hne)]; exact hF.1
  · intro t ht
    by_cases hts : t = s2
    · subst hts; exact Or.inr ⟨hsu, hself⟩
    · rw [cleared_square_other st _ hts]; exact hF.2.1 t ht

/-- While a peer `s2` of the clue cell is reduced, a group of `s2` has exactly one cell not
contained in `s2` only when that cell is the clue cell. -/
theorem singleClue_uncontained {w : Wiring} (hw : Std w) {s k : Nat} (hs : s < 81)
    (hk : k < 9) {st : State} (hF : SingleClue s k st) {s2 : Nat} (hs2 : s2 < 81)
    (hne : s2 ≠ s) (hsu : sameUnit s s2) (hopen : st.square s2 = ⟨511, 9⟩) {g : Nat}
    (hg : g < 3) (hlen : (uncontainedOf w (cleared st s2 (2 ^ k)) s2 g).length = 1) :
    uncontainedOf w (cleared st s2 (2 ^ k)) s2 g = [s] := by
  obtain ⟨hC, hself⟩ := singleClue_cleared hk hF hne hsu hopen
  obtain ⟨-, -, -, -, -, b5, b6, -⟩ := clue_bits hk
  obtain ⟨a, ha⟩ := List.length_eq_one.mp hlen
  have hmem : ∀ i, i < 9 → w.peer s2 g i ≠ s2 →
      ((cleared st s2 (2 ^ k)).square (w.peer s2 g i)).digits ||| (511 - 2 ^ k) ≠ 511 - 2 ^ k →
      w.peer s2 g i = a := by
    intro i hi h1 h2
    have : w.peer s2 g i ∈ uncontainedOf w (cleared st s2 (2 ^ k)) s2 g := by
      unfold uncontainedOf
      rw [List.mem_filter]
      refine ⟨List.mem_map.mpr ⟨i, List.mem_range.mpr hi, rfl⟩, ?_⟩
      rw [hself]
      simp only [ne_eq, decide_eq_true_eq]
      exact ⟨h1, h2⟩
    rw [ha] at this
    exact List.mem_singleton.mp this
  rw [ha]
  congr 1
  rcases group_two_strangers s hs g hg (groupIdx s2 g) (groupIdx_lt hs2) with hin | hout
  · obtain ⟨i0, hi0, hm⟩ := memberF_self hs hg
    rw [hin] at hm
    have hp : w.peer s2 g i0 = s := by rw [hw s2 g i0 hs2 hg hi0]; exact hm
    have := hmem i0 hi0 (by rw [hp]; exact Ne.symm hne) (by rw [hp, hC.1]; exact b5)
    rw [← this, hp]
  · obtain ⟨i1, hi1, i2, hi2, h12, hn1, hn2⟩ := hout
    have hopen' : ∀ i, i < 9 → ¬ sameUnit s (memberF g (groupIdx s2 g) i) →
        w.peer s2 g i = a := by
      intro i hi hn
      have hp : w.peer s2 g i = memberF g (groupIdx s2 g) i := hw s2 g i hs2 hg hi
      have hts : memberF g (groupIdx s2 g) i ≠ s := fun h => hn (by rw [h]; exact sameUnit_self s)
      have hts2 : memberF g (groupIdx s2 g) i ≠ s2 := fun h => hn (by rw [h]; exact hsu)
      apply hmem i hi (by rw [hp]; exact hts2)
      rw [hp]
      rcases hC.2.1 _ hts with h | h
      · rw [h]; exact b6
      · exact absurd h.1 hn
    have e1 := hopen' i1 hi1 hn1
    have e2 := hopen' i2 hi2 hn2
    rw [hw s2 g i1 hs2 hg hi1] at e1
    rw [hw s2 g i2 hs2 hg hi2] at e2
    exact absurd (memberF_inj hi1 hi2 (e1.trans e2.symm)) h12

/-- The nested call made for a peer of the clue cell: the peer loses the digit and nothing
else happens. -/
theorem singleClue_peer_call (cfg : Config) {w : Wiring} (hw : Std w) {s k : Nat}
    (hs : s < 81) (hk : k < 9) {st : State} (hF : SingleClue s k st) {s2 : Nat}
    (hs2 : s2 < 81) (hne : s2 ≠ s) (hsu : sameUnit s s2) (hopen : st.square s2 = ⟨511, 9⟩)
    {fuel : Nat} {r : Int} {st1 : State}
    (h : uncertainty_reduction cfg w fuel st s2 (2 ^ k) = some (r, st1)) :
    r = INCOMPLETE ∧ st1 = cleared st s2 (2 ^ k) := by
  obtain ⟨b1, b2, b3, b4, -⟩ := clue_bits hk
  obtain ⟨hC, hself⟩ := singleClue_cleared hk hF hne hsu hopen
  cases fuel with
  | zero => simp [uncertainty_reduction] at h
  | succ fuel =>
    have hpop : popcount ((st.square s2).digits &&& not16 (2 ^ k)) = 8 := by
      rw [hopen]; simp only; rw [b2, b3]
    have hfin : finalStatus (cleared st s2 (2 ^ k)) = INCOMPLETE := by
      unfold finalStatus
      rw [hC.2.2]; decide
    rcases ur_cases h with ⟨h0, _⟩ | ⟨_, h2⟩
    · rw [hopen] at h0; exact absurd h0 b1
    · rcases h2 with ⟨hn, _⟩ | ⟨hn, _⟩ | ⟨_, _, r2, st2, hl, hrest⟩
      · rw [hpop] at hn; exact absurd hn (by decide)
      · rw [hpop] at hn; exact absurd hn (by decide)
      · rw [hpop] at hl
        have hloop := nthOrderLoop_rule
          (fun rem stx => (∀ g ∈ rem, g < 3) ∧ stx = cleared st s2 (2 ^ k))
          (fun _ _ => False)
          (fun g rest stx hJ _ => ⟨fun p hp => hJ.1 p (List.mem_cons_of_mem _ hp), hJ.2⟩)
          (fun g rest stx r1 st3 hJ hlen hred => by
            obtain ⟨hg, hstx⟩ := hJ
            subst hstx
            have hlen1 : (uncontainedOf w (cleared st s2 (2 ^ k)) s2 g).length = 1 := by
              have := hlen
              omega
            have hu := singleClue_uncontained hw hs hk hF hs2 hne hsu hopen
              (hg g (List.mem_cons_self _ _)) hlen1
            rw [hu] at hred
            have hz : ((cleared st s2 (2 ^ k)).square s).digits &&&
                ((cleared st s2 (2 ^ k)).square s2).digits = 0 := by
              rw [hC.1, hself]; exact b4
            cases fuel with
            | zero => simp [reduceUncontained, uncertainty_reduction] at hred
            | succ f =>
              simp only [reduceUncontained] at hred
              rw [ur_noop cfg w f _ _ _ hz] at hred
              simp only [ne_eq, not_true_eq_false, if_false, reduceUncontained,
                Option.some.injEq, Prod.mk.injEq] at hred
              obtain ⟨hr, hst⟩ := hred
              subst hr; subst hst
              exact ⟨fun _ => ⟨fun p hp => hg p (List.mem_cons_of_mem _ hp), rfl⟩,
                fun hx => absurd rfl hx⟩)
          [0, 1, 2] (cleared st s2 (2 ^ k)) r2 st2
          ⟨by intro g hg; simp at hg; omega, rfl⟩ hl
        rcases hloop with ⟨hr2, _, hst2⟩ | ⟨_, hf⟩
        · subst hst2
          rcases hrest with ⟨hne2, _, _⟩ | ⟨_, hr, hst⟩
          · exact absurd hr2 hne2
          · rw [hr, hst, hfin]; exact ⟨rfl, rfl⟩
        · exact absurd hf id

/-- The propagation of a single clue on the fresh board. -/
theorem singleClue_call (cfg : Config) {w : Wiring} (hw : Std w) {s k : Nat} (hs : s < 81)
    (hk : k < 9) {fuel : Nat} {r : Int} {st' : State}
    (h : uncertainty_reduction cfg w fuel initState s (not16 (2 ^ k)) = some (r, st')) :
    r = INCOMPLETE ∧ st'.square s = ⟨2 ^ k, 1⟩ ∧
    (∀ t, t < 81 → t ≠ s → sameUnit s t → st'.square t = ⟨511 - 2 ^ k, 8⟩) ∧
    (∀ t, ¬ sameUnit s t → st'.square t = ⟨511, 9⟩) ∧ st'.unsolved_squares = 80 := by
  obtain ⟨b1, b2, b3, b4, b4', b5, b6, b7, b8⟩ := clue_bits hk
  have hsq : ∀ t, initState.square t = ⟨511, 9⟩ := fun _ => rfl
  have hC0 : SingleClue s k (cleared initState s (not16 (2 ^ k))) := by
    refine ⟨?_, fun t ht => Or.inl ?_, rfl⟩
    · rw [cleared_square_self, hsq]
      simp only
      rw [b7, popcount_two_pow (by omega)]
    · rw [cleared_square_other _ _ ht, hsq]
  cases fuel with
  | zero => simp [uncertainty_reduction] at h
  | succ fuel =>
    have hpop : popcount ((initState.square s).digits &&& not16 (not16 (2 ^ k))) = 1 := by
      rw [hsq]; simp only; rw [b7, popcount_two_pow (by omega)]
    rcases ur_cases h with ⟨h0, _⟩ | ⟨_, h2⟩
    · rw [hsq] at h0; exact absurd h0 b8
    · rcases h2 with ⟨hn, _⟩ | ⟨_, r2, st2, hl, hrest⟩ | ⟨_, hn, _⟩
      · rw [hpop] at hn; exact absurd hn (by decide)
      · have hloop := firstOrderLoop_rule
          (fun rem stx => (∀ p ∈ rem, p.1 < 3 ∧ p.2 < 9) ∧ SingleClue s k stx ∧
            ∀ t, t < 81 → t ≠ s → sameUnit s t →
              (stx.square t = ⟨511 - 2 ^ k, 8⟩ ∨ ∃ p ∈ rem, w.peer s p.1 p.2 = t))
          (fun _ _ => False)
          (fun g i rest stx hJ hno => by
            obtain ⟨hin, hF, hpend⟩ := hJ
            refine ⟨fun p hp => hin p (List.mem_cons_of_mem _ hp), hF, ?_⟩
            intro t ht hts hsu
            rcases hpend t ht hts hsu with hdone | ⟨p, hp, hpt⟩
            · exact Or.inl hdone
            · rcases List.mem_cons.mp hp with hp0 | hp1
              · subst hp0
                simp only at hpt
                rcases hF.2.1 t hts with hopen | ⟨_, hred⟩
                · exfalso
                  apply hno
                  rw [hpt, hopen, hF.1]
                  exact ⟨hts, b1⟩
                · exact Or.inl hred
              · exact Or.inr ⟨p, hp1, hpt⟩)
          (fun g i rest stx r1 st1 hJ hne hand hrec => by
            obtain ⟨hin, hF, hpend⟩ := hJ
            have hgi := hin (g, i) (List.mem_cons_self _ _)
            have hs2 : w.peer s g i < 81 := hw.std_inRange s g i hs hgi.1 hgi.2
            have hsu : sameUnit s (w.peer s g i) := by
              obtain ⟨i0, hi0, hm⟩ := memberF_self hs hgi.1
              rw [hw s g i hs hgi.1 hgi.2]
              have := @memberF_sameUnit g (groupIdx s g) i0 i hgi.1 (groupIdx_lt hs) hi0 hgi.2
              rw [hm] at this
              exact this
            have hopen : stx.square (w.peer s g i) = ⟨511, 9⟩ := by
              rcases hF.2.1 _ hne with hopen | ⟨_, hred⟩
              · exact hopen
              · rw [hred, hF.1] at hand
                exact absurd b4' hand
            rw [hF.1] at hrec
            obtain ⟨hr, hst⟩ := singleClue_peer_call cfg hw hs hk hF hs2 hne hsu hopen hrec
            obtain ⟨hF1, hself⟩ := singleClue_cleared hk hF hne hsu hopen
            subst hst
            refine ⟨fun _ => ⟨fun p hp => hin p (List.mem_cons_of_mem _ hp), hF1, ?_⟩,
              fun hx => absurd hr hx⟩
            intro t ht hts hsut
            by_cases htp : t = w.peer s g i
            · rw [htp]; exact Or.inl hself
            · rcases hpend t ht hts hsut with hdone | ⟨p, hp, hpt⟩
              · left; rw [cleared_square_other _ _ htp]; exact hdone
              · rcases List.mem_cons.mp hp with hp0 | hp1
                · subst hp0; exact absurd hpt.symm htp
                · exact Or.inr ⟨p, hp1, hpt⟩)
          groupPairs (cleared initState s (not16 (2 ^ k))) r2 st2
          ⟨fun p hp => mem_groupPairs hp, hC0, fun t ht hts hsu => by
            obtain ⟨g, i, hg, hi, hm⟩ := sameUnit_memberF hs ht hsu
            exact Or.inr ⟨(g, i), groupPairs_mem hg hi, by rw [hw s g i hs hg hi]; exact hm⟩⟩
          hl
        rcases hloop with ⟨hr2, _, hF, hdone⟩ | ⟨_, hf⟩
        · have hdec : (decremented st2).unsolved_squares = 80 := by
            show (st2.unsolved_squares + 255) % 256 = 80
            rw [hF.2.2]
          have hpeers : ∀ t, t < 81 → t ≠ s → sameUnit s t →
              st2.square t = ⟨511 - 2 ^ k, 8⟩ := by
            intro t ht hts hsu
            rcases hdone t ht hts hsu with hd | ⟨p, hp, _⟩
            · exact hd
            · exact absurd hp (List.not_mem_nil _)
          have hothers : ∀ t, ¬ sameUnit s t → st2.square t = ⟨511, 9⟩ := by
            intro t hn
            have hts : t ≠ s := fun h => hn (by rw [h]; exact sameUnit_self s)
            rcases hF.2.1 t hts with h | h
            · exact h
            · exact absurd h.1 hn
          rcases hrest with ⟨hne2, _, _⟩ | ⟨_, h0, _, _⟩ | ⟨_, _, hr, hst⟩
          · exact absurd hr2 hne2
          · rw [hdec] at h0; exact absurd h0 (by decide)
          · subst hst
            refine ⟨?_, hF.1, hpeers, hothers, hdec⟩
            rw [hr]
            unfold finalStatus
            rw [hdec]; decide
        · exact absurd hf id
      · rw [hpop] at hn; exact absurd rfl hn

theorem peersOf_card_eq_length (s : Nat) :
    (peersOf s).card =
      ((List.range 81).filter (fun t => decide (t ≠ s ∧ sameUnit s t))).length := by
  unfold peersOf
  simp only [Finset.card, Finset.filter, Finset.range, Multiset.range, Multiset.filter_coe,
    Multiset.coe_card]

set_option maxRecDepth 1000000 in
theorem peers_length :
    ∀ s < 81, ((List.range 81).filter (fun t => decide (t ≠ s ∧ sameUnit s t))).length = 20 := by
  decide!

theorem peersOf_card {s : Nat} (hs : s < 81) : (peersOf s).card = 20 := by
  rw [peersOf_card_eq_length]; exact peers_length s hs

theorem mem_peersOf {s t : Nat} : t ∈ peersOf s ↔ t < 81 ∧ t ≠ s ∧ sameUnit s t := by
  unfold peersOf
  rw [Finset.mem_filter, Finset.mem_range]

/-! ## Evaluated runs -/

set_option maxRecDepth 1000000 in
theorem pairState_search_all :
    observeRun (make_assumption ⟨true, false⟩ initWiring 100 pairState 0 0)
      = some (some (INCOMPLETE, 4, 2, 2)) := by
  decide!


set_option maxRecDepth 1000000 in
theorem clashState_reduce :
    observe [0, 9] (uncertainty_reduction ⟨false, false⟩ initWiring 100 clashState 0 2)
      = some (ERROR, 80, [1, 0]) := by
  decide!

set_option maxRecDepth 1000000 in
theorem pairGridFn_completion : IsCompletion pairState pairGridFn := by
  decide!

set_option maxRecDepth 1000000 in
theorem pairState_trial_eval :
    observe [1, 3, 10, 12]
      (uncertainty_reduction ⟨false, false⟩ initWiring 41392 pairState 1 (not16 2))
      = some (SOLVED, 0, [2, 128, 128, 2]) := by
  decide!

theorem pairState_trial_solved :
    ∃ st', uncertainty_reduction ⟨false, false⟩ initWiring 41392 pairState 1 (not16 2)
      = some (SOLVED, st') := by
  have h := pairState_trial_eval
  cases hx : uncertainty_reduction ⟨false, false⟩ initWiring 41392 pairState 1 (not16 2) with
  | none => rw [hx] at h; simp [observe] at h
  | some p =>
    obtain ⟨r, st'⟩ := p
    rw [hx] at h
    simp only [observe, Option.map_some', Option.some.injEq, Prod.mk.injEq] at h
    obtain ⟨hr, _⟩ := h
    subst hr
    exact ⟨st', rfl⟩


/-! ## The claims -/

/-- C4 (soundness of propagation): with the wiring built by the initialisation, for every
board state, every complete valid grid `G` whose digits are all among the candidates, every
cell `s` and every mask without the digit of `G` at `s`, `uncertainty_reduction (s, mask)`
returns (any fuel above the digit sum suffices), does not return `ERROR`, and afterwards
every candidate set still holds the digit of `G`. -/
theorem C4_propagation_sound (cfg : Config) (G : Nat → Nat) (fuel : Nat) (st : State)
    (s mask : Nat) (hG : ValidGrid G) (hc : Compatible G st) (hs : s < 81)
    (hm : mask.testBit (G s - 1) = false) (hfuel : digitSum st < fuel) :
    ∃ r st', uncertainty_reduction cfg initWiring fuel st s mask = some (r, st') ∧
      r ≠ ERROR ∧ Compatible G st' := by
  obtain ⟨r, st', h⟩ := ur_total cfg initWiring_inRange fuel st s mask hs hfuel
  exact ⟨r, st', h, ur_sound cfg initWiring_std hG fuel st s mask r st' hs hc hm h⟩

theorem C4_propagation_sound_witness :
    ValidGrid sampleGrid ∧ Compatible sampleGrid initState ∧ 0 < 81 ∧
    (not16 (1 <<< 0)).testBit (sampleGrid 0 - 1) = false ∧ digitSum initState < 41392 ∧
    ∃ r st', uncertainty_reduction ⟨false, false⟩ initWiring 41392 initState 0
        (not16 (1 <<< 0)) = some (r, st') ∧
      r ≠ ERROR ∧ Compatible sampleGrid st' :=
  ⟨sampleGrid_valid, compatible_initState sampleGrid_valid, by decide, by decide,
    by rw [digitSum_initState]; decide,
    C4_propagation_sound ⟨false, false⟩ sampleGrid 41392 initState 0 (not16 (1 <<< 0))
      sampleGrid_valid (compatible_initState sampleGrid_valid) (by decide) (by decide)
      (by rw [digitSum_initState]; decide)⟩

/-- C7 (postcondition of reduce): for every board state, board cell `s` and mask,
`uncertainty_reduction (s, mask)` returns (any fuel above the digit sum suffices), and
whatever the result, the candidate set of `s` then contains no digit of `mask` and the
candidate set of every cell is a subset of what it was before the call. -/
theorem C7_reduce_postcondition (cfg : Config) (fuel : Nat) (st : State) (s mask : Nat)
    (hs : s < 81) (hfuel : digitSum st < fuel) :
    ∃ r st', uncertainty_reduction cfg initWiring fuel st s mask = some (r, st') ∧
      (st'.square s).digits &&& mask = 0 ∧
      ∀ t, Sub (st'.square t).digits (st.square t).digits := by
  obtain ⟨r, st', h⟩ := ur_total cfg initWiring_inRange fuel st s mask hs hfuel
  exact ⟨r, st', h, ur_clears h, (ur_frame cfg initWiring _ _ _ _ _ _ h).1⟩

theorem C7_reduce_postcondition_witness :
    (3 < 81 ∧ digitSum initState < 50000) ∧
    ∃ r st', uncertainty_reduction ⟨true, false⟩ initWiring 50000 initState 3 6
        = some (r, st') ∧
      (st'.square 3).digits &&& 6 = 0 ∧
      ∀ t, Sub (st'.square t).digits (initState.square t).digits :=
  ⟨⟨by decide, by rw [digitSum_initState]; decide⟩,
    C7_reduce_postcondition ⟨true, false⟩ 50000 initState 3 6 (by decide)
      (by rw [digitSum_initState]; decide)⟩

/-- C8 (idempotence of reduce): for every board state, board cell `s` and mask, a second
call of `uncertainty_reduction (s, mask)` right after a first one returns `INCOMPLETE` and
leaves the whole state (board, uncertainty counter, solutions counter, everything else)
unchanged; and any call whose mask shares no digit with the candidate set of its cell is
such a no-op. -/
theorem C8_reduce_idempotent (cfg : Config) (fuel : Nat) (st : State) (s mask : Nat)
    (hs : s < 81) (hfuel : digitSum st < fuel) :
    (∃ r st', uncertainty_reduction cfg initWiring fuel st s mask = some (r, st') ∧
      ∀ fuel2, 0 < fuel2 →
        uncertainty_reduction cfg initWiring fuel2 st' s mask = some (INCOMPLETE, st')) ∧
    ∀ (st0 : State) (s0 mask0 fuel0 : Nat), (st0.square s0).digits &&& mask0 = 0 →
      0 < fuel0 →
      uncertainty_reduction cfg initWiring fuel0 st0 s0 mask0 = some (INCOMPLETE, st0) := by
  have hnoop : ∀ (st0 : State) (s0 mask0 fuel0 : Nat), (st0.square s0).digits &&& mask0 = 0 →
      0 < fuel0 →
      uncertainty_reduction cfg initWiring fuel0 st0 s0 mask0 = some (INCOMPLETE, st0) := by
    intro st0 s0 mask0 fuel0 h0 hf
    obtain ⟨k, rfl⟩ : ∃ k, fuel0 = k + 1 := ⟨fuel0 - 1, by omega⟩
    exact ur_noop cfg initWiring k st0 s0 mask0 h0
  refine ⟨?_, hnoop⟩
  obtain ⟨r, st', h⟩ := ur_total cfg initWiring_inRange fuel st s mask hs hfuel
  exact ⟨r, st', h, fun fuel2 hf => hnoop st' s mask fuel2 (ur_clears h) hf⟩

theorem C8_reduce_idempotent_witness :
    (80 < 81 ∧ digitSum initState < 41392) ∧
    (∃ r st', uncertainty_reduction ⟨false, false⟩ initWiring 41392 initState 80 510
        = some (r, st') ∧
      ∀ fuel2, 0 < fuel2 →
        uncertainty_reduction ⟨false, false⟩ initWiring fuel2 st' 80 510
          = some (INCOMPLETE, st')) ∧
    ∀ (st0 : State) (s0 mask0 fuel0 : Nat), (st0.square s0).digits &&& mask0 = 0 →
      0 < fuel0 →
      uncertainty_reduction ⟨false, false⟩ initWiring fuel0 st0 s0 mask0
        = some (INCOMPLETE, st0) :=
  ⟨⟨by decide, by rw [digitSum_initState]; decide⟩,
    C8_reduce_idempotent ⟨false, false⟩ 41392 initState 80 510 (by decide)
      (by rw [digitSum_initState]; decide)⟩


/-- C5: for every call of `uncertainty_reduction` made on a consistent board state (any fuel
above the digit sum suffices for the call to return), if the call returns `SOLVED` then the
uncertainty counter is 0, all 81 cells have exactly one candidate (and cached size 1), and
each of the 27 groups `square_group[g][idx]` contains every digit `1..9` exactly once. -/
theorem C5_solved_means_valid_grid (cfg : Config) (fuel : Nat) (st : State) (s mask : Nat)
    (hc : Consistent st) (hs : s < 81) (hfuel : digitSum st < fuel) :
    ∃ r st', uncertainty_reduction cfg initWiring fuel st s mask = some (r, st') ∧
      (r = SOLVED →
        st'.unsolved_squares = 0 ∧
        (∀ c, c < 81 → popcount (st'.square c).digits = 1 ∧ (st'.square c).size = 1) ∧
        ∀ g idx d, g < 3 → idx < 9 → 1 ≤ d → d ≤ 9 →
          ∃! p, p < 9 ∧ (st'.square (initWiring.member g idx p)).digits = 1 <<< (d - 1)) := by
  obtain ⟨r, st', h⟩ := ur_total cfg initWiring_inRange fuel st s mask hs hfuel
  refine ⟨r, st', h, ?_⟩
  intro hr
  subst hr
  obtain ⟨h0, hcells, hpeer⟩ := ur_solved_board cfg initWiring_std hc hs h
  refine ⟨h0, fun c hc81 => ⟨(hcells c hc81).1, (hcells c hc81).2.1⟩, ?_⟩
  intro g idx d hg hidx hd1 hd9
  obtain ⟨p, ⟨hp9, hp⟩, huniq⟩ := @group_complete st'
    (fun c hc81 => (hcells c hc81).1) (fun c hc81 => (hcells c hc81).2.2)
    (fun a b ha hb _ hba hsu => hpeer a b ha hb hba hsu) g idx (d - 1) hg hidx
    (show d - 1 < 9 by omega)
  refine ⟨p, ⟨hp9, ?_⟩, ?_⟩
  · rw [initWiring_member g hg idx hidx p hp9, Nat.one_shiftLeft]; exact hp
  · intro q ⟨hq9, hq⟩
    apply huniq q
    refine ⟨hq9, ?_⟩
    rw [initWiring_member g hg idx hidx q hq9, Nat.one_shiftLeft] at hq
    exact hq

theorem C5_solved_means_valid_grid_witness :
    (Consistent pairState ∧ 1 < 81 ∧ digitSum pairState < 41392) ∧
    (∃ st', uncertainty_reduction ⟨false, false⟩ initWiring 41392 pairState 1 (not16 2)
        = some (SOLVED, st')) ∧
    ∃ r st', uncertainty_reduction ⟨false, false⟩ initWiring 41392 pairState 1 (not16 2)
        = some (r, st') ∧
      (r = SOLVED →
        st'.unsolved_squares = 0 ∧
        (∀ c, c < 81 → popcount (st'.square c).digits = 1 ∧ (st'.square c).size = 1) ∧
        ∀ g idx d, g < 3 → idx < 9 → 1 ≤ d → d ≤ 9 →
          ∃! p, p < 9 ∧ (st'.square (initWiring.member g idx p)).digits = 1 <<< (d - 1)) :=
  ⟨⟨pairState_consistent, by decide,
      Nat.lt_succ_of_le (digitSum_le_of_consistent pairState_consistent)⟩,
    pairState_trial_solved,
    C5_solved_means_valid_grid ⟨false, false⟩ 41392 pairState 1 (not16 2)
      pairState_consistent (by decide)
      (Nat.lt_succ_of_le (digitSum_le_of_consistent pairState_consistent))⟩

/-- C6 (checkpoint/restore): for every board state and start position, whenever
`make_assumption` returns `INCOMPLETE`, the board (candidate set and cached count of every
cell) and the uncertainty counter are exactly what they were at entry to the call. -/
theorem C6_checkpoint_restore (cfg : Config) (fuel : Nat) (st : State) (i j : Nat)
    (st' : State)
    (h : make_assumption cfg initWiring fuel st i j = some (Run.ret INCOMPLETE st')) :
    st'.square = st.square ∧ st'.unsolved_squares = st.unsolved_squares :=
  make_assumption_restores cfg initWiring fuel st i j st' h

theorem C6_checkpoint_restore_witness :
    ∃ st', make_assumption ⟨true, false⟩ initWiring 100 pairState 0 0
        = some (Run.ret INCOMPLETE st') ∧
      st'.solutions = 2 ∧ st'.assumptions = 2 ∧
      st'.square = pairState.square ∧ st'.unsolved_squares = pairState.unsolved_squares := by
  obtain ⟨st', h, _, hsol, hass⟩ := observeRun_ret pairState_search_all
  exact ⟨st', h, hsol, hass,
    C6_checkpoint_restore ⟨true, false⟩ 100 pairState 0 0 st' h⟩


set_option maxRecDepth 1000000 in
/-- C3 (the code on a failing input): the clue grid `dupClue` carries the digit 5 twice in
the group `square_group[GROW][0]`, the call for the second of them returns `ERROR`, yet the
call for the later clue in `square_in[0][2]` overwrites `r` with `INCOMPLETE`, so the engine
enters `make_assumption (0, 0)` and ends with status `INCOMPLETE` (uncertainty counter 79, no
solution, no assumption) instead of `ERROR`. -/
theorem C3_engine_overwrites_error :
    dupClue 0 = 5 ∧ dupClue 1 = 5 ∧ sameUnit 0 1 ∧
    observeRun (engine ⟨false, false⟩ 100 (square_in dupClue))
      = some (some (INCOMPLETE, 79, 0, 0)) := by
  decide!

/-- C1 (exhaustive enumeration): for every consistent board state that has at least one
uncertain cell, `make_assumption (0, 0)` run in search-all mode (with the wiring built by the
initialisation, and any fuel from 41672 on) returns `INCOMPLETE` and has increased the
solutions counter by exactly the number of complete valid Sudoku grids whose digit at every
cell belongs to that cell's candidate set: the 64 bit counter ends at the old value plus that
number modulo `2 ^ 64`, which is the plain sum whenever the sum does not overflow. -/
theorem C1_exhaustive_enumeration (cfg : Config) (fuel : Nat) (st : State)
    (hall : cfg.search_all_solutions = true) (hc : Consistent st)
    (hne : (uncertain st).Nonempty) (hsol : st.solutions < 2 ^ 64) (hfuel : 41672 ≤ fuel) :
    ∃ st', make_assumption cfg initWiring fuel st 0 0 = some (Run.ret INCOMPLETE st') ∧
      st'.solutions = (st.solutions + numCompletions st) % 2 ^ 64 ∧
      (st.solutions + numCompletions st < 2 ^ 64 →
        st'.solutions = st.solutions + numCompletions st) := by
  have h1 := digitSum_le_of_consistent hc
  have h2 := uncertain_card_le st
  obtain ⟨st', hrun, hsol'⟩ := make_assumption_count cfg hall initWiring_std fuel st 0 0 hc hne
    (by omega) (fun t ht _ => absurd ht (by omega)) hsol (by omega)
  exact ⟨st', hrun, hsol', fun hlt => by rw [hsol', Nat.mod_eq_of_lt hlt]⟩

theorem C1_exhaustive_enumeration_witness :
    (⟨true, false⟩ : Config).search_all_solutions = true ∧ Consistent pairState ∧
    (uncertain pairState).Nonempty ∧ pairState.solutions < 2 ^ 64 ∧ 41672 ≤ 50000 ∧
    ∃ st', make_assumption ⟨true, false⟩ initWiring 50000 pairState 0 0
        = some (Run.ret INCOMPLETE st') ∧
      st'.solutions = (pairState.solutions + numCompletions pairState) % 2 ^ 64 ∧
      (pairState.solutions + numCompletions pairState < 2 ^ 64 →
        st'.solutions = pairState.solutions + numCompletions pairState) :=
  ⟨rfl, pairState_consistent, pairState_uncertain, by decide, by decide,
    C1_exhaustive_enumeration ⟨true, false⟩ 50000 pairState rfl pairState_consistent
      pairState_uncertain (by decide) (by decide)⟩


/-- C2 (the code on a failing input): the clue grid that gives all 81 cells of the valid grid
`sampleGrid` has exactly one completion, `sampleGrid` itself; in first-solution mode the
simple reductions solve the board before the last clue, the last clue's call returns
`INCOMPLETE`, and `make_assumption (0, 0)` then scans past `square[8][8]` and reads outside
the board array instead of ending with the solved board and one solution. -/
theorem C2_engine_reads_outside_board :
    engine ⟨false, false⟩ 50000 (square_in sampleGrid) = some Run.outOfBounds :=
  engine_full_grid ⟨false, false⟩ sampleGrid_valid (by decide)

/-- C11 (the code on every failing input): for every clue grid that is itself a complete
valid grid, in every mode, the simple reductions end with the board solved as that grid but
with `r = INCOMPLETE` (the board was solved by an earlier clue), and the engine's call
`make_assumption (0, 0)` reads outside the board array, so the run does not end with the three
values the claim states. -/
theorem C11_full_grid_reads_outside (cfg : Config) (G : Nat → Nat) (fuel : Nat)
    (hG : ValidGrid G) (hfuel : 41391 < fuel) :
    (∃ st, simpleReductions cfg initWiring fuel (square_in G) cluePairs (INCOMPLETE, initState)
        = some (INCOMPLETE, st) ∧ SolvedAs G st) ∧
    engine cfg fuel (square_in G) = some Run.outOfBounds :=
  ⟨simpleReductions_full_grid cfg hG hfuel, engine_full_grid cfg hG hfuel⟩

theorem C11_full_grid_reads_outside_witness :
    ValidGrid sampleGrid ∧ 41391 < 41392 ∧
    (∃ st, simpleReductions ⟨true, true⟩ initWiring 41392 (square_in sampleGrid) cluePairs
        (INCOMPLETE, initState) = some (INCOMPLETE, st) ∧ SolvedAs sampleGrid st) ∧
    engine ⟨true, true⟩ 41392 (square_in sampleGrid) = some Run.outOfBounds :=
  ⟨sampleGrid_valid, by decide,
    C11_full_grid_reads_outside ⟨true, true⟩ sampleGrid 41392 sampleGrid_valid (by decide)⟩

/-- C13: contradictions are not fatal during search: for every board state, start position
and mode, whatever `make_assumption` returns is not `ERROR` (it is `INCOMPLETE`, or `SOLVED`
in first-solution mode), and in search-all mode it is always `INCOMPLETE`. -/
theorem C13_search_never_returns_error (cfg : Config) (fuel : Nat) (st : State) (i j : Nat)
    (r : Int) (st' : State)
    (h : make_assumption cfg initWiring fuel st i j = some (Run.ret r st')) :
    r ≠ ERROR ∧ (cfg.search_all_solutions = true → r = INCOMPLETE) := by
  rcases make_assumption_code cfg initWiring fuel st i j r st' h with hr | ⟨hr, hall⟩
  · exact ⟨by rw [hr]; decide, fun _ => hr⟩
  · exact ⟨by rw [hr]; decide, fun ht => by rw [hall] at ht; exact absurd ht (by decide)⟩

theorem C13_search_never_returns_error_witness :
    ∃ st', make_assumption ⟨true, false⟩ initWiring 100 pairState 0 0
        = some (Run.ret INCOMPLETE st') ∧ st'.solutions = 2 ∧
      INCOMPLETE ≠ ERROR ∧
      ((⟨true, false⟩ : Config).search_all_solutions = true → INCOMPLETE = INCOMPLETE) := by
  obtain ⟨st', h, _, hsol, _⟩ := observeRun_ret pairState_search_all
  exact ⟨st', h, hsol,
    C13_search_never_returns_error ⟨true, false⟩ 100 pairState 0 0 INCOMPLETE st' h⟩

/-- C17 (the code on every failing input): for every board and every start position inside
the board such that every cell at or after the start position has cached size 1, the scan of
`make_assumption` does not stop at the end of the board: it goes on to `square[8][9]`, outside
the 81 cells of the array, so the call does not return `INCOMPLETE` with everything
unchanged. -/
theorem C17_exhausted_scan_leaves_board (cfg : Config) (fuel : Nat) (st : State) (i j : Nat)
    (hi : i ≤ 8) (hj : j ≤ 8)
    (hall : ∀ t, 9 * i + j ≤ t → t < 81 → (st.square t).size = 1) (hfuel : 163 < fuel) :
    scan fuel st i j = some Scan.outOfBounds ∧
    make_assumption cfg initWiring fuel st i j = some Run.outOfBounds :=
  ⟨scan_outOfBounds fuel st i j (by omega) (by omega) hall (by split <;> omega),
    make_assumption_exhausted cfg initWiring st i j hi hj hall hfuel⟩

theorem C17_exhausted_scan_leaves_board_witness :
    (0 ≤ 8 ∧ 0 ≤ 8 ∧ (∀ t, 9 * 0 + 0 ≤ t → t < 81 → (solvedState.square t).size = 1) ∧
      163 < 200) ∧
    scan 200 solvedState 0 0 = some Scan.outOfBounds ∧
    make_assumption ⟨false, false⟩ initWiring 200 solvedState 0 0 = some Run.outOfBounds :=
  ⟨⟨by decide, by decide, fun _ _ _ => rfl, by decide⟩,
    C17_exhausted_scan_leaves_board ⟨false, false⟩ 200 solvedState 0 0 (by decide) (by decide)
      (fun _ _ _ => rfl) (by decide)⟩

/-- C16: the initialisation builds the standard Sudoku constraint structure: every cell gets
the candidate set `{1..9}` (bits 0..8) with cached count 9; the groups of kind `GROW` are the
9 lines along the first index, those of kind `GCOLUMN` the 9 lines along the second index,
those of kind `GMATRIX` the 9 aligned 3×3 boxes, each group holding 9 distinct cells; and the
group reference of kind `k` of every cell is a group of kind `k` that contains the cell, the
only group of that kind that does. -/
theorem C16_initialisation_structure :
    (∀ c, initState.square c = ⟨0x01ff, 9⟩) ∧
    (∀ k, (0x01ff : Nat).testBit k = true ↔ k < 9) ∧
    (∀ idx p, idx < 9 → p < 9 →
      initWiring.member GROW idx p = 9 * idx + p ∧
      initWiring.member GCOLUMN idx p = 9 * p + idx ∧
      initWiring.member GMATRIX idx p = 9 * (3 * (idx % 3) + p % 3) + (3 * (idx / 3) + p / 3)) ∧
    (∀ g idx p q, g < 3 → idx < 9 → p < 9 → q < 9 →
      initWiring.member g idx p = initWiring.member g idx q → p = q) ∧
    (∀ c k, c < 81 → k < 3 →
      (initWiring.group c k).1 = k ∧ (initWiring.group c k).2 < 9 ∧
      (∃ p, p < 9 ∧ initWiring.member k (initWiring.group c k).2 p = c) ∧
      ∀ idx p, idx < 9 → p < 9 → initWiring.member k idx p = c →
        idx = (initWiring.group c k).2) := by
  refine ⟨fun _ => rfl, testBit_511_iff, ?_, ?_, ?_⟩
  · intro idx p hidx hp
    refine ⟨?_, ?_, ?_⟩
    · rw [initWiring_member GROW (by decide) idx hidx p hp]; rfl
    · rw [initWiring_member GCOLUMN (by decide) idx hidx p hp]; rfl
    · rw [initWiring_member GMATRIX (by decide) idx hidx p hp]; rfl
  · intro g idx p q hg hidx hp hq h
    rw [initWiring_member g hg idx hidx p hp, initWiring_member g hg idx hidx q hq] at h
    exact memberF_inj hp hq h
  · intro c k hc hk
    have hgrp := initWiring_group c hc k hk
    have hlt := groupIdx_lt (g := k) hc
    rw [hgrp]
    refine ⟨rfl, hlt, ?_, ?_⟩
    · obtain ⟨p, hp, hpc⟩ := memberF_self hc hk
      exact ⟨p, hp, by rw [initWiring_member k hk _ hlt p hp]; exact hpc⟩
    · intro idx p hidx hp h
      rw [initWiring_member k hk idx hidx p hp] at h
      rw [← h]
      exact (groupIdx_memberF k hk idx hidx p hp).symm


/-- C15 (solution recording): in a run that has recorded `n` solutions so far, for every
call of `uncertainty_reduction` made on a consistent board state (any fuel above the digit sum
suffices for the call to return): `first_solution` is still set exactly when `n = 0`; if the
call returns `SOLVED`, the solutions counter has increased by exactly one (modulo `2 ^ 64`),
`first_solution` is cleared, the run has recorded `n + 1` solutions, and the final board has
been emitted exactly once when print-all is enabled or no solution had been recorded before
(`n = 0`), and not emitted otherwise; if it returns `INCOMPLETE` or `ERROR`, the solutions
counter, `first_solution` and the number of recorded solutions are unchanged and nothing is
emitted. -/
theorem C15_solution_recording (cfg : Config) (fuel n : Nat) (st : State) (s mask : Nat)
    (hrun : History cfg n st) (hc : Consistent st) (hs : s < 81) (hfuel : digitSum st < fuel) :
    (st.first_solution = true ↔ n = 0) ∧
    ∃ r st', uncertainty_reduction cfg initWiring fuel st s mask = some (r, st') ∧
      (r = SOLVED →
        st'.solutions = (st.solutions + 1) % 2 ^ 64 ∧ st'.first_solution = false ∧
        History cfg (n + 1) st' ∧
        st'.output = if cfg.print_all_solutions = true ∨ n = 0
          then st'.square :: st.output else st.output) ∧
      (r = INCOMPLETE ∨ r = ERROR →
        st'.solutions = st.solutions ∧ st'.first_solution = st.first_solution ∧
        History cfg n st' ∧ st'.output = st.output) := by
  have hflag := history_flag hrun
  obtain ⟨r, st', h⟩ := ur_total cfg initWiring_inRange fuel st s mask hs hfuel
  have hnext := History.call n fuel st s mask r st' hrun h
  refine ⟨hflag, r, st', h, ?_, ?_⟩
  · intro hr
    have hcode := ur_result_code cfg initWiring_std hc hs h
    have hsol : st'.solutions = (st.solutions + 1) % 2 ^ 64 := by
      rcases hcode with ⟨h1, _⟩ | ⟨_, h2⟩ | ⟨h1, _⟩
      · rw [hr] at h1; exact absurd h1 (by decide)
      · exact h2
      · rw [hr] at h1; exact absurd h1 (by decide)
    rw [if_neg (by rw [hsol]; exact succ_mod_ne _)] at hnext
    rcases ur_record cfg initWiring fuel st s mask r st' h with hsame | ⟨_, _, hf, ho⟩
    · exact absurd (hsol.symm.trans hsame.2.2) (succ_mod_ne _)
    · refine ⟨hsol, hf, hnext, ?_⟩
      rw [ho]
      exact if_congr (or_congr Iff.rfl hflag) rfl rfl
  · intro hr
    rcases ur_record cfg initWiring fuel st s mask r st' h with hsame | ⟨hs', _⟩
    · rw [if_pos hsame.2.2] at hnext
      exact ⟨hsame.2.2, hsame.2.1, hnext, hsame.1⟩
    · rcases hr with hr | hr <;> (rw [hr] at hs'; exact absurd hs' (by decide))

theorem C15_solution_recording_witness :
    (History ⟨false, false⟩ 0 pairState ∧ Consistent pairState ∧ 1 < 81 ∧
      digitSum pairState < 41392) ∧
    (∃ st', uncertainty_reduction ⟨false, false⟩ initWiring 41392 pairState 1 (not16 2)
        = some (SOLVED, st')) ∧
    (pairState.first_solution = true ↔ 0 = 0) ∧
    ∃ r st', uncertainty_reduction ⟨false, false⟩ initWiring 41392 pairState 1 (not16 2)
        = some (r, st') ∧
      (r = SOLVED →
        st'.solutions = (pairState.solutions + 1) % 2 ^ 64 ∧ st'.first_solution = false ∧
        History ⟨false, false⟩ (0 + 1) st' ∧
        st'.output = if (⟨false, false⟩ : Config).print_all_solutions = true ∨ 0 = 0
          then st'.square :: pairState.output else pairState.output) ∧
      (r = INCOMPLETE ∨ r = ERROR →
        st'.solutions = pairState.solutions ∧
        st'.first_solution = pairState.first_solution ∧
        History ⟨false, false⟩ 0 st' ∧ st'.output = pairState.output) :=
  ⟨⟨History.start pairState rfl rfl rfl, pairState_consistent, by decide,
      Nat.lt_succ_of_le (digitSum_le_of_consistent pairState_consistent)⟩,
    pairState_trial_solved,
    C15_solution_recording ⟨false, false⟩ 41392 0 pairState 1 (not16 2)
      (History.start pairState rfl rfl rfl) pairState_consistent (by decide)
      (Nat.lt_succ_of_le (digitSum_le_of_consistent pairState_consistent))⟩

/-- C14, the claim as stated fails: on the board `clashState` the call
`uncertainty_reduction (square[0][0], mask {2})` returns `ERROR`; `square[0][0]` went from two
candidates to one during the call, yet the uncertainty counter is what it was before. -/
theorem C14_counterexample :
    ∃ st', uncertainty_reduction ⟨false, false⟩ initWiring 100 clashState 0 2
        = some (ERROR, st') ∧
      st'.unsolved_squares = clashState.unsolved_squares ∧ 0 ∈ fixedCells clashState st' := by
  have h := clashState_reduce
  cases hx : uncertainty_reduction ⟨false, false⟩ initWiring 100 clashState 0 2 with
  | none => rw [hx] at h; simp [observe] at h
  | some p =>
    obtain ⟨r, st'⟩ := p
    rw [hx] at h
    simp only [observe, Option.map_some', Option.some.injEq, Prod.mk.injEq, List.map_cons,
      List.map_nil, List.cons.injEq, and_true] at h
    obtain ⟨hr, hu, h0, _⟩ := h
    subst hr
    refine ⟨st', rfl, hu, ?_⟩
    simp only [fixedCells, Finset.mem_filter, Finset.mem_range]
    refine ⟨by decide, by decide, ?_⟩
    rw [h0]; decide

/-- C14 (uncertainty counter bookkeeping, amended): on every board state whose digit masks
fit their 16 bit field, every call of `uncertainty_reduction` on a board cell returns; when it
returns `INCOMPLETE`, the uncertainty counter has decreased, modulo 256 (the width of the
counter), by exactly the number of cells whose candidate count changed from two or more to 1
during the call; and when the call was made on a consistent board state and does not return
`ERROR`, the decrease is exactly that number (no wrap-around). -/
theorem C14_counter_bookkeeping (cfg : Config) (fuel : Nat) (st : State) (s mask : Nat)
    (hs : s < 81) (hty : Typed st) (hfuel : digitSum st < fuel) :
    ∃ r st', uncertainty_reduction cfg initWiring fuel st s mask = some (r, st') ∧
      (r = INCOMPLETE →
        (st'.unsolved_squares + (fixedCells st st').card) % 256 = st.unsolved_squares % 256) ∧
      (Consistent st → r ≠ ERROR →
        st'.unsolved_squares + (fixedCells st st').card = st.unsolved_squares) := by
  obtain ⟨r, st', h⟩ := ur_total cfg initWiring_inRange fuel st s mask hs hfuel
  refine ⟨r, st', h, ?_, ?_⟩
  · intro hr
    subst hr
    have h1 := ur_counter cfg initWiring_std _ _ _ _ _ hs hty h
    have h2 := fixedCells_card cfg initWiring hty h (by decide)
    omega
  · intro hc hr
    have h2 := fixedCells_card cfg initWiring hty h hr
    have h3 := (ur_consistent cfg initWiring_std hc hs h hr).2.1
    have h4 := hc.2.1
    omega

theorem C14_counter_bookkeeping_witness :
    (1 < 81 ∧ Typed pairState ∧ digitSum pairState < 41392) ∧
    ∃ r st', uncertainty_reduction ⟨false, false⟩ initWiring 41392 pairState 1 (not16 2)
        = some (r, st') ∧
      (r = INCOMPLETE →
        (st'.unsolved_squares + (fixedCells pairState st').card) % 256
          = pairState.unsolved_squares % 256) ∧
      (Consistent pairState → r ≠ ERROR →
        st'.unsolved_squares + (fixedCells pairState st').card = pairState.unsolved_squares) :=
  ⟨⟨by decide, (consistent_inv pairState_consistent).1,
      Nat.lt_succ_of_le (digitSum_le_of_consistent pairState_consistent)⟩,
    C14_counter_bookkeeping ⟨false, false⟩ 41392 pairState 1 (not16 2) (by decide)
      (consistent_inv pairState_consistent).1
      (Nat.lt_succ_of_le (digitSum_le_of_consistent pairState_consistent))⟩

/-- C18 (termination): on every board state whose digit masks fit their field and whose
cached counts equal the cardinalities, `uncertainty_reduction` returns for every board cell
and mask (fuel above the digit sum suffices), and `make_assumption` from every in-board start
position ends, but not always by returning: when every cell at or after the start position
has size 1 it ends in a read outside the board array, after which the C program has no
defined behaviour, so that its termination is not guaranteed there. -/
theorem C18_termination (cfg : Config) (fuel : Nat) (st : State) (hty : Typed st)
    (hsz : SizesOk st) :
    (∀ s mask, s < 81 → digitSum st < fuel →
      ∃ r st', uncertainty_reduction cfg initWiring fuel st s mask = some (r, st')) ∧
    (∀ i j, i ≤ 8 → j ≤ 8 → digitSum st + (uncertain st).card + 200 ≤ fuel →
      ∃ run, make_assumption cfg initWiring fuel st i j = some run) ∧
    (∀ i j, i ≤ 8 → j ≤ 8 → (∀ t, 9 * i + j ≤ t → t < 81 → (st.square t).size = 1) →
      163 < fuel → make_assumption cfg initWiring fuel st i j = some Run.outOfBounds) :=
  ⟨fun s mask hs hfuel => ur_total cfg initWiring_inRange fuel st s mask hs hfuel,
    fun i j hi hj hfuel =>
      make_assumption_total cfg initWiring_std fuel st i j hty hsz (by omega) (by omega) hfuel,
    fun i j hi hj hall hfuel => make_assumption_exhausted cfg initWiring st i j hi hj hall hfuel⟩

theorem C18_termination_witness :
    (Typed solvedState ∧ SizesOk solvedState) ∧
    (∀ s mask, s < 81 → digitSum solvedState < 50000 →
      ∃ r st', uncertainty_reduction ⟨false, false⟩ initWiring 50000 solvedState s mask
        = some (r, st')) ∧
    (∀ i j, i ≤ 8 → j ≤ 8 → digitSum solvedState + (uncertain solvedState).card + 200 ≤ 50000 →
      ∃ run, make_assumption ⟨false, false⟩ initWiring 50000 solvedState i j = some run) ∧
    (∀ i j, i ≤ 8 → j ≤ 8 →
      (∀ t, 9 * i + j ≤ t → t < 81 → (solvedState.square t).size = 1) →
      163 < 50000 →
      make_assumption ⟨false, false⟩ initWiring 50000 solvedState i j
        = some Run.outOfBounds) :=
  ⟨⟨solvedState_typed, solvedState_sizesOk⟩,
    C18_termination ⟨false, false⟩ 50000 solvedState solvedState_typed solvedState_sizesOk⟩

/-- C19 (which solution first-solution mode returns): for every consistent board state with
at least one uncertain cell and at least one completion, `make_assumption (0, 0)` in
first-solution mode (any fuel from 41672 on) returns `SOLVED` and leaves the board fixed,
cell by cell, to the completion that is smallest in lexicographic order of the digits read in
scan order, with the uncertainty counter at 0; that completion is unique, so the result is a
function of the board alone. -/
theorem C19_first_solution_is_lex_min (cfg : Config) (fuel : Nat) (st : State)
    (hfirst : cfg.search_all_solutions = false) (hc : Consistent st)
    (hne : (uncertain st).Nonempty) (g0 : Grid) (hg0 : IsCompletion st g0)
    (hfuel : 41672 ≤ fuel) :
    ∃ st' g, make_assumption cfg initWiring fuel st 0 0 = some (Run.ret SOLVED st') ∧
      IsLexMin st g ∧ (∀ g', IsLexMin st g' → g' = g) ∧ SolvedAs (gridOf g) st' := by
  have h1 := digitSum_le_of_consistent hc
  have h2 := uncertain_card_le st
  obtain ⟨st', g, hrun, hmin, hsa⟩ :=
    (make_assumption_first cfg hfirst initWiring_std fuel st 0 0 hc hne (by omega)
      (fun t ht _ => absurd ht (by omega)) (by omega)).2 g0 hg0
  exact ⟨st', g, hrun, hmin, fun g' hg' => isLexMin_unique hmin hg', hsa⟩

theorem C19_first_solution_is_lex_min_witness :
    ((⟨false, false⟩ : Config).search_all_solutions = false ∧ Consistent pairState ∧
      (uncertain pairState).Nonempty ∧ IsCompletion pairState pairGridFn ∧ 41672 ≤ 50000) ∧
    ∃ st' g, make_assumption ⟨false, false⟩ initWiring 50000 pairState 0 0
        = some (Run.ret SOLVED st') ∧
      IsLexMin pairState g ∧ (∀ g', IsLexMin pairState g' → g' = g) ∧
      SolvedAs (gridOf g) st' :=
  ⟨⟨rfl, pairState_consistent, pairState_uncertain, pairGridFn_completion, by decide⟩,
    C19_first_solution_is_lex_min ⟨false, false⟩ 50000 pairState rfl pairState_consistent
      pairState_uncertain pairGridFn pairGridFn_completion (by decide)⟩

/-- C10 (single clue on the fresh board): for every cell `square[i][j]` and digit `d`, on the
freshly initialised board the call of `uncertainty_reduction` on that cell with the
complement of the digit's bit returns `INCOMPLETE` (any fuel above 41391) and leaves the cell
with the candidate set `{d}`, each of the 20 other cells sharing its row, column or box with
`{1..9}` minus `d` (size 8), each of the remaining 60 cells with the full set (size 9), and
the uncertainty counter at 80. -/
theorem C10_single_clue (cfg : Config) (fuel i j d : Nat) (hi : i < 9) (hj : j < 9)
    (hd1 : 1 ≤ d) (hd9 : d ≤ 9) (hfuel : 41391 < fuel) :
    ∃ st', uncertainty_reduction cfg initWiring fuel initState (9 * i + j)
        (not16 (1 <<< (d - 1))) = some (INCOMPLETE, st') ∧
      st'.square (9 * i + j) = ⟨2 ^ (d - 1), 1⟩ ∧
      (peersOf (9 * i + j)).card = 20 ∧
      (∀ t ∈ peersOf (9 * i + j), st'.square t = ⟨511 - 2 ^ (d - 1), 8⟩) ∧
      (∀ t, t < 81 → t ≠ 9 * i + j → t ∉ peersOf (9 * i + j) → st'.square t = ⟨511, 9⟩) ∧
      st'.unsolved_squares = 80 := by
  have hs : 9 * i + j < 81 := by omega
  obtain ⟨r, st', h⟩ := ur_total cfg initWiring_inRange fuel initState (9 * i + j)
    (not16 (1 <<< (d - 1))) hs (by rw [digitSum_initState]; exact hfuel)
  have h' := h
  rw [Nat.one_shiftLeft] at h'
  obtain ⟨hr, hself, hpeers, hothers, hcnt⟩ :=
    singleClue_call cfg initWiring_std hs (by omega : d - 1 < 9) h'
  subst hr
  refine ⟨st', h, hself, peersOf_card hs, ?_, ?_, hcnt⟩
  · intro t ht
    obtain ⟨ht81, hts, hsu⟩ := mem_peersOf.mp ht
    exact hpeers t ht81 hts hsu
  · intro t ht81 hts hnot
    exact hothers t (fun hsu => hnot (mem_peersOf.mpr ⟨ht81, hts, hsu⟩))

theorem C10_single_clue_witness :
    (0 < 9 ∧ 0 < 9 ∧ 1 ≤ 5 ∧ 5 ≤ 9 ∧ 41391 < 50000) ∧
    ∃ st', uncertainty_reduction ⟨false, false⟩ initWiring 50000 initState (9 * 0 + 0)
        (not16 (1 <<< (5 - 1))) = some (INCOMPLETE, st') ∧
      st'.square (9 * 0 + 0) = ⟨2 ^ (5 - 1), 1⟩ ∧
      (peersOf (9 * 0 + 0)).card = 20 ∧
      (∀ t ∈ peersOf (9 * 0 + 0), st'.square t = ⟨511 - 2 ^ (5 - 1), 8⟩) ∧
      (∀ t, t < 81 → t ≠ 9 * 0 + 0 → t ∉ peersOf (9 * 0 + 0) → st'.square t = ⟨511, 9⟩) ∧
      st'.unsolved_squares = 80 :=
  ⟨⟨by decide, by decide, by decide, by decide, by decide⟩,
    C10_single_clue ⟨false, false⟩ 50000 0 0 5 (by decide) (by decide) (by decide) (by decide)
      (by decide)⟩

end Sudoku
